import Mathlib

/-!
# Dragon: the Scan operator (graph unrolling) and its helpers

A shallow embedding of `src/operators/control_flow/scan_op.cc` and
`include/utils/string.h`.  Protobuf messages are records of lists, the two
`Map`s of the operator (`terms`, `graphs`) are finite maps written as functions
into `Option`, a failed `CHECK` is the `fatal` result carrying the state at the
moment of the failure, and C++ `int`s are `Int`/`Nat` (no arithmetic here can
overflow on realistic inputs).
-/

namespace Dragon

/-! ## `utils/string.h` -/

/-- `std::string::find(c)`: the first position at which `c` occurs, `none` for `npos`.
The empty string occurs at position 0 of every string. -/
def find (c : List Char) : List Char → Option Nat
  | [] => if c = [] then some 0 else none
  | x :: xs => if c.isPrefixOf (x :: xs) then some 0 else (find c xs).map (· + 1)

/-- The `while` loop of `str::split`: `temp` is the remaining text, `ret` the pieces
pushed so far.  One unit of fuel is one evaluation of the loop condition; `none`
means the fuel ran out. -/
def splitLoop (c : List Char) : Nat → List Char → List (List Char) → Option (List (List Char))
  | 0, _, _ => none
  | fuel + 1, temp, ret =>
    match find c temp with
    | some pos => splitLoop c fuel (temp.drop (pos + 1)) (ret ++ [temp.take pos])
    | none => some (ret ++ [temp])

/-- `str::split(str, c)`, run with `str.length + 1` units of fuel. -/
def split (str c : String) : Option (List String) :=
  (splitLoop c.data (str.length + 1) str.data []).map (fun r => r.map String.mk)

/-- `str::split(s, "@")[0]`, as used by `UnrollTemplate`. -/
def splitHead (s : String) : String :=
  match split s "@" with
  | some (h :: _) => h
  | _ => ""

/-! ## Graph definitions -/

/-- `Argument` message: only the integer and string payloads are used here. -/
structure Argument where
  name : String := ""
  i : Int := 0
  s : String := ""
deriving DecidableEq, Inhabited

/-- `DeviceOption` message, copied around but never inspected. -/
structure DeviceOption where
  device_type : Nat := 0
  gpu_id : Nat := 0
deriving DecidableEq, Inhabited

/-- `OperatorDef` message. -/
structure OperatorDef where
  name : String := ""
  type : String := ""
  input : List String := []
  output : List String := []
  arg : List Argument := []
deriving DecidableEq, Inhabited

/-- `GradientTarget` message. -/
structure GradientTarget where
  cost : String := ""
  wrt : String := ""
  external : String := ""
deriving DecidableEq, Inhabited

/-- `GraphDef` message. -/
structure GraphDef where
  name : String := ""
  op : List OperatorDef := []
  target : List String := []
  arg : List Argument := []
  g_target : List GradientTarget := []
  device_option : DeviceOption := {}
deriving DecidableEq, Inhabited

/-- A compiled `Graph`: identified with the definition it was constructed from. -/
structure Graph where
  gdef : GraphDef
deriving DecidableEq, Inhabited

/-! ## The Term mapping (`Map<string, string> terms`) -/

/-- The Term mapping. -/
abbrev Terms := String → Option String

/-- The empty mapping. -/
def Terms.empty : Terms := fun _ => none

/-- `terms.count(k)` as a truth value. -/
def Terms.has (m : Terms) (k : String) : Bool := (m k).isSome

/-- `terms[k] = v`. -/
def Terms.set (m : Terms) (k v : String) : Terms := fun x => if x = k then some v else m x

/-- `terms[k]` read for a key that is present. -/
def Terms.val (m : Terms) (k : String) : String := (m k).getD ""

/-- `if (terms.count(*s)) *s = terms[*s];` -/
def Terms.subst (m : Terms) (s : String) : String := if m.has s then m.val s else s

/-- The graph cache `Map<int, unique_ptr<Graph>> graphs`. -/
abbrev GraphCache := Int → Option Graph

/-- `graphs[n].reset(new Graph(...))`. -/
def GraphCache.set (m : GraphCache) (k : Int) (g : Graph) : GraphCache :=
  fun x => if x = k then some g else m x

/-! ## Workspace and results -/

/-- The part of the workspace the Scan operators touch. -/
structure Workspace where
  /-- The value `data<int>()[0]` of the tensor with that name, when it exists. -/
  ints : String → Option Int
  /-- The extent `dim(axis)` of the tensor with that name. -/
  dim : String → Int → Int
  /-- The graph definition serialized in the string tensor with that name. -/
  raw : String → Option GraphDef

/-- Outcome of a routine containing `CHECK`s. -/
inductive Result (σ : Type) where
  | fatal : σ → Result σ
  | ok : σ → Result σ

/-! ## `ScanOp` -/

/-- The members of `ScanOp` together with what it reads from `OperatorBase`. -/
structure ScanOp where
  name : String
  anchor : String := ""
  phase : String := ""
  device_option : DeviceOption := {}
  /-- The names `Input(i).name()`. -/
  inputs : List String
  /-- The names `Output(i)->name()`. -/
  outputs : List String
  axis : Int := 0
  nseqs : Nat
  nsteps : Int := 0
  nrepeats : Nat := 0
  nout : Nat
  step_type : String := "Static"
  step_tensor : String := ""
  default_outputs : List String
  /-- The parsed `func_str`. -/
  func_def : GraphDef
  template_def : GraphDef := {}
  new_def : GraphDef := {}
  terms : Terms := Terms.empty
  graphs : GraphCache := fun _ => none
  cur_graph : Option Graph := none

/-- The name `Input(i).name()`.  The accessors of `OperatorBase` are not part of this
file; here every index has a name, the empty one beyond the declared inputs. -/
def ScanOp.Input (op : ScanOp) (i : Nat) : String := op.inputs.getD i ""

/-- The name `Output(i)->name()`. -/
def ScanOp.Output (op : ScanOp) (i : Nat) : String := op.outputs.getD i ""

/-- The symbol `func_def.target(i)`. -/
def ScanOp.target (op : ScanOp) (i : Nat) : String := op.func_def.target.getD i ""

/-- The symbol `default_outputs[i]`. -/
def ScanOp.dflt (op : ScanOp) (i : Nat) : String := op.default_outputs.getD i ""

/-- An operator object on which `InitTemplate` has not run yet: the graph definitions
are empty messages and both maps are empty. -/
def ScanOp.fresh (op : ScanOp) : ScanOp :=
  { op with nrepeats := 0, template_def := {}, new_def := {}, terms := Terms.empty,
            graphs := fun _ => none, cur_graph := none }

/-- The `slice_def` prototype of `InitTemplate` (lines 17-23). -/
def sliceDef (axis : Int) : OperatorDef :=
  { type := "Slice",
    arg := [{ name := "axis", i := axis }, { name := "num_output", i := 1 }] }

/-- One iteration of the first loop of `InitTemplate` (lines 28-32). -/
def initSeq (op : ScanOp) (st : List OperatorDef × Terms) (i : Nat) :
    List OperatorDef × Terms :=
  (st.1 ++ [{ sliceDef op.axis with
                name := op.name ++ "(BodyOp." ++ toString i ++ ")",
                input := [op.Input i] }],
   st.2.set (op.Input i) (op.Input i ++ "@1"))

/-- One iteration of the output loop of `InitTemplate` (lines 45-47): `st.1` holds the
outputs already rewritten. -/
def initOutput (st : List String × Terms) (output : String) : List String × Terms :=
  let terms := st.2.set output (output ++ "@1")
  (st.1 ++ [terms.val output], terms)

/-- The step-1 instance made of body operator `i` (lines 36-48), with the mapping it
leaves behind. -/
def initBodyOp (op : ScanOp) (terms : Terms) (i : Nat) : OperatorDef × Terms :=
  let o := op.func_def.op.getD i {}
  let inputs := o.input.map terms.subst
  let r := o.output.foldl initOutput ([], terms)
  ({ o with
       name := op.name ++ "(BodyOp." ++ toString (i + op.nseqs) ++ ")@1",
       input := inputs, output := r.1 },
   r.2)

/-- One iteration of the second loop of `InitTemplate` (lines 35-48). -/
def initBody (op : ScanOp) (st : List OperatorDef × Terms) (i : Nat) :
    List OperatorDef × Terms :=
  let r := initBodyOp op st.2 i
  (st.1 ++ [r.1], r.2)

/-- One iteration of the last loop of `InitTemplate` (lines 52-53). -/
def initPre (op : ScanOp) (terms : Terms) (i : Nat) : Terms :=
  if op.dflt i = "" then terms else terms.set (op.dflt i) (op.target i ++ "@1")

/-- `ScanOp::InitTemplate`. -/
def InitTemplate (op : ScanOp) : ScanOp :=
  let nrepeats := op.func_def.op.length
  let s1 := (List.range op.nseqs).foldl (initSeq op) (op.template_def.op, op.terms)
  let s2 := (List.range nrepeats).foldl (initBody op) s1
  let terms := (List.range op.nout).foldl (initPre op) s2.2
  { op with
      nrepeats := nrepeats,
      template_def := { op.template_def with device_option := op.device_option, op := s2.1 },
      terms := terms }

/-- The first loop of `UpdateTerms` (lines 61-65). -/
def updateSeq (op : ScanOp) (cur_step : Nat) (terms : Terms) (i : Nat) : Terms :=
  terms.set (op.Input i ++ "@" ++ toString (cur_step - 1))
    (op.Input i ++ "@" ++ toString cur_step)

/-- The second loop of `UpdateTerms` (lines 69-74). -/
def updateRec (op : ScanOp) (cur_step : Nat) (terms : Terms) (i : Nat) : Terms :=
  if op.dflt i = "" then terms
  else terms.set (op.Output i ++ "@" ++ toString (cur_step - 2))
    (op.Output i ++ "@" ++ toString (cur_step - 1))

/-- `ScanOp::UpdateTerms(cur_step)` as a function of the mapping.  The only caller
passes `cur_step ≥ 2`, where the natural-number subtractions agree with the `int` ones. -/
def UpdateTerms (op : ScanOp) (cur_step : Nat) (terms : Terms) : Terms :=
  let terms1 := (List.range op.nseqs).foldl (updateSeq op cur_step) terms
  if cur_step < 3 then terms1
  else (List.range op.nout).foldl (updateRec op cur_step) terms1

/-- One iteration of the output loop of the main loop (lines 121-124). -/
def unrollOutput (t : Nat) (st : List String × Terms) (output : String) :
    List String × Terms :=
  let terms := st.2.set output (splitHead output ++ "@" ++ toString t)
  (st.1 ++ [terms.val output], terms)

/-- The clone made of operator `o` at step `t` (lines 110-125), with the mapping it
leaves behind. -/
def unrollOp (t : Nat) (terms : Terms) (o : OperatorDef) : OperatorDef × Terms :=
  let inputs := o.input.map terms.subst
  let r := o.output.foldl (unrollOutput t) ([], terms)
  ({ o with name := splitHead o.name ++ "@" ++ toString t, input := inputs, output := r.1 },
   r.2)

/-- One iteration of the inner loop (line 109): clone `o` and append the clone. -/
def unrollCopy (t : Nat) (st : List OperatorDef × Terms) (o : OperatorDef) :
    List OperatorDef × Terms :=
  let r := unrollOp t st.2 o
  (st.1 ++ [r.1], r.2)

/-- One iteration of the main loop (lines 107-126).  The operators at the indices
`copy_l ≤ idx < copy_r` are the last `nrepeats` ones present when the step starts;
appending clones does not move them. -/
def unrollStep (op : ScanOp) (st : List OperatorDef × Terms) (t : Nat) :
    List OperatorDef × Terms :=
  let terms := UpdateTerms op t st.2
  let copy_r := st.1.length
  let copy_l := copy_r - op.nrepeats
  (st.1.drop copy_l).foldl (unrollCopy t) (st.1, terms)

/-- The slice symbols added by lines 100-103. -/
def sliceOutputs (x : String) (nslices : Int) : List String :=
  (List.range' 1 nslices.toNat).map (fun t => x ++ "@" ++ toString t)

/-- `arg(1).set_i(v)` on an argument list. -/
def setArg1 (args : List Argument) (v : Int) : List Argument :=
  match args with
  | a :: b :: rest => a :: { b with i := v } :: rest
  | other => other

/-- One iteration of the slice loop of `UnrollTemplate` (lines 95-103). -/
def unrollSlice (op : ScanOp) (ws : Workspace) (ops : List OperatorDef) (idx : Nat) :
    List OperatorDef :=
  let o := ops.getD idx {}
  let nslices := ws.dim (op.Input idx) op.axis
  ops.set idx { o with arg := setArg1 o.arg nslices,
                       output := o.output ++ sliceOutputs (o.input.getD 0 "") nslices }

/-- The `Concat` operator of lines 133-143. -/
def concatOp (op : ScanOp) (i : Nat) : OperatorDef :=
  { name := op.name ++ "(BodyOp." ++ toString (op.nseqs + op.nrepeats + i) ++ ")",
    type := "Concat",
    arg := [{ name := "axis", i := op.axis }, { name := "num_input", i := op.nsteps }],
    input := (List.range' 1 op.nsteps.toNat).map
      (fun t => op.Output i ++ "@" ++ toString t),
    output := [op.Output i] }

/-- One iteration of the result loop of `UnrollTemplate` (lines 128-146). -/
def unrollResult (op : ScanOp) (g : GraphDef) (i : Nat) : GraphDef :=
  let g1 := { g with target := g.target ++ [op.target i ++ "@" ++ toString op.nsteps] }
  if op.Output i = "ignore" then g1
  else { g1 with op := g1.op ++ [concatOp op i], target := g1.target ++ [op.Output i] }

/-- The name of the tensor holding the forward graph, `"/mnt/" + anchor() + "/raw_ops"`. -/
def rawOpsName (anchor : String) : String := "/mnt/" ++ anchor ++ "/raw_ops"

/-- Lines 90-151 of `UnrollTemplate`: build `new_def` for the trip count `op.nsteps`
and upload it. -/
def buildGraph (op : ScanOp) (ws : Workspace) : ScanOp × Workspace :=
  let g0 : GraphDef :=
    { op.template_def with
        name := op.name ++ "(ScanLen." ++ toString op.nsteps ++ ")",
        arg := op.template_def.arg ++ [{ name := "phase", s := op.phase }] }
  let ops1 := (List.range op.nseqs).foldl (unrollSlice op ws) g0.op
  let s := (List.range' 2 (op.nsteps.toNat - 1)).foldl (unrollStep op) (ops1, op.terms)
  let g1 : GraphDef := { g0 with op := s.1 }
  let op1 := { op with terms := s.2 }
  let g2 := (List.range op.nout).foldl (unrollResult op1) g1
  ({ op1 with new_def := g2 },
   { ws with raw := fun x => if x = rawOpsName op.anchor then some g2 else ws.raw x })

/-- Lines 79-84 of `UnrollTemplate`: resolve the trip count. -/
def resolveSteps (op : ScanOp) (ws : Workspace) : Result ScanOp :=
  if op.step_type = "Dynamic" then
    if op.step_tensor = "" then Result.fatal op
    else
      match ws.ints op.step_tensor with
      | none => Result.fatal op
      | some v => Result.ok { op with nsteps := v }
  else if op.step_type = "Default" then
    Result.ok { op with nsteps := ws.dim (op.Input 0) op.axis }
  else Result.ok op

/-- `ScanOp::UnrollTemplate`. -/
def UnrollTemplate (op : ScanOp) (ws : Workspace) : Result (ScanOp × Workspace) :=
  match resolveSteps op ws with
  | Result.fatal op1 => Result.fatal (op1, ws)
  | Result.ok op1 =>
    if op1.nsteps < 1 then Result.fatal (op1, ws)
    else if (List.range op1.nseqs).any
        (fun i => decide (ws.dim (op1.Input i) op1.axis ≠ op1.nsteps)) then
      Result.fatal (op1, ws)
    else if (op1.graphs op1.nsteps).isSome then Result.ok (op1, ws)
    else Result.ok (buildGraph op1 ws)

/-- `ScanOp::RunOnDevice`, up to the selection of the graph to run (the execution of
the selected graph is outside this development). -/
def RunOnDevice (op : ScanOp) (ws : Workspace) : Result (ScanOp × Workspace) :=
  match UnrollTemplate op ws with
  | Result.fatal s => Result.fatal s
  | Result.ok (op1, ws1) =>
    let graphs :=
      if (op1.graphs op1.nsteps).isSome then op1.graphs
      else op1.graphs.set op1.nsteps ⟨op1.new_def⟩
    Result.ok ({ op1 with graphs := graphs, cur_graph := graphs op1.nsteps }, ws1)

/-- The graph `UnrollTemplate` leaves in `new_def`, when it returns. -/
def unrolledGraph (op : ScanOp) (ws : Workspace) : Option GraphDef :=
  match UnrollTemplate op ws with
  | Result.ok r => some r.1.new_def
  | Result.fatal _ => none

/-- The trip count resolved by lines 79-84, when that succeeds. -/
def tripCount (op : ScanOp) (ws : Workspace) : Option Int :=
  match resolveSteps op ws with
  | Result.ok s => some s.nsteps
  | Result.fatal _ => none

/-- An operator after `InitTemplate` whose mutable members (the mapping, the last
built definition, the cache, the selected graph and the stored trip count) hold
arbitrary values: any state later runs can have left behind. -/
def ScanOp.later (op : ScanOp) (terms : Terms) (new_def : GraphDef) (graphs : GraphCache)
    (cur_graph : Option Graph) (nsteps : Int) : ScanOp :=
  { InitTemplate op.fresh with
      terms := terms, new_def := new_def, graphs := graphs, cur_graph := cur_graph,
      nsteps := nsteps }

/-! ## Auxiliary notions used to state and prove the properties -/

/-- The symbol contains no `@`. -/
def NoAt (s : String) : Prop := '@' ∉ s.data

instance (s : String) : Decidable (NoAt s) := by unfold NoAt; infer_instance

/-- No symbol of the template contains `@`: sequence inputs, body inputs and outputs,
initial-state symbols, result symbols and declared output names. -/
def SymbolsNoAt (op : ScanOp) : Prop :=
  (∀ i, i < op.nseqs → NoAt (op.Input i)) ∧
  (∀ o ∈ op.func_def.op, (∀ y ∈ o.output, NoAt y) ∧ (∀ x ∈ o.input, NoAt x)) ∧
  (∀ i, i < op.nout → NoAt (op.dflt i) ∧ NoAt (op.target i) ∧ NoAt (op.Output i))

instance (op : ScanOp) : Decidable (SymbolsNoAt op) := by unfold SymbolsNoAt; infer_instance

/-- Decimal value of a digit string. -/
def decodeDigits (l : List Char) : Nat := l.foldl (fun a c => 10 * a + (c.toNat - 48)) 0

/-- Thread the mapping through a list, collecting one operator per element. -/
def scanOps {α : Type} (step : Terms → α → OperatorDef × Terms) :
    Terms → List α → List OperatorDef × Terms
  | tm, [] => ([], tm)
  | tm, a :: l => ((step tm a).1 :: (scanOps step (step tm a).2 l).1,
                   (scanOps step (step tm a).2 l).2)

/-- The body instances of step `n + 1` and the mapping after that step, starting from
the step-1 instances `body` and the mapping `tm`. -/
def stepState (op : ScanOp) (body : List OperatorDef) (tm : Terms) :
    Nat → List OperatorDef × Terms
  | 0 => (body, tm)
  | n + 1 =>
    scanOps (unrollOp (n + 2)) (UpdateTerms op (n + 2) (stepState op body tm n).2)
      (stepState op body tm n).1

/-- The body instances of steps `1 .. n + 1`, in order. -/
def allSteps (op : ScanOp) (body : List OperatorDef) (tm : Terms) : Nat → List OperatorDef
  | 0 => body
  | n + 1 => allSteps op body tm n ++ (stepState op body tm (n + 1)).1

/-- The mapping whose keys are the members of `l`, each sent to its step-1 instance. -/
def domTerms (l : List String) : Terms :=
  fun k => if k ∈ l then some (k ++ "@1") else none

/-- Every entry whose key is a step instance `s@j` sends it to `s@(j+1)`. -/
def Good (tm : Terms) : Prop :=
  ∀ (s : String) (j : Nat) (v : String), NoAt s →
    tm (s ++ "@" ++ toString j) = some v → v = s ++ "@" ++ toString (j + 1)

/-- Template body operator `k`, `func_def.op(k)`. -/
def ScanOp.body (op : ScanOp) (k : Nat) : OperatorDef := op.func_def.op.getD k {}

/-- The list `S` holds the step-`t` instances of the body: one per template operator,
with its type, arguments and arity, and with every output `y` renamed to `y@t`. -/
def BodyAt (op : ScanOp) (t : Nat) (S : List OperatorDef) : Prop :=
  S.length = op.func_def.op.length ∧
  ∀ k, k < op.func_def.op.length → ∃ inst, S[k]? = some inst ∧
    inst.type = (op.body k).type ∧ inst.arg = (op.body k).arg ∧
    inst.output = (op.body k).output.map (fun y => y ++ "@" ++ toString t) ∧
    inst.input.length = (op.body k).input.length

/-- What holds of the mapping `m` when body operator `k` is cloned for step `t + 1`,
where `tm` was the mapping when step `t` ended. -/
def StepInv (op : ScanOp) (t : Nat) (tm : Terms) (k : Nat) (m : Terms) : Prop :=
  Good m ∧ (∀ x, NoAt x → m x = tm x) ∧
  (∀ i, i < op.nseqs → (m (op.Input i ++ "@" ++ toString t)).isSome) ∧
  (∀ k', k' < k → ∀ y ∈ (op.body k').output, (m (y ++ "@" ++ toString t)).isSome) ∧
  (2 ≤ t → ∀ i, i < op.nout → op.dflt i ≠ "" →
    (m (op.Output i ++ "@" ++ toString (t - 1))).isSome)

/-- The template `Slice` operator of sequence input `i` (lines 28-31). -/
def templateSlice (op : ScanOp) (i : Nat) : OperatorDef :=
  { sliceDef op.axis with
      name := op.name ++ "(BodyOp." ++ toString i ++ ")",
      input := [op.Input i] }

/-- The sequence-input symbols. -/
def seqNames (op : ScanOp) : List String := (List.range op.nseqs).map op.Input

/-- The symbols written by the first `k` operators of the body. -/
def written (op : ScanOp) : Nat → List String
  | 0 => []
  | k + 1 => written op k ++ (op.body k).output

/-- The step-1 instances that `InitTemplate` puts in the template. -/
def body1 (op : ScanOp) : List OperatorDef :=
  (scanOps (initBodyOp op) (domTerms (seqNames op)) (List.range op.func_def.op.length)).1

/-- The mapping that `InitTemplate` leaves behind. -/
def terms1 (op : ScanOp) : Terms :=
  (List.range op.nout).foldl (initPre op)
    (domTerms (seqNames op ++ written op op.func_def.op.length))

/-- The `Slice` operator of sequence input `i` after lines 95-103. -/
def unrolledSlice (op : ScanOp) (ws : Workspace) (i : Nat) : OperatorDef :=
  { templateSlice op i with
      arg := [{ name := "axis", i := op.axis },
              { name := "num_output", i := ws.dim (op.Input i) op.axis }],
      output := sliceOutputs (op.Input i) (ws.dim (op.Input i) op.axis) }

/-- The targets contributed by result `i` (lines 130 and 145). -/
def resultTargets (op : ScanOp) (i : Nat) : List String :=
  if op.Output i = "ignore" then [op.target i ++ "@" ++ toString op.nsteps]
  else [op.target i ++ "@" ++ toString op.nsteps, op.Output i]

/-! ## `ScanGradientOp` -/

/-- What `ScanGradientOp::MakeOps` configures on its `GraphGradientMaker`. -/
structure GraphGradientMaker where
  terms : Terms := Terms.empty
  /-- Set by `SetOperatorPrefix`. -/
  opPre : String := ""
  /-- Set by `SetOperatorSuffix`. -/
  opSuf : String := ""
  /-- The names registered with `AddExternalGrad`, in order. -/
  external_grads : List String := []

/-- The members of `ScanGradientOp` together with what it reads from `OperatorBase`. -/
structure ScanGradientOp where
  name : String
  anchor : String := ""
  /-- The names `Input(i).name()`. -/
  inputs : List String
  /-- The names `Output(i)->name()`. -/
  outputs : List String
  axis : Int := 0
  nsteps : Int := 0
  step_type : String := "Static"
  step_tensor : String := ""
  forward_outputs : List String
  terms : Terms := Terms.empty
  graphs : GraphCache := fun _ => none
  cur_graph : Option Graph := none

/-- The name `Input(i).name()`. -/
def ScanGradientOp.Input (op : ScanGradientOp) (i : Nat) : String := op.inputs.getD i ""

/-- The name `Output(i)->name()`. -/
def ScanGradientOp.Output (op : ScanGradientOp) (i : Nat) : String := op.outputs.getD i ""

/-- The count `OutputSize()`. -/
def ScanGradientOp.OutputSize (op : ScanGradientOp) : Nat := op.outputs.length

/-- Lines 173-176 of `MakeOps`: resolve the trip count (a missing step tensor is fatal
inside `GetTensor`). -/
def ScanGradientOp.resolve (op : ScanGradientOp) (ws : Workspace) : Result ScanGradientOp :=
  if op.step_type = "Dynamic" then
    match ws.ints op.step_tensor with
    | none => Result.fatal op
    | some v => Result.ok { op with nsteps := v }
  else if op.step_type = "Default" then
    Result.ok { op with nsteps := ws.dim (op.Input 0) op.axis }
  else Result.ok op

/-- One iteration of the loop of lines 189-192. -/
def addExternal (op : ScanGradientOp) (maker : GraphGradientMaker) (i : Nat) :
    GraphGradientMaker :=
  if op.Input (i + op.OutputSize) ≠ "ignore" then
    { maker with external_grads := maker.external_grads ++ [op.Input (i + op.OutputSize)] }
  else maker

/-- Lines 185-192 of `MakeOps`: the configured maker. -/
def makerFor (op : ScanGradientOp) : GraphGradientMaker :=
  (List.range op.forward_outputs.length).foldl (addExternal op)
    { terms := op.terms, opPre := op.name ++ "(BodyOp.", opSuf := ")" }

/-- One iteration of the inner loop of lines 200-207. -/
def addGTarget (op : ScanGradientOp) (target : String) (g : GraphDef) (i : Nat) : GraphDef :=
  if op.Output i = "ignore" then g
  else if op.Input i = "ignore" then g
  else { g with g_target := g.g_target ++
          [{ cost := target, wrt := op.Input i, external := op.Output i }] }

/-- One iteration of the outer loop of lines 199-208. -/
def addGTargets (op : ScanGradientOp) (g : GraphDef) (target : String) : GraphDef :=
  (List.range op.OutputSize).foldl (addGTarget op target) g

/-- `ScanGradientOp::MakeOps(forward_def, new_def)`.  `GraphGradientMaker::Make` is not
part of this file: it is the parameter `make`, applied to the configured maker, the
forward definition, the targets and the definition under construction. -/
def MakeOps (make : GraphGradientMaker → GraphDef → List String → GraphDef → GraphDef)
    (op : ScanGradientOp) (ws : Workspace) (forward_def new_def : GraphDef) :
    Result (ScanGradientOp × GraphDef) :=
  match op.resolve ws with
  | Result.fatal op1 => Result.fatal (op1, new_def)
  | Result.ok op1 =>
    if (op1.graphs op1.nsteps).isSome then Result.ok (op1, new_def)
    else
      let targets := forward_def.target
      let g1 := make (makerFor op1) forward_def targets new_def
      let g2 := { g1 with name := op1.name ++ "(ScanLen." ++ toString op1.nsteps ++ ")" }
      Result.ok (op1, targets.foldl (addGTargets op1) g2)

/-- `ScanGradientOp::RunOnDevice`, up to the selection of the graph to run. -/
def ScanGradientOp.RunOnDevice
    (make : GraphGradientMaker → GraphDef → List String → GraphDef → GraphDef)
    (op : ScanGradientOp) (ws : Workspace) : Result (ScanGradientOp × Workspace) :=
  match ws.raw (rawOpsName op.anchor) with
  | none => Result.fatal (op, ws)
  | some forward_def =>
    match MakeOps make op ws forward_def forward_def with
    | Result.fatal r => Result.fatal (r.1, ws)
    | Result.ok (op1, new_def) =>
      let graphs :=
        if (op1.graphs op1.nsteps).isSome then op1.graphs
        else op1.graphs.set op1.nsteps ⟨new_def⟩
      Result.ok ({ op1 with graphs := graphs, cur_graph := graphs op1.nsteps }, ws)

/-- Forward runs of one operator, one per listed trip count: before each run the
sequence inputs are given that extent, everything else persists. -/
def forwardRuns : ScanOp × Workspace → List Int → Option (ScanOp × Workspace)
  | st, [] => some st
  | st, n :: rest =>
    match RunOnDevice st.1 { st.2 with dim := fun _ _ => n } with
    | Result.ok st1 => forwardRuns st1 rest
    | Result.fatal _ => none

/-- The indices `i < OutputSize()` for which neither `Output(i)` nor `Input(i)` is named
"ignore" (the tests of lines 201-202), in increasing order. -/
def gradIndices (op : ScanGradientOp) : List Nat :=
  (List.range op.OutputSize).filter
    (fun i => decide (op.Output i ≠ "ignore" ∧ op.Input i ≠ "ignore"))

/-! ## `GetScanGradient` -/

/-- Modelled from the spec: `SingleDef` of `GradientMakerBase` (core/operator_gradient.h)
is not under src/.  A gradient rule produces operator records made of a type, a name,
ordered inputs and ordered outputs; `SingleDef` yields the list holding the one record
made of its four arguments. -/
def SingleDef (type name : String) (inputs outputs : List String) : List OperatorDef :=
  [{ type := type, name := name, input := inputs, output := outputs }]

/-- `GetScanGradient::MakeDefs` for the forward definition `fdef`.  The symbol accessors
`I(i)`, `GI(i)` and `GO(i)` of `GradientMakerBase` are not under src/ and are parameters. -/
def GetScanGradient.MakeDefs (I GI GO : Nat → String) (fdef : OperatorDef) :
    List OperatorDef :=
  let s1 := (List.range fdef.input.length).foldl
    (fun (st : List String × List String) i => (st.1 ++ [I i], st.2 ++ [GI i])) ([], [])
  let inputs := (List.range fdef.output.length).foldl (fun acc i => acc ++ [GO i]) s1.1
  SingleDef (fdef.type ++ "Gradient") "" inputs s1.2

/-- `OPERATOR_SCHEMA(Scan).NumInputs(1, INT_MAX).NumOutputs(1, INT_MAX)`: at least one
input and one output (`INT_MAX` is the largest size a definition can have). -/
def ScanSchema (d : OperatorDef) : Prop := 1 ≤ d.input.length ∧ 1 ≤ d.output.length

/-- `OPERATOR_SCHEMA(ScanGradient).NumInputs(2, INT_MAX).NumOutputs(1, INT_MAX)`. -/
def ScanGradientSchema (d : OperatorDef) : Prop := 2 ≤ d.input.length ∧ 1 ≤ d.output.length

/-! ## `MixedMemory` -/

/-- `MixedMemory::State`. -/
inductive MemState where
  | UNINITIALIZED
  | STATE_AT_CPU
  | STATE_AT_CUDA
  | STATE_AT_CNML
  | SWITCHED
  | SYNCED
deriving DecidableEq, Inhabited

/-- The backends that have accessors in `MixedMemory`. -/
inductive Backend where
  | cpu
  | cuda
  | cnml
deriving DecidableEq, Inhabited

/-- The state naming backend `b` as the holder of the data. -/
def stateAt : Backend → MemState
  | Backend.cpu => MemState.STATE_AT_CPU
  | Backend.cuda => MemState.STATE_AT_CUDA
  | Backend.cnml => MemState.STATE_AT_CNML

/-- A `MixedMemory` block: its state, its size, and the number of copies between
backends performed on it so far. -/
structure MixedMemory where
  state : MemState := MemState.UNINITIALIZED
  nbytes : Nat := 0
  copies : Nat := 0
deriving DecidableEq, Inhabited

/-- Modelled from the spec: the read accessors `cpu_data`, `cuda_data`, `cnml_data` are
declared in mixedmem.h and defined outside src/.  "If the requested backend's state is
not current, performs exactly one copy from whichever backend is currently valid, marks
the destination valid, and sets state to Synced".  The spec names no source for a copy in
a block no backend has touched (the state then names the requested backend), and says
nothing of reads after a device switch (the block is left as it is). -/
def MixedMemory.data (m : MixedMemory) (b : Backend) : MixedMemory :=
  match m.state with
  | MemState.UNINITIALIZED => { m with state := stateAt b }
  | MemState.SWITCHED => m
  | MemState.SYNCED => m
  | s => if s = stateAt b then m else { m with state := MemState.SYNCED, copies := m.copies + 1 }

/-- Modelled from the spec: the mutable accessors `mutable_cpu_data`, `mutable_cuda_data`,
`mutable_cnml_data` are declared in mixedmem.h and defined outside src/.  "Returns a
writable pointer for the requested backend and immediately marks every other backend's
state Stale": the one state of the block names the requested backend. -/
def MixedMemory.mutable_data (m : MixedMemory) (b : Backend) : MixedMemory :=
  { m with state := stateAt b }

/-! ## `ReshapeOp` -/

/-- The value a `TIndex` (`int64_t`, dragon.h line 27) holds after an arithmetic result
`x`: `x` reduced modulo 2^64 into the range -2^63 .. 2^63 - 1. -/
def wrap64 (x : Int) : Int :=
  (x + 9223372036854775808) % 18446744073709551616 - 9223372036854775808

/-- Outcome of `ReshapeOp::RunOnDevice`: a failed `CHECK`, an integer division whose
result is undefined (a zero divisor, or -2^63 divided by -1), or the shape given to
`Output(0)`. -/
inductive ReshapeResult where
  | fatal
  | undefined
  | ok (new_shape : List Int)
deriving DecidableEq

/-- The variables of the first loop of `RunOnDevice` (lines 20-42). -/
structure ReshapeState where
  new_shape : List Int := []
  infer_dim : Int := -1
  total_count : Int := 1
deriving DecidableEq

/-- One iteration of the first loop (lines 24-41); `none` is a failed `CHECK`.  Entry `i`
of `new_shape` is appended, the entries before it having been written already.  The
product `total_count *= new_shape[i]` of line 41 is a `TIndex` product. -/
def reshapeStep (Xdims require_shape : List Int) (st : Option ReshapeState) (i : Nat) :
    Option ReshapeState :=
  match st with
  | none => none
  | some s =>
    let r := require_shape.getD i 0
    let s1 : Option ReshapeState :=
      if r = 0 then
        if i < Xdims.length then some { s with new_shape := s.new_shape ++ [Xdims.getD i 0] }
        else none
      else if r > 0 then some { s with new_shape := s.new_shape ++ [r] }
      else if s.infer_dim = -1 then
        some { s with new_shape := s.new_shape ++ [-1], infer_dim := i }
      else none
    match s1 with
    | none => none
    | some s2 =>
      if s2.new_shape.getD i 0 ≠ -1 then
        some { s2 with total_count := wrap64 (s2.total_count * s2.new_shape.getD i 0) }
      else some s2

/-- Lines 19-62 of `ReshapeOp::RunOnDevice` for the input dimensions `Xdims`, the input
element count `count` (`Input(0).count()`) and the requested shape `require_shape`
(computed by lines 8-17), all of them `TIndex` values.  `TIndex` is `int64_t`: the
products of lines 41 and 53 are reduced modulo 2^64, `/` and `%` truncate, and both are
undefined for a zero divisor and for -2^63 divided by -1. -/
def reshape (Xdims : List Int) (count : Int) (require_shape : List Int) : ReshapeResult :=
  match (List.range require_shape.length).foldl (reshapeStep Xdims require_shape)
      (some {}) with
  | none => ReshapeResult.fatal
  | some s =>
    let solved : Option (Option ReshapeState) :=
      if s.infer_dim ≠ -1 then
        match s.new_shape.indexOf? (-1) with
        | some i =>
          if s.total_count = 0 ∨ (count = -9223372036854775808 ∧ s.total_count = -1) then none
          else if Int.tmod count s.total_count ≠ 0 then some none
          else
            some (some { s with
              new_shape := s.new_shape.set i (Int.tdiv count s.total_count),
              total_count := wrap64 (s.total_count * Int.tdiv count s.total_count) })
        | none => some (some s)
      else some (some s)
    match solved with
    | none => ReshapeResult.undefined
    | some none => ReshapeResult.fatal
    | some (some s2) =>
      if s2.total_count = count then ReshapeResult.ok s2.new_shape else ReshapeResult.fatal

/-- The integer `x` is representable as a `TIndex`. -/
def InRange64 (x : Int) : Prop := -9223372036854775808 ≤ x ∧ x < 9223372036854775808

instance (x : Int) : Decidable (InRange64 x) := by unfold InRange64; infer_instance

/-- The name `name() + "(BodyOp." + str(i) + ")"` given to operator `i` of the template
(lines 29 and 134) and, followed by `@1`, to the step-1 body instances (line 37). -/
def opName (op : ScanOp) (i : Nat) : String := op.name ++ "(BodyOp." ++ toString i ++ ")"

/-- The symbol `u` belongs to step `k`: a symbol without `@` belongs to step 0, and
`s@k`, for `s` without `@`, to step `k`. -/
def AtStep (u : String) (k : Nat) : Prop :=
  (k = 0 ∧ NoAt u) ∨ ∃ s, NoAt s ∧ u = s ++ "@" ++ toString k

/-- Every entry of the mapping sends a symbol of some step `k` to a symbol of step
`k + 1`. -/
def StepUp (tm : Terms) : Prop :=
  ∀ key v, tm key = some v → ∃ k, AtStep key k ∧ AtStep v (k + 1)

/-- The states of the operator `op` reached after `InitTemplate` by any sequence of calls
of `UnrollTemplate` and `RunOnDevice` that return, on arbitrary workspaces. -/
inductive Reach (op : ScanOp) : ScanOp → Prop where
  | init : Reach op (InitTemplate op.fresh)
  | unroll (s : ScanOp) (ws : Workspace) (r : ScanOp × Workspace) :
      Reach op s → UnrollTemplate s ws = Result.ok r → Reach op r.1
  | run (s : ScanOp) (ws : Workspace) (r : ScanOp × Workspace) :
      Reach op s → RunOnDevice s ws = Result.ok r → Reach op r.1

/-- The symbols whose step instances can be keys of the mapping: sequence inputs, body
outputs, and declared outputs with an initial state. -/
def Base (op : ScanOp) (s : String) : Prop :=
  s ∈ seqNames op ∨ s ∈ written op op.func_def.op.length ∨
    ∃ i, i < op.nout ∧ op.dflt i ≠ "" ∧ s = op.Output i

/-- Every key of the mapping is a symbol without `@` or a step instance `s@j`, `j ≥ 1`,
of a symbol `s` of `Base`. -/
def Keyed (op : ScanOp) (tm : Terms) : Prop :=
  ∀ key v, tm key = some v →
    NoAt key ∨ ∃ s j, NoAt s ∧ 1 ≤ j ∧ Base op s ∧ key = s ++ "@" ++ toString j

/-- What every mapping left by earlier unrolls satisfies: step instances map one step up,
the entries of the symbols without `@` are those `InitTemplate` made, and the other keys
are step instances of `Base` symbols. -/
def Hist (op : ScanOp) (tm : Terms) : Prop :=
  Good tm ∧ (∀ x, NoAt x → tm x = terms1 op x) ∧ Keyed op tm

/-- The inputs of the step-`t` instance `inst` of body operator `k`: an input without `@`
is a template input that is neither a sequence input nor written by an earlier body
operator; any other input is `s@j` with `1 ≤ j ≤ t`, and for `j = t` the symbol `s` is a
sequence input or written by an earlier body operator. -/
def InstOK (op : ScanOp) (t k : Nat) (inst : OperatorDef) : Prop :=
  ∀ u ∈ inst.input,
    (NoAt u ∧ u ∈ (op.body k).input ∧ u ∉ seqNames op ++ written op k) ∨
    ∃ s j, NoAt s ∧ u = s ++ "@" ++ toString j ∧ 1 ≤ j ∧ j ≤ t ∧
      (j = t → s ∈ seqNames op ++ written op k)

/-- The `Concat` operator of declared output `i` in the graph built for the trip count
`N` (lines 133-143), on an operator prepared by `InitTemplate`. -/
def concatAt (op : ScanOp) (N : Nat) (i : Nat) : OperatorDef :=
  { name := opName op (op.nseqs + op.func_def.op.length + i),
    type := "Concat",
    arg := [{ name := "axis", i := op.axis }, { name := "num_input", i := N }],
    input := (List.range' 1 N).map (fun t => op.Output i ++ "@" ++ toString t),
    output := [op.Output i] }

/-- The operator list of the graph built for the trip count `N` from the mapping `tm`:
the slices, the instances of steps `1 .. N`, and the concats of the outputs that are not
ignored. -/
def unrolledOps (op : ScanOp) (ws : Workspace) (tm : Terms) (N : Nat) : List OperatorDef :=
  (List.range op.nseqs).map (unrolledSlice op ws)
    ++ allSteps op (body1 op) tm (N - 1)
    ++ ((List.range op.nout).filter (fun i => decide (op.Output i ≠ "ignore"))).map
        (concatAt op N)

/-- How the mapping `md` of an unrolling that starts right after `InitTemplate` and the
mapping `mh` of an unrolling that starts from what earlier unrolls left are related when
body operator `k` is cloned for step `t + 1`: both send step instances one step up, they
agree on the symbols without `@`, every key of `md` is a key of `mh`, and a key `s@j` that
only `mh` has is beyond what a step-`t` instance of operator `k` can read. -/
def Coup (op : ScanOp) (t k : Nat) (md mh : Terms) : Prop :=
  Good md ∧ Good mh ∧ (∀ x, NoAt x → md x = mh x) ∧ Keyed op mh ∧
  (∀ key, (md key).isSome → (mh key).isSome) ∧
  (∀ (s : String) (j : Nat), NoAt s → (mh (s ++ "@" ++ toString j)).isSome →
    (md (s ++ "@" ++ toString j)).isSome ∨ t < j ∨
      (j = t ∧ s ∉ seqNames op ++ written op k))

/-! ## Concrete operators used to exercise the statements -/

/-- A recurrent cell `h = Tanh(Add(x, h0, w))` scanned over the sequence `x`. -/
def exScan : ScanOp where
  name := "scan"
  inputs := ["x"]
  outputs := ["h"]
  nseqs := 1
  nout := 1
  step_type := "Default"
  default_outputs := ["h0"]
  func_def :=
    { op := [{ name := "b0", type := "Add", input := ["x", "h0", "w"], output := ["tmp"] },
             { name := "b1", type := "Tanh", input := ["tmp"], output := ["h"] }],
      target := ["h"] }

/-- Two declared outputs `h` and `g` that start from the same initial state `h0`. -/
def exShared : ScanOp where
  name := "scan"
  inputs := ["x"]
  outputs := ["h", "g"]
  nseqs := 1
  nout := 2
  step_type := "Default"
  default_outputs := ["h0", "h0"]
  func_def :=
    { op := [{ name := "b0", type := "Add", input := ["x", "h0"], output := ["h"] },
             { name := "b1", type := "Mul", input := ["x", "h0"], output := ["g"] }],
      target := ["h", "g"] }

/-- A workspace in which every tensor has extent `n` along every axis. -/
def exWs (n : Int) : Workspace :=
  { ints := fun _ => none, dim := fun _ _ => n, raw := fun _ => none }

/-- A gradient operator for `exScan`: inputs are the forward inputs followed by the
gradient of the forward output, the output is the gradient of the forward input. -/
def exGrad : ScanGradientOp where
  name := "scan_grad"
  inputs := ["x", "h_grad"]
  outputs := ["x_grad"]
  step_type := "Default"
  forward_outputs := ["h"]

/-- A gradient operator whose first two inputs have the same name `x`: the gradient
operator of a scan that is given the tensor `x` as both of its inputs. -/
def exDupGrad : ScanGradientOp where
  name := "scan_grad"
  inputs := ["x", "x", "h_grad"]
  outputs := ["dx0", "dx1"]
  step_type := "Default"
  forward_outputs := ["h"]

/-- The operator `exScan` in a state where a graph is cached for the trip count 2. -/
def exCached : ScanOp :=
  { InitTemplate exScan.fresh with
      graphs := fun n => if n = 2 then some ⟨{ name := "scan(ScanLen.2)" }⟩ else none }

/-- The operator `exScan` under a name that contains `@`. -/
def exAtName : ScanOp := { exScan with name := "s@x" }

/-- A scan that is given the same tensor `x` as both of its sequence inputs. -/
def exDupSeq : ScanOp where
  name := "scan"
  inputs := ["x", "x"]
  outputs := ["out"]
  nseqs := 2
  nout := 1
  step_type := "Default"
  default_outputs := [""]
  func_def :=
    { op := [{ name := "b0", type := "Relu", input := ["x"], output := ["y"] }],
      target := ["y"] }

/-- A scan whose declared output has the name of its sequence input `x`. -/
def exInPlace : ScanOp where
  name := "scan"
  inputs := ["x"]
  outputs := ["x"]
  nseqs := 1
  nout := 1
  step_type := "Default"
  default_outputs := [""]
  func_def :=
    { op := [{ name := "b0", type := "Relu", input := ["x"], output := ["y"] }],
      target := ["y"] }

/-- What holds of the variables of the first loop of `ReshapeOp::RunOnDevice` after `n`
iterations that passed their checks: `new_shape` has `n` entries, each resolved from the
requested one, and either no entry was negative so far and `total_count` is the `TIndex`
product of the entries, or exactly one was, at `infer_dim`, where `new_shape` holds -1,
and `total_count` is the `TIndex` product of the other entries. -/
def ReshapeInv (Xdims r : List Int) (n : Nat) (s : ReshapeState) : Prop :=
  s.new_shape.length = n ∧
  (∀ j, j < n →
    (0 < r.getD j 0 → s.new_shape[j]? = some (r.getD j 0)) ∧
    (r.getD j 0 = 0 → j < Xdims.length ∧ s.new_shape[j]? = some (Xdims.getD j 0))) ∧
  ((s.infer_dim = -1 ∧ (∀ j, j < n → 0 ≤ r.getD j 0) ∧ (-1 : Int) ∉ s.new_shape ∧
      s.total_count = wrap64 s.new_shape.prod) ∨
   (∃ A B, s.new_shape = A ++ (-1 : Int) :: B ∧ (-1 : Int) ∉ A ∧ (-1 : Int) ∉ B ∧
      s.infer_dim = A.length ∧ r.getD A.length 0 < 0 ∧
      (∀ j, j < n → r.getD j 0 < 0 → j = A.length) ∧
      s.total_count = wrap64 (A ++ B).prod))

/-! ## Strings -/

theorem digitChar_val (d : Nat) (h : d < 10) : (Nat.digitChar d).toNat - 48 = d := by
  interval_cases d <;> rfl

theorem digitChar_ne_at (d : Nat) (h : d < 10) : Nat.digitChar d ≠ '@' := by
  interval_cases d <;> decide

theorem toDigitsCore_append (fuel : Nat) : ∀ (n : Nat) (ds : List Char),
    Nat.toDigitsCore 10 fuel n ds = Nat.toDigitsCore 10 fuel n [] ++ ds := by
  induction fuel with
  | zero => intro n ds; simp [Nat.toDigitsCore]
  | succ f ih =>
    intro n ds
    simp only [Nat.toDigitsCore]
    split
    · simp
    · rw [ih (n / 10) (_ :: ds), ih (n / 10) [_]]; simp

theorem toDigitsCore_noAt (fuel : Nat) : ∀ (n : Nat),
    '@' ∉ Nat.toDigitsCore 10 fuel n [] := by
  induction fuel with
  | zero => intro n; simp [Nat.toDigitsCore]
  | succ f ih =>
    intro n
    simp only [Nat.toDigitsCore]
    have hd : Nat.digitChar (n % 10) ≠ '@' := digitChar_ne_at _ (Nat.mod_lt _ (by decide))
    split
    · simpa using hd.symm
    · rw [toDigitsCore_append]
      simp only [List.mem_append, List.mem_singleton, not_or]
      exact ⟨ih _, hd.symm⟩

theorem decode_toDigitsCore (fuel : Nat) : ∀ (n : Nat), n < fuel →
    decodeDigits (Nat.toDigitsCore 10 fuel n []) = n := by
  induction fuel with
  | zero => intro n h; omega
  | succ f ih =>
    intro n h
    simp only [Nat.toDigitsCore]
    have hv := digitChar_val (n % 10) (Nat.mod_lt _ (by decide))
    split
    · rename_i h0
      simp only [decodeDigits, List.foldl_cons, List.foldl_nil, hv]
      omega
    · rename_i h0
      rw [toDigitsCore_append]
      have := ih (n / 10) (by omega)
      simp only [decodeDigits, List.foldl_append, List.foldl_cons, List.foldl_nil] at this ⊢
      rw [this, hv]; omega

theorem toString_nat_data (n : Nat) : (toString n).data = Nat.toDigits 10 n := rfl

theorem toString_noAt (n : Nat) : '@' ∉ (toString n).data := by
  rw [toString_nat_data]; exact toDigitsCore_noAt _ _

theorem toString_nat_inj {a b : Nat} (h : toString a = toString b) : a = b := by
  have h1 : decodeDigits (toString a).data = decodeDigits (toString b).data := by rw [h]
  rw [toString_nat_data, toString_nat_data] at h1
  unfold Nat.toDigits at h1
  rw [decode_toDigitsCore _ _ (Nat.lt_succ_self _), decode_toDigitsCore _ _ (Nat.lt_succ_self _)] at h1
  exact h1


theorem find_at_some : ∀ (temp : List Char) (pos : Nat), find ['@'] temp = some pos →
    pos < temp.length ∧ temp.take pos = temp.takeWhile (fun c => c != '@') := by
  intro temp
  induction temp with
  | nil => intro pos h; simp [find] at h
  | cons x xs ih =>
    intro pos h
    simp only [find, List.isPrefixOf, Bool.and_true] at h
    by_cases hx : '@' = x
    · subst hx
      simp at h
      subst h
      simp
    · have hx2 : ('@' == x) = false := by simpa using hx
      rw [hx2] at h
      simp only [Bool.false_eq_true, if_false, Option.map_eq_some'] at h
      obtain ⟨p, hp, rfl⟩ := h
      obtain ⟨h1, h2⟩ := ih p hp
      have hx3 : (x != '@') = true := by simpa using fun e => hx e.symm
      refine ⟨by simp; omega, ?_⟩
      simp [List.takeWhile, hx3, h2]

theorem find_at_none : ∀ (temp : List Char), find ['@'] temp = none →
    temp.takeWhile (fun c => c != '@') = temp := by
  intro temp
  induction temp with
  | nil => intro _; rfl
  | cons x xs ih =>
    intro h
    simp only [find, List.isPrefixOf, Bool.and_true] at h
    by_cases hx : '@' = x
    · subst hx; simp at h
    · have hx2 : ('@' == x) = false := by simpa using hx
      rw [hx2] at h
      simp only [Bool.false_eq_true, if_false, Option.map_eq_none'] at h
      have hx3 : (x != '@') = true := by simpa using fun e => hx e.symm
      simp [List.takeWhile, hx3, ih h]

theorem splitLoop_at (fuel : Nat) : ∀ (temp : List Char) (ret : List (List Char)),
    temp.length < fuel →
    ∃ rest, splitLoop ['@'] fuel temp ret
      = some (ret ++ temp.takeWhile (fun c => c != '@') :: rest) := by
  induction fuel with
  | zero => intro temp ret h; omega
  | succ f ih =>
    intro temp ret h
    simp only [splitLoop]
    cases hf : find ['@'] temp with
    | none => exact ⟨[], by simp [find_at_none temp hf]⟩
    | some pos =>
      obtain ⟨h1, h2⟩ := find_at_some temp pos hf
      obtain ⟨rest, hr⟩ := ih (temp.drop (pos + 1)) (ret ++ [temp.take pos])
        (by simp; omega)
      refine ⟨(temp.drop (pos + 1)).takeWhile (fun c => c != '@') :: rest, ?_⟩
      show splitLoop ['@'] f (List.drop (pos + 1) temp) (ret ++ [List.take pos temp]) = _
      rw [hr, h2]; simp

theorem splitHead_eq (s : String) :
    splitHead s = String.mk (s.data.takeWhile (fun c => c != '@')) := by
  have hl : s.data.length < s.length + 1 := Nat.lt_succ_self _
  obtain ⟨rest, hr⟩ := splitLoop_at (s.length + 1) s.data [] hl
  have hd : ("@" : String).data = ['@'] := rfl
  unfold splitHead split
  rw [hd, hr]
  rfl

/-- Splitting at `@` always returns, with at least one piece: the default branch of
`splitHead` is never taken. -/
theorem split_at_some (s : String) : ∃ h rest, split s "@" = some (h :: rest) := by
  have hl : s.data.length < s.length + 1 := Nat.lt_succ_self _
  obtain ⟨rest, hr⟩ := splitLoop_at (s.length + 1) s.data [] hl
  have hd : ("@" : String).data = ['@'] := rfl
  unfold split
  rw [hd, hr]
  exact ⟨_, _, rfl⟩

theorem takeWhile_stop (l r : List Char) (h : '@' ∉ l) :
    (l ++ '@' :: r).takeWhile (fun c => c != '@') = l := by
  induction l with
  | nil => simp [List.takeWhile]
  | cons x xs ih =>
    simp only [List.mem_cons, not_or] at h
    have hx3 : (x != '@') = true := by simpa using fun e => h.1 e.symm
    simp [List.takeWhile, hx3, ih h.2]

theorem splitHead_at (s r : String) (h : NoAt s) : splitHead (s ++ "@" ++ r) = s := by
  rw [splitHead_eq]
  have hd : (s ++ "@" ++ r).data = s.data ++ '@' :: r.data := by
    simp [String.data_append]
  rw [hd, takeWhile_stop _ _ h]

theorem at_one (s : String) : s ++ "@1" = s ++ "@" ++ toString 1 := by
  apply String.ext
  simp [String.data_append]
  rfl

theorem at_data (s : String) (t : Nat) :
    (s ++ "@" ++ toString t).data = s.data ++ '@' :: (toString t).data := by
  simp [String.data_append]

theorem at_inj {s s' : String} {a b : Nat} (hs : NoAt s) (hs' : NoAt s')
    (h : s ++ "@" ++ toString a = s' ++ "@" ++ toString b) : s = s' ∧ a = b := by
  have h1 : splitHead (s ++ "@" ++ toString a) = splitHead (s' ++ "@" ++ toString b) := by
    rw [h]
  rw [splitHead_at _ _ hs, splitHead_at _ _ hs'] at h1
  subst h1
  refine ⟨rfl, toString_nat_inj ?_⟩
  have h2 := congrArg String.data h
  rw [at_data, at_data] at h2
  exact String.ext (by simpa using h2)

theorem noAt_ne_at {z : String} (hz : NoAt z) (s r : String) : z ≠ s ++ "@" ++ r := by
  intro h
  apply hz
  rw [h]
  simp [String.data_append]

/-! ## The Term mapping and the loops that thread it -/

theorem Terms.set_same (m : Terms) (k v : String) : m.set k v k = some v := by
  simp [Terms.set]

theorem Terms.set_other (m : Terms) (k v x : String) (h : x ≠ k) : m.set k v x = m x := by
  simp [Terms.set, h]

theorem Terms.val_set (m : Terms) (k v : String) : (m.set k v).val k = v := by
  simp [Terms.val, Terms.set]

theorem Terms.subst_some (m : Terms) (s v : String) (h : m s = some v) : m.subst s = v := by
  simp [Terms.subst, Terms.has, Terms.val, h]

theorem Terms.subst_none (m : Terms) (s : String) (h : m s = none) : m.subst s = s := by
  simp [Terms.subst, Terms.has, h]

theorem foldl_scanOps {α : Type} (step : Terms → α → OperatorDef × Terms) (l : List α) :
    ∀ (ops : List OperatorDef) (tm : Terms),
    l.foldl (fun st a => (st.1 ++ [(step st.2 a).1], (step st.2 a).2)) (ops, tm)
      = (ops ++ (scanOps step tm l).1, (scanOps step tm l).2) := by
  induction l with
  | nil => intro ops tm; simp [scanOps]
  | cons a l ih => intro ops tm; simp [scanOps, ih]

theorem scanOps_length {α : Type} (step : Terms → α → OperatorDef × Terms) (l : List α) :
    ∀ (tm : Terms), (scanOps step tm l).1.length = l.length := by
  induction l with
  | nil => intro tm; simp [scanOps]
  | cons a l ih => intro tm; simp [scanOps, ih]

/-- Invariant rule for `scanOps`: an index-dependent invariant of the mapping that
every step maintains holds before each element is processed and at the end. -/
theorem scanOps_inv {α : Type} (step : Terms → α → OperatorDef × Terms) (l : List α) :
    ∀ (I : Nat → Terms → Prop) (tm : Terms), I 0 tm →
    (∀ k (hk : k < l.length) (m : Terms), I k m → I (k + 1) (step m l[k]).2) →
    I l.length (scanOps step tm l).2 ∧
    ∀ k (hk : k < l.length), ∃ m, I k m ∧ (scanOps step tm l).1[k]? = some (step m l[k]).1 := by
  induction l with
  | nil => intro I tm h0 _; exact ⟨h0, fun k hk => absurd hk (by simp)⟩
  | cons a l ih =>
    intro I tm h0 hstep
    have h1 : I 1 (step tm a).2 := hstep 0 (by simp) tm h0
    obtain ⟨hend, hidx⟩ := ih (fun k m => I (k + 1) m) (step tm a).2 h1
      (fun k hk m hm => hstep (k + 1) (by simpa using hk) m hm)
    refine ⟨hend, ?_⟩
    intro k hk
    cases k with
    | zero => exact ⟨tm, h0, by simp [scanOps]⟩
    | succ k =>
      obtain ⟨m, hm, he⟩ := hidx k (by simpa using hk)
      exact ⟨m, hm, by simpa [scanOps] using he⟩

theorem initOutput_foldl (outs : List String) : ∀ (acc : List String) (tm : Terms),
    outs.foldl initOutput (acc, tm)
      = (acc ++ outs.map (fun y => y ++ "@" ++ toString 1),
         outs.foldl (fun m y => m.set y (y ++ "@" ++ toString 1)) tm) := by
  induction outs with
  | nil => intro acc tm; simp
  | cons y l ih =>
    intro acc tm
    simp only [List.foldl_cons, initOutput, Terms.val_set, ih, at_one]
    simp

theorem unrollOutput_foldl (t : Nat) (outs : List String) :
    ∀ (acc : List String) (tm : Terms),
    outs.foldl (unrollOutput t) (acc, tm)
      = (acc ++ outs.map (fun y => splitHead y ++ "@" ++ toString t),
         outs.foldl (fun m y => m.set y (splitHead y ++ "@" ++ toString t)) tm) := by
  induction outs with
  | nil => intro acc tm; simp
  | cons y l ih =>
    intro acc tm
    simp only [List.foldl_cons, unrollOutput, Terms.val_set, ih]
    simp

theorem initBody_eq (op : ScanOp) :
    initBody op = fun st i => (st.1 ++ [(initBodyOp op st.2 i).1], (initBodyOp op st.2 i).2) := rfl

theorem unrollCopy_eq (t : Nat) :
    unrollCopy t = fun st o => (st.1 ++ [(unrollOp t st.2 o).1], (unrollOp t st.2 o).2) := rfl

/-! ## Loops that only write entries -/

/-- Writing `f y` under every key `y` of a list. -/
theorem foldl_set_list (f : String → String) (outs : List String) : ∀ (tm : Terms),
    outs.foldl (fun m y => m.set y (f y)) tm
      = fun x => if x ∈ outs then some (f x) else tm x := by
  induction outs with
  | nil => intro tm; simp
  | cons y l ih =>
    intro tm
    rw [List.foldl_cons, ih]
    funext x
    by_cases hx : x ∈ l
    · simp [hx]
    · by_cases hxy : x = y
      · subst hxy; simp [hx, Terms.set]
      · simp [hx, hxy, Terms.set]

/-- Every entry after a guarded writing loop is an old entry or one of the written ones. -/
theorem foldl_range_entry (g : Terms → Nat → Terms) (c : Nat → Prop) (k v : Nat → String)
    (hg : ∀ m i, g m i = m ∨ (¬ c i ∧ g m i = m.set (k i) (v i))) (n : Nat) (tm : Terms)
    (x w : String) (h : (List.range n).foldl g tm x = some w) :
    tm x = some w ∨ ∃ i, i < n ∧ ¬ c i ∧ x = k i ∧ w = v i := by
  induction n with
  | zero => left; simpa using h
  | succ n ih =>
    rw [List.range_succ, List.foldl_append, List.foldl_cons, List.foldl_nil] at h
    rcases hg ((List.range n).foldl g tm) n with he | ⟨hc, he⟩
    · rw [he] at h
      rcases ih h with h1 | ⟨i, hi, h2⟩
      · exact Or.inl h1
      · exact Or.inr ⟨i, by omega, h2⟩
    · rw [he] at h
      by_cases hx : x = k n
      · subst hx
        rw [Terms.set_same] at h
        exact Or.inr ⟨n, by omega, hc, rfl, (Option.some.inj h).symm⟩
      · rw [Terms.set_other _ _ _ _ hx] at h
        rcases ih h with h1 | ⟨i, hi, h2⟩
        · exact Or.inl h1
        · exact Or.inr ⟨i, by omega, h2⟩

/-- Keys that are not written keep their entry. -/
theorem foldl_range_frame (g : Terms → Nat → Terms) (k v : Nat → String)
    (hg : ∀ m i, g m i = m ∨ g m i = m.set (k i) (v i)) (n : Nat) (tm : Terms)
    (x : String) (h : ∀ i, i < n → x ≠ k i) :
    (List.range n).foldl g tm x = tm x := by
  induction n with
  | zero => simp
  | succ n ih =>
    rw [List.range_succ, List.foldl_append, List.foldl_cons, List.foldl_nil]
    rcases hg ((List.range n).foldl g tm) n with he | he
    · rw [he]; exact ih (fun i hi => h i (by omega))
    · rw [he, Terms.set_other _ _ _ _ (h n (by omega))]
      exact ih (fun i hi => h i (by omega))

/-- A writing loop never removes a key. -/
theorem foldl_range_mono (g : Terms → Nat → Terms) (k v : Nat → String)
    (hg : ∀ m i, g m i = m ∨ g m i = m.set (k i) (v i)) (n : Nat) (tm : Terms)
    (x : String) (h : (tm x).isSome) : ((List.range n).foldl g tm x).isSome := by
  induction n with
  | zero => simpa using h
  | succ n ih =>
    rw [List.range_succ, List.foldl_append, List.foldl_cons, List.foldl_nil]
    rcases hg ((List.range n).foldl g tm) n with he | he
    · rw [he]; exact ih
    · rw [he]
      by_cases hx : x = k n
      · subst hx; simp [Terms.set_same]
      · rw [Terms.set_other _ _ _ _ hx]; exact ih

/-- The last write under a key decides its entry. -/
theorem foldl_range_last (g : Terms → Nat → Terms) (c : Nat → Prop) (k v : Nat → String)
    (hg1 : ∀ m i, c i → g m i = m) (hg2 : ∀ m i, ¬ c i → g m i = m.set (k i) (v i))
    (n : Nat) (tm : Terms) (i : Nat) (hi : i < n) (hc : ¬ c i)
    (hlast : ∀ j, i < j → j < n → ¬ c j → k j = k i → v j = v i) :
    (List.range n).foldl g tm (k i) = some (v i) := by
  induction n with
  | zero => omega
  | succ n ih =>
    rw [List.range_succ, List.foldl_append, List.foldl_cons, List.foldl_nil]
    by_cases hin : i = n
    · subst hin
      rw [hg2 _ _ hc, Terms.set_same]
    · have hi2 : i < n := by omega
      have ih2 := ih hi2 (fun j h1 h2 => hlast j h1 (by omega))
      by_cases hcn : c n
      · rw [hg1 _ _ hcn]; exact ih2
      · rw [hg2 _ _ hcn]
        by_cases hk : k i = k n
        · rw [hk, Terms.set_same, hlast n (by omega) (by omega) hcn hk.symm]
        · rw [Terms.set_other _ _ _ _ hk]; exact ih2

theorem updateSeq_cases (op : ScanOp) (t : Nat) (m : Terms) (i : Nat) :
    updateSeq op t m i = m ∨
    (¬ False ∧ updateSeq op t m i
      = m.set (op.Input i ++ "@" ++ toString (t - 1)) (op.Input i ++ "@" ++ toString t)) :=
  Or.inr ⟨not_false, rfl⟩

theorem updateRec_cases (op : ScanOp) (t : Nat) (m : Terms) (i : Nat) :
    updateRec op t m i = m ∨
    (¬ (op.dflt i = "") ∧ updateRec op t m i
      = m.set (op.Output i ++ "@" ++ toString (t - 2))
          (op.Output i ++ "@" ++ toString (t - 1))) := by
  unfold updateRec
  by_cases h : op.dflt i = ""
  · left; simp [h]
  · right; exact ⟨h, by simp [h]⟩

theorem initPre_cases (op : ScanOp) (m : Terms) (i : Nat) :
    initPre op m i = m ∨
    (¬ (op.dflt i = "") ∧ initPre op m i = m.set (op.dflt i) (op.target i ++ "@1")) := by
  unfold initPre
  by_cases h : op.dflt i = ""
  · left; simp [h]
  · right; exact ⟨h, by simp [h]⟩

/-- Every entry of the mapping after `UpdateTerms` is an old one, a sequence entry
`x@(t-1) ↦ x@t`, or (from step 3 on) a recurrent entry `o@(t-2) ↦ o@(t-1)`. -/
theorem UpdateTerms_entry (op : ScanOp) (t : Nat) (tm : Terms) (x w : String)
    (h : UpdateTerms op t tm x = some w) :
    tm x = some w ∨
    (∃ i, i < op.nseqs ∧ x = op.Input i ++ "@" ++ toString (t - 1) ∧
      w = op.Input i ++ "@" ++ toString t) ∨
    (3 ≤ t ∧ ∃ i, i < op.nout ∧ op.dflt i ≠ "" ∧
      x = op.Output i ++ "@" ++ toString (t - 2) ∧
      w = op.Output i ++ "@" ++ toString (t - 1)) := by
  unfold UpdateTerms at h
  have hseq : ∀ w, (List.range op.nseqs).foldl (updateSeq op t) tm x = some w →
      tm x = some w ∨ (∃ i, i < op.nseqs ∧ x = op.Input i ++ "@" ++ toString (t - 1) ∧
        w = op.Input i ++ "@" ++ toString t) := by
    intro w hw
    rcases foldl_range_entry _ _ _ _ (updateSeq_cases op t) _ _ _ _ hw with h1 | ⟨i, hi, _, h2⟩
    · exact Or.inl h1
    · exact Or.inr ⟨i, hi, h2⟩
  by_cases ht : t < 3
  · rw [if_pos ht] at h
    rcases hseq w h with h1 | h1
    · exact Or.inl h1
    · exact Or.inr (Or.inl h1)
  · rw [if_neg ht] at h
    rcases foldl_range_entry _ _ _ _ (updateRec_cases op t) _ _ _ _ h with h1 | ⟨i, hi, hc, h2⟩
    · rcases hseq w h1 with h3 | h3
      · exact Or.inl h3
      · exact Or.inr (Or.inl h3)
    · exact Or.inr (Or.inr ⟨by omega, i, hi, hc, h2⟩)

theorem updateRec_or (op : ScanOp) (t : Nat) (m : Terms) (i : Nat) :
    updateRec op t m i = m ∨
    updateRec op t m i
      = m.set (op.Output i ++ "@" ++ toString (t - 2))
          (op.Output i ++ "@" ++ toString (t - 1)) := by
  rcases updateRec_cases op t m i with h | ⟨_, h⟩
  · exact Or.inl h
  · exact Or.inr h

/-- A key written by the loop is present afterwards. -/
theorem foldl_range_present (g : Terms → Nat → Terms) (c : Nat → Prop) (k v : Nat → String)
    (hg1 : ∀ m i, c i → g m i = m) (hg2 : ∀ m i, ¬ c i → g m i = m.set (k i) (v i))
    (n : Nat) (tm : Terms) (i : Nat) (hi : i < n) (hc : ¬ c i) :
    ((List.range n).foldl g tm (k i)).isSome := by
  induction n with
  | zero => omega
  | succ n ih =>
    rw [List.range_succ, List.foldl_append, List.foldl_cons, List.foldl_nil]
    by_cases hin : i = n
    · subst hin
      rw [hg2 _ _ hc, Terms.set_same]; rfl
    · have ih2 := ih (by omega)
      by_cases hcn : c n
      · rw [hg1 _ _ hcn]; exact ih2
      · rw [hg2 _ _ hcn]
        by_cases hk : k i = k n
        · rw [hk, Terms.set_same]; rfl
        · rw [Terms.set_other _ _ _ _ hk]; exact ih2

/-- `UpdateTerms` never removes a key. -/
theorem UpdateTerms_mono (op : ScanOp) (t : Nat) (tm : Terms) (x : String)
    (h : (tm x).isSome) : (UpdateTerms op t tm x).isSome := by
  unfold UpdateTerms
  have h1 := foldl_range_mono (updateSeq op t) _ _
    (fun m i => Or.inr rfl) op.nseqs tm x h
  by_cases ht : t < 3
  · rw [if_pos ht]; exact h1
  · rw [if_neg ht]
    exact foldl_range_mono (updateRec op t) _ _ (updateRec_or op t) op.nout _ x h1

/-- `UpdateTerms` leaves the entries of `@`-free keys alone. -/
theorem UpdateTerms_frame (op : ScanOp) (t : Nat) (tm : Terms) (x : String) (hx : NoAt x) :
    UpdateTerms op t tm x = tm x := by
  unfold UpdateTerms
  have h1 := foldl_range_frame (updateSeq op t) _ _
    (fun m i => Or.inr rfl) op.nseqs tm x (fun i _ => noAt_ne_at hx _ _)
  by_cases ht : t < 3
  · rw [if_pos ht]; exact h1
  · rw [if_neg ht, ← h1]
    exact foldl_range_frame (updateRec op t) _ _ (updateRec_or op t) op.nout _ x
      (fun i _ => noAt_ne_at hx _ _)

/-- After `UpdateTerms(t)` every sequence input has its entry for step `t - 1`. -/
theorem UpdateTerms_seq (op : ScanOp) (t : Nat) (tm : Terms) (i : Nat) (hi : i < op.nseqs) :
    (UpdateTerms op t tm (op.Input i ++ "@" ++ toString (t - 1))).isSome := by
  unfold UpdateTerms
  have h1 := foldl_range_present (updateSeq op t) (fun _ => False)
      (fun i => op.Input i ++ "@" ++ toString (t - 1))
      (fun i => op.Input i ++ "@" ++ toString t)
      (fun m i h => absurd h not_false) (fun m i _ => rfl) op.nseqs tm i hi not_false
  by_cases ht : t < 3
  · rw [if_pos ht]; exact h1
  · rw [if_neg ht]
    exact foldl_range_mono (updateRec op t) _ _ (updateRec_or op t) op.nout _ _ h1

/-- From step 3 on, `UpdateTerms(t)` leaves an entry for step `t - 2` of every
declared output that has an initial state. -/
theorem UpdateTerms_rec (op : ScanOp) (t : Nat) (tm : Terms) (ht : 3 ≤ t) (i : Nat)
    (hi : i < op.nout) (hd : op.dflt i ≠ "") :
    (UpdateTerms op t tm (op.Output i ++ "@" ++ toString (t - 2))).isSome := by
  unfold UpdateTerms
  rw [if_neg (by omega)]
  exact foldl_range_present (updateRec op t) (fun i => op.dflt i = "")
      (fun i => op.Output i ++ "@" ++ toString (t - 2))
      (fun i => op.Output i ++ "@" ++ toString (t - 1))
      (fun m i h => by simp [updateRec, h]) (fun m i h => by simp [updateRec, h])
      op.nout _ i hi hd

/-! ## Step instances -/

theorem Good_set (m : Terms) (s : String) (j : Nat) (hm : Good m) (hs : NoAt s) :
    Good (m.set (s ++ "@" ++ toString j) (s ++ "@" ++ toString (j + 1))) := by
  intro s' j' v hs' hv
  by_cases hk : s' ++ "@" ++ toString j' = s ++ "@" ++ toString j
  · rw [hk, Terms.set_same] at hv
    obtain ⟨h1, h2⟩ := at_inj hs' hs hk
    subst h1; subst h2
    exact (Option.some.inj hv).symm
  · rw [Terms.set_other _ _ _ _ hk] at hv
    exact hm s' j' v hs' hv

theorem Good_UpdateTerms (op : ScanOp) (hsym : SymbolsNoAt op) (t : Nat) (ht : 1 ≤ t)
    (tm : Terms) (hm : Good tm) : Good (UpdateTerms op t tm) := by
  intro s j v hs hv
  rcases UpdateTerms_entry op t tm _ _ hv with h | ⟨i, hi, hk, hw⟩ | ⟨h3, i, hi, _, hk, hw⟩
  · exact hm s j v hs h
  · obtain ⟨h1, h2⟩ := at_inj hs (hsym.1 i hi) hk
    rw [hw, h1, h2]
    congr 2; omega
  · obtain ⟨h1, h2⟩ := at_inj hs (hsym.2.2 i hi).2.2 hk
    rw [hw, h1, h2]
    congr 2; omega

theorem unrollOp_fst (t : Nat) (tm : Terms) (o : OperatorDef) :
    (unrollOp t tm o).1 =
      { o with name := splitHead o.name ++ "@" ++ toString t,
               input := o.input.map tm.subst,
               output := o.output.map (fun y => splitHead y ++ "@" ++ toString t) } := by
  simp [unrollOp, unrollOutput_foldl]

theorem unrollOp_snd (t : Nat) (tm : Terms) (o : OperatorDef) :
    (unrollOp t tm o).2 =
      fun x => if x ∈ o.output then some (splitHead x ++ "@" ++ toString t) else tm x := by
  simp [unrollOp, unrollOutput_foldl, foldl_set_list]

theorem initBodyOp_fst (op : ScanOp) (tm : Terms) (i : Nat) :
    (initBodyOp op tm i).1 =
      { op.body i with
          name := op.name ++ "(BodyOp." ++ toString (i + op.nseqs) ++ ")@1",
          input := (op.body i).input.map tm.subst,
          output := (op.body i).output.map (fun y => y ++ "@" ++ toString 1) } := by
  simp [initBodyOp, initOutput_foldl, ScanOp.body]

theorem initBodyOp_snd (op : ScanOp) (tm : Terms) (i : Nat) :
    (initBodyOp op tm i).2 =
      fun x => if x ∈ (op.body i).output then some (x ++ "@" ++ toString 1) else tm x := by
  simp [initBodyOp, initOutput_foldl, foldl_set_list, ScanOp.body]

theorem body_mem (op : ScanOp) (k : Nat) (hk : k < op.func_def.op.length) :
    op.body k ∈ op.func_def.op := by
  unfold ScanOp.body
  rw [List.getD_eq_getElem _ _ hk]
  exact List.getElem_mem _

/-- Cloning a step-`t` instance for step `t + 1` maintains the invariant. -/
theorem StepInv_step (op : ScanOp) (hsym : SymbolsNoAt op) (t : Nat) (tm : Terms) (k : Nat)
    (hk : k < op.func_def.op.length) (m : Terms) (inst : OperatorDef)
    (hout : inst.output = (op.body k).output.map (fun y => y ++ "@" ++ toString t))
    (hI : StepInv op t tm k m) :
    StepInv op t tm (k + 1) (unrollOp (t + 1) m inst).2 := by
  obtain ⟨hg, hfr, hseq, hw, hrec⟩ := hI
  have hno : ∀ y ∈ (op.body k).output, NoAt y := (hsym.2.1 _ (body_mem op k hk)).1
  have hmono : ∀ x, (m x).isSome → ((unrollOp (t + 1) m inst).2 x).isSome := by
    intro x hx
    rw [unrollOp_snd]
    by_cases hmem : x ∈ inst.output
    · simp [hmem]
    · simpa [hmem] using hx
  refine ⟨?_, ?_, fun i hi => hmono _ (hseq i hi), ?_, fun h2 i hi hd => hmono _ (hrec h2 i hi hd)⟩
  · intro s j v hs hv
    rw [unrollOp_snd] at hv
    by_cases hmem : s ++ "@" ++ toString j ∈ inst.output
    · simp only [hmem, if_true] at hv
      rw [hout] at hmem
      obtain ⟨y, hy, hyk⟩ := List.mem_map.1 hmem
      obtain ⟨h1, h2⟩ := at_inj (hno y hy) hs hyk
      subst h2
      rw [splitHead_at _ _ hs] at hv
      exact (Option.some.inj hv).symm
    · simp only [hmem, if_false] at hv
      exact hg s j v hs hv
  · intro x hx
    rw [unrollOp_snd]
    have hmem : x ∉ inst.output := by
      rw [hout]
      intro h
      obtain ⟨y, _, hyk⟩ := List.mem_map.1 h
      exact noAt_ne_at hx _ _ hyk.symm
    simp [hmem, hfr x hx]
  · intro k' hk' y hy
    by_cases hkk : k' = k
    · subst hkk
      rw [unrollOp_snd]
      have hmem : y ++ "@" ++ toString t ∈ inst.output := by
        rw [hout]; exact List.mem_map.2 ⟨y, hy, rfl⟩
      simp [hmem]
    · exact hmono _ (hw k' (by omega) y hy)

theorem StepInv_start (op : ScanOp) (hsym : SymbolsNoAt op) (t : Nat) (tm : Terms)
    (hg : Good tm) : StepInv op t tm 0 (UpdateTerms op (t + 1) tm) := by
  refine ⟨Good_UpdateTerms op hsym _ (by omega) tm hg, fun x hx => UpdateTerms_frame op _ tm x hx,
    fun i hi => ?_, fun k' hk' => absurd hk' (by omega), fun h2 i hi hd => ?_⟩
  · have := UpdateTerms_seq op (t + 1) tm i hi
    simpa using this
  · have := UpdateTerms_rec op (t + 1) tm (by omega) i hi hd
    have e : t + 1 - 2 = t - 1 := by omega
    rwa [e] at this

/-- One iteration of the main loop: from the step-`t` instances to the step-`t + 1` ones. -/
theorem step_lemma (op : ScanOp) (hsym : SymbolsNoAt op) (t : Nat) (S : List OperatorDef)
    (tm : Terms) (hS : BodyAt op t S) (hg : Good tm) :
    BodyAt op (t + 1) (scanOps (unrollOp (t + 1)) (UpdateTerms op (t + 1) tm) S).1 ∧
    Good (scanOps (unrollOp (t + 1)) (UpdateTerms op (t + 1) tm) S).2 ∧
    (∀ x, NoAt x → (scanOps (unrollOp (t + 1)) (UpdateTerms op (t + 1) tm) S).2 x = tm x) ∧
    ∀ k, k < op.func_def.op.length → ∃ prev m, S[k]? = some prev ∧
      (scanOps (unrollOp (t + 1)) (UpdateTerms op (t + 1) tm) S).1[k]?
        = some (unrollOp (t + 1) m prev).1 ∧ StepInv op t tm k m := by
  obtain ⟨hlen, hbody⟩ := hS
  have hget : ∀ k (hk : k < S.length), ∃ inst, S[k] = inst ∧
      inst.type = (op.body k).type ∧ inst.arg = (op.body k).arg ∧
      inst.output = (op.body k).output.map (fun y => y ++ "@" ++ toString t) ∧
      inst.input.length = (op.body k).input.length := by
    intro k hk
    obtain ⟨inst, h1, h2⟩ := hbody k (by omega)
    rw [List.getElem?_eq_getElem hk] at h1
    exact ⟨inst, Option.some.inj h1, h2⟩
  obtain ⟨hend, hidx⟩ := scanOps_inv (unrollOp (t + 1)) S (fun k m => StepInv op t tm k m)
    (UpdateTerms op (t + 1) tm) (StepInv_start op hsym t tm hg)
    (fun k hk m hI => by
      obtain ⟨inst, h1, _, _, h4, _⟩ := hget k hk
      rw [h1]
      exact StepInv_step op hsym t tm k (by omega) m inst h4 hI)
  refine ⟨⟨by rw [scanOps_length, hlen], ?_⟩, hend.1, hend.2.1, ?_⟩
  · intro k hk
    obtain ⟨m, _, he⟩ := hidx k (by omega)
    obtain ⟨inst, h1, h2, h3, h4, h5⟩ := hget k (by omega)
    refine ⟨_, he, ?_⟩
    rw [h1, unrollOp_fst]
    refine ⟨h2, h3, ?_, by simp [h5]⟩
    simp only [h4, List.map_map]
    apply List.map_congr_left
    intro y hy
    simp only [Function.comp]
    rw [splitHead_at _ _ ((hsym.2.1 _ (body_mem op k hk)).1 y hy)]
  · intro k hk
    obtain ⟨m, hm, he⟩ := hidx k (by omega)
    exact ⟨S[k], m, List.getElem?_eq_getElem (by omega), he, hm⟩

/-- The step instances and the mapping after `n` iterations of the main loop. -/
theorem stepState_inv (op : ScanOp) (hsym : SymbolsNoAt op) (body : List OperatorDef)
    (tm : Terms) (hb : BodyAt op 1 body) (hg : Good tm) (n : Nat) :
    BodyAt op (n + 1) (stepState op body tm n).1 ∧ Good (stepState op body tm n).2 ∧
    ∀ x, NoAt x → (stepState op body tm n).2 x = tm x := by
  induction n with
  | zero => exact ⟨hb, hg, fun _ _ => rfl⟩
  | succ n ih =>
    obtain ⟨h1, h2, h3⟩ := ih
    obtain ⟨a, b, c, _⟩ := step_lemma op hsym (n + 1) _ _ h1 h2
    exact ⟨a, b, fun x hx => by rw [← h3 x hx]; exact c x hx⟩

/-- How instance `k` of step `n + 2` arises from instance `k` of step `n + 1`. -/
theorem stepState_char (op : ScanOp) (hsym : SymbolsNoAt op) (body : List OperatorDef)
    (tm : Terms) (hb : BodyAt op 1 body) (hg : Good tm) (n k : Nat)
    (hk : k < op.func_def.op.length) :
    ∃ prev m, (stepState op body tm n).1[k]? = some prev ∧
      (stepState op body tm (n + 1)).1[k]? = some (unrollOp (n + 2) m prev).1 ∧
      StepInv op (n + 1) (stepState op body tm n).2 k m := by
  obtain ⟨h1, h2, _⟩ := stepState_inv op hsym body tm hb hg n
  exact (step_lemma op hsym (n + 1) _ _ h1 h2).2.2.2 k hk

/-! ## `InitTemplate` -/

theorem scanOps_pure {α : Type} (f : α → OperatorDef) (g : Terms → α → Terms) (l : List α) :
    ∀ tm, scanOps (fun m a => (f a, g m a)) tm l = (l.map f, l.foldl g tm) := by
  induction l with
  | nil => intro tm; rfl
  | cons a l ih => intro tm; simp [scanOps, ih]

theorem domTerms_append (l outs : List String) :
    (fun x => if x ∈ outs then some (x ++ "@" ++ toString 1) else domTerms l x)
      = domTerms (l ++ outs) := by
  funext x
  by_cases h1 : x ∈ outs
  · simp [domTerms, h1, at_one]
  · by_cases h2 : x ∈ l <;> simp [domTerms, h1, h2]

theorem mem_written (op : ScanOp) (y : String) : ∀ k,
    y ∈ written op k ↔ ∃ i, i < k ∧ y ∈ (op.body i).output := by
  intro k
  induction k with
  | zero => simp [written]
  | succ k ih =>
    simp only [written, List.mem_append, ih]
    constructor
    · rintro (⟨i, hi, h⟩ | h)
      · exact ⟨i, by omega, h⟩
      · exact ⟨k, by omega, h⟩
    · rintro ⟨i, hi, h⟩
      by_cases hik : i = k
      · subst hik; exact Or.inr h
      · exact Or.inl ⟨i, by omega, h⟩

theorem initSeq_fold (op : ScanOp) :
    (List.range op.nseqs).foldl (initSeq op) ([], Terms.empty)
      = ((List.range op.nseqs).map (templateSlice op), domTerms (seqNames op)) := by
  have h : initSeq op = fun st i =>
      (st.1 ++ [((fun m a => (templateSlice op a, m.set (op.Input a) (op.Input a ++ "@1")))
          st.2 i).1],
       ((fun (m : Terms) a => (templateSlice op a, m.set (op.Input a) (op.Input a ++ "@1")))
          st.2 i).2) := rfl
  have h3 := foldl_scanOps
    (fun (m : Terms) a => (templateSlice op a, m.set (op.Input a) (op.Input a ++ "@1")))
    (List.range op.nseqs) [] Terms.empty
  rw [scanOps_pure] at h3
  rw [h]
  refine h3.trans ?_
  simp only [List.nil_append, Prod.mk.injEq, true_and]
  have h2 := foldl_set_list (fun y => y ++ "@1") (seqNames op) Terms.empty
  rw [seqNames, List.foldl_map] at h2
  rw [h2]
  rfl

/-- The mapping seen by body operator `k` during `InitTemplate`, and the instance made. -/
theorem body1_char (op : ScanOp) :
    (scanOps (initBodyOp op) (domTerms (seqNames op))
        (List.range op.func_def.op.length)).2
      = domTerms (seqNames op ++ written op op.func_def.op.length) ∧
    ∀ k, k < op.func_def.op.length →
      (body1 op)[k]? = some (initBodyOp op (domTerms (seqNames op ++ written op k)) k).1 := by
  obtain ⟨hend, hidx⟩ := scanOps_inv (initBodyOp op) (List.range op.func_def.op.length)
    (fun k m => m = domTerms (seqNames op ++ written op k)) (domTerms (seqNames op))
    (by simp [written])
    (fun k hk m hm => by
      rw [initBodyOp_snd, hm, List.getElem_range, domTerms_append]
      simp [written, List.append_assoc])
  refine ⟨by simpa using hend, ?_⟩
  intro k hk
  obtain ⟨m, hm, he⟩ := hidx k (by simpa using hk)
  rw [hm, List.getElem_range] at he
  exact he

theorem InitTemplate_fresh (op : ScanOp) :
    (InitTemplate op.fresh).template_def.op
        = (List.range op.nseqs).map (templateSlice op) ++ body1 op ∧
    (InitTemplate op.fresh).terms = terms1 op ∧
    (InitTemplate op.fresh).nrepeats = op.func_def.op.length := by
  have h1 : (List.range op.nseqs).foldl (initSeq op.fresh) ([], Terms.empty)
      = ((List.range op.nseqs).map (templateSlice op), domTerms (seqNames op)) :=
    initSeq_fold op
  have h2 : ∀ ops tm, (List.range op.func_def.op.length).foldl (initBody op.fresh) (ops, tm)
      = (ops ++ (scanOps (initBodyOp op) tm (List.range op.func_def.op.length)).1,
         (scanOps (initBodyOp op) tm (List.range op.func_def.op.length)).2) := by
    intro ops tm
    exact foldl_scanOps (initBodyOp op) _ ops tm
  refine ⟨?_, ?_, rfl⟩
  · show ((List.range op.func_def.op.length).foldl (initBody op.fresh)
        ((List.range op.nseqs).foldl (initSeq op.fresh) ([], Terms.empty))).1 = _
    rw [h1, h2]; rfl
  · show (List.range op.nout).foldl (initPre op.fresh)
        ((List.range op.func_def.op.length).foldl (initBody op.fresh)
          ((List.range op.nseqs).foldl (initSeq op.fresh) ([], Terms.empty))).2 = _
    rw [h1, h2, (body1_char op).1]; rfl

theorem not_noAt_at (s r : String) : ¬ NoAt (s ++ "@" ++ r) := by
  intro h
  exact noAt_ne_at h s r rfl

/-- Every key of the mapping left by `InitTemplate` is `@`-free. -/
theorem terms1_keys (op : ScanOp) (hsym : SymbolsNoAt op) (x w : String)
    (h : terms1 op x = some w) : NoAt x := by
  unfold terms1 at h
  rcases foldl_range_entry _ _ _ _ (initPre_cases op) _ _ _ _ h with h1 | ⟨i, hi, _, hk, _⟩
  · unfold domTerms at h1
    by_cases hmem : x ∈ seqNames op ++ written op op.func_def.op.length
    · rcases List.mem_append.1 hmem with h2 | h2
      · obtain ⟨i, hi, rfl⟩ := List.mem_map.1 h2
        exact hsym.1 i (List.mem_range.1 hi)
      · obtain ⟨i, hi, hy⟩ := (mem_written op x _).1 h2
        exact (hsym.2.1 _ (body_mem op i hi)).1 x hy
    · simp [hmem] at h1
  · rw [hk]; exact (hsym.2.2 i hi).1

theorem Good_terms1 (op : ScanOp) (hsym : SymbolsNoAt op) : Good (terms1 op) := by
  intro s j v _ hv
  exact absurd (terms1_keys op hsym _ _ hv) (not_noAt_at _ _)

theorem BodyAt_body1 (op : ScanOp) : BodyAt op 1 (body1 op) := by
  refine ⟨by simp [body1, scanOps_length], ?_⟩
  intro k hk
  refine ⟨_, (body1_char op).2 k hk, ?_⟩
  rw [initBodyOp_fst]
  exact ⟨rfl, rfl, rfl, by simp⟩

/-- The entry of an initial-state symbol after `InitTemplate`: the result symbol of the
last declared output that names it. -/
theorem terms1_dflt (op : ScanOp) (i : Nat) (hi : i < op.nout) (hd : op.dflt i ≠ "")
    (hlast : ∀ j, i < j → j < op.nout → op.dflt j = op.dflt i → op.target j = op.target i) :
    terms1 op (op.dflt i) = some (op.target i ++ "@" ++ toString 1) := by
  unfold terms1
  rw [← at_one]
  exact foldl_range_last (initPre op) (fun i => op.dflt i = "") op.dflt
    (fun i => op.target i ++ "@1")
    (fun m i h => by simp [initPre, h]) (fun m i h => by simp [initPre, h])
    op.nout _ i hi hd (fun j h1 h2 _ h3 => by simp only [hlast j h1 h2 h3])

/-! ## The loops of `UnrollTemplate` -/

theorem unrollSlice_get (op : ScanOp) (ws : Workspace) (ops : List OperatorDef)
    (idx i : Nat) :
    (unrollSlice op ws ops idx)[i]? =
      if idx = i then ops[i]?.map (fun o =>
        { o with arg := setArg1 o.arg (ws.dim (op.Input i) op.axis),
                 output := o.output ++
                   sliceOutputs (o.input.getD 0 "") (ws.dim (op.Input i) op.axis) })
      else ops[i]? := by
  unfold unrollSlice
  simp only
  rw [List.getElem?_set]
  by_cases h : idx = i
  · subst h
    rw [if_pos rfl, if_pos rfl, List.getD_eq_getElem?_getD]
    by_cases hl : idx < ops.length
    · rw [if_pos hl, List.getElem?_eq_getElem hl]; rfl
    · rw [if_neg hl, List.getElem?_eq_none (by omega)]; rfl
  · rw [if_neg h, if_neg h]

theorem unrollSlice_fold (op : ScanOp) (ws : Workspace) (L : List OperatorDef) (n : Nat) :
    ∀ i, ((List.range n).foldl (unrollSlice op ws) L)[i]? =
      if i < n then L[i]?.map (fun o =>
        { o with arg := setArg1 o.arg (ws.dim (op.Input i) op.axis),
                 output := o.output ++
                   sliceOutputs (o.input.getD 0 "") (ws.dim (op.Input i) op.axis) })
      else L[i]? := by
  induction n with
  | zero => intro i; simp
  | succ n ih =>
    intro i
    rw [List.range_succ, List.foldl_append, List.foldl_cons, List.foldl_nil, unrollSlice_get,
      ih i]
    by_cases hni : n = i
    · subst hni
      rw [if_pos rfl, if_neg (Nat.lt_irrefl n), if_pos (Nat.lt_succ_self n)]
    · rw [if_neg hni]
      by_cases hin : i < n
      · rw [if_pos hin, if_pos (by omega)]
      · rw [if_neg hin, if_neg (by omega)]

theorem unrollSlice_template (op s : ScanOp) (ws : Workspace) (tail : List OperatorDef)
    (hI : s.Input = op.Input) (ha : s.axis = op.axis) :
    (List.range op.nseqs).foldl (unrollSlice s ws)
        ((List.range op.nseqs).map (templateSlice op) ++ tail)
      = (List.range op.nseqs).map (unrolledSlice op ws) ++ tail := by
  apply List.ext_getElem?
  intro i
  rw [unrollSlice_fold]
  by_cases hi : i < op.nseqs
  · rw [if_pos hi, List.getElem?_append_left (by simpa using hi),
      List.getElem?_append_left (by simpa using hi), List.getElem?_map, List.getElem?_map,
      List.getElem?_range hi]
    simp [templateSlice, unrolledSlice, sliceDef, setArg1, hI, ha]
  · rw [if_neg hi, List.getElem?_append_right (by simpa using hi),
      List.getElem?_append_right (by simpa using hi)]
    simp

theorem stepState_length (op : ScanOp) (body : List OperatorDef) (tm : Terms) (n : Nat) :
    (stepState op body tm n).1.length = body.length := by
  induction n with
  | zero => rfl
  | succ n ih => simp only [stepState, scanOps_length, ih]

theorem allSteps_tail (op : ScanOp) (body : List OperatorDef) (tm : Terms) (n : Nat) :
    ∃ front, allSteps op body tm n = front ++ (stepState op body tm n).1 := by
  cases n with
  | zero => exact ⟨[], rfl⟩
  | succ n => exact ⟨allSteps op body tm n, rfl⟩

/-- The main loop appends the instances of steps `2 .. n + 1` after those of step 1. -/
theorem unrollStep_fold (op s : ScanOp) (pre body : List OperatorDef) (tm : Terms)
    (hU : ∀ t m, UpdateTerms s t m = UpdateTerms op t m) (hR : s.nrepeats = body.length)
    (n : Nat) :
    (List.range' 2 n).foldl (unrollStep s) (pre ++ body, tm)
      = (pre ++ allSteps op body tm n, (stepState op body tm n).2) := by
  induction n with
  | zero => rfl
  | succ n ih =>
    rw [List.range'_concat, List.foldl_append, ih, List.foldl_cons, List.foldl_nil]
    obtain ⟨front, hf⟩ := allSteps_tail op body tm n
    have hlen := stepState_length op body tm n
    unfold unrollStep
    simp only
    rw [hU, unrollCopy_eq, foldl_scanOps, hR]
    have hdrop : List.drop ((pre ++ allSteps op body tm n).length - body.length)
        (pre ++ allSteps op body tm n) = (stepState op body tm n).1 := by
      rw [hf, ← List.append_assoc]
      have e : (pre ++ front ++ (stepState op body tm n).1).length - body.length
          = (pre ++ front).length := by
        simp only [List.length_append, hlen]; omega
      rw [e, List.drop_left]
    rw [hdrop]
    have e2 : 2 + 1 * n = n + 2 := by omega
    simp only [e2, allSteps, stepState, List.append_assoc]

theorem allSteps_length (op : ScanOp) (body : List OperatorDef) (tm : Terms) (n : Nat) :
    (allSteps op body tm n).length = body.length * (n + 1) := by
  induction n with
  | zero => simp [allSteps]
  | succ n ih =>
    simp only [allSteps, List.length_append, ih, stepState_length]
    ring

/-- Instance `k` of step `i + 1` sits at index `i * nrepeats + k` among the body instances. -/
theorem allSteps_get (op : ScanOp) (body : List OperatorDef) (tm : Terms) (n i k : Nat)
    (hi : i ≤ n) (hk : k < body.length) :
    (allSteps op body tm n)[i * body.length + k]? = (stepState op body tm i).1[k]? := by
  induction n with
  | zero =>
    have : i = 0 := by omega
    subst this
    simp [allSteps, stepState]
  | succ n ih =>
    simp only [allSteps]
    by_cases hin : i = n + 1
    · subst hin
      rw [List.getElem?_append_right (by rw [allSteps_length]; nlinarith)]
      congr 1
      rw [allSteps_length]
      have : (n + 1) * body.length = body.length * (n + 1) := Nat.mul_comm _ _
      omega
    · have hi2 : i ≤ n := by omega
      rw [List.getElem?_append_left, ih hi2]
      rw [allSteps_length]
      have : i * body.length + body.length ≤ n * body.length + body.length :=
        Nat.add_le_add_right (Nat.mul_le_mul_right _ hi2) _
      have e : body.length * (n + 1) = n * body.length + body.length := by ring
      omega

theorem unrollResult_fold (s : ScanOp) (g : GraphDef) (n : Nat) :
    (List.range n).foldl (unrollResult s) g =
      { g with
          op := g.op ++ ((List.range n).filter
            (fun i => decide (s.Output i ≠ "ignore"))).map (concatOp s),
          target := g.target ++ (List.range n).flatMap (resultTargets s) } := by
  induction n with
  | zero => simp
  | succ n ih =>
    rw [List.range_succ, List.foldl_append, ih, List.foldl_cons, List.foldl_nil]
    unfold unrollResult
    by_cases h : s.Output n = "ignore"
    · simp [h, List.filter_append, resultTargets]
    · simp [h, List.filter_append, resultTargets]

/-! ## `UnrollTemplate` as a whole -/

theorem toNat_sub_one (N : Nat) : ((N : Int).toNat - 1) = N - 1 := by simp

/-- The state left by lines 90-151 on an operator prepared by `InitTemplate`. -/
theorem buildGraph_later (op : ScanOp) (ws : Workspace) (tm : Terms) (nd : GraphDef)
    (gr : GraphCache) (c : Option Graph) (N : Int) :
    (buildGraph (op.later tm nd gr c N) ws).1 =
      op.later (stepState op (body1 op) tm (N.toNat - 1)).2
        { name := op.name ++ "(ScanLen." ++ toString N ++ ")",
          op := (List.range op.nseqs).map (unrolledSlice op ws)
            ++ allSteps op (body1 op) tm (N.toNat - 1)
            ++ ((List.range op.nout).filter (fun i => decide (op.Output i ≠ "ignore"))).map
                (concatOp (op.later tm nd gr c N)),
          target := (List.range op.nout).flatMap (resultTargets (op.later tm nd gr c N)),
          arg := [{ name := "phase", s := op.phase }],
          g_target := [],
          device_option := op.device_option }
        gr c N := by
  obtain ⟨h1, _, h3⟩ := InitTemplate_fresh op
  have hops : (op.later tm nd gr c N).template_def.op
      = (List.range op.nseqs).map (templateSlice op) ++ body1 op := h1
  have hR : (op.later tm nd gr c N).nrepeats = (body1 op).length := by
    rw [(BodyAt_body1 op).1]; exact h3
  unfold buildGraph
  simp only
  rw [hops]
  have e1 : (op.later tm nd gr c N).nseqs = op.nseqs := rfl
  have e2 : (op.later tm nd gr c N).nout = op.nout := rfl
  have e3 : (op.later tm nd gr c N).terms = tm := rfl
  have e4 : (op.later tm nd gr c N).nsteps = N := rfl
  rw [e1, e2, e3, e4,
    unrollSlice_template op (op.later tm nd gr c N) ws (body1 op) rfl rfl,
    unrollStep_fold op (op.later tm nd gr c N) _ (body1 op) tm (fun _ _ => rfl) hR,
    unrollResult_fold]
  rfl

theorem resolveSteps_ok (s : ScanOp) (ws : Workspace) (N : Int)
    (h : tripCount s ws = some N) : resolveSteps s ws = Result.ok { s with nsteps := N } := by
  unfold tripCount at h
  unfold resolveSteps at h ⊢
  by_cases h1 : s.step_type = "Dynamic"
  · simp only [h1, if_true] at h ⊢
    by_cases h2 : s.step_tensor = ""
    · simp [h2] at h
    · simp only [h2, if_false] at h ⊢
      cases h3 : ws.ints s.step_tensor with
      | none => simp [h3] at h
      | some v =>
        simp only [h3] at h ⊢
        simp only [Option.some.injEq] at h
        rw [h]
  · simp only [h1, if_false] at h ⊢
    by_cases h2 : s.step_type = "Default"
    · simp only [h2, if_true] at h ⊢
      simp only [Option.some.injEq] at h
      rw [h]
    · simp only [h2, if_false] at h ⊢
      simp only [Option.some.injEq] at h
      rw [← h]

theorem resolveSteps_fatal (s : ScanOp) (ws : Workspace) (s1 : ScanOp)
    (h : resolveSteps s ws = Result.fatal s1) : s1 = s := by
  unfold resolveSteps at h
  by_cases h1 : s.step_type = "Dynamic"
  · simp only [h1, if_true] at h
    by_cases h2 : s.step_tensor = ""
    · simp only [h2, if_true] at h
      exact (Result.fatal.inj h).symm
    · simp only [h2, if_false] at h
      cases h3 : ws.ints s.step_tensor with
      | none => simp only [h3] at h; exact (Result.fatal.inj h).symm
      | some v => simp [h3] at h
  · simp only [h1, if_false] at h
    by_cases h2 : s.step_type = "Default"
    · simp [h2] at h
    · simp [h2] at h

/-- When the trip count resolves to `N ≥ 1`, every sequence input has length `N` along
the axis and no graph is cached for `N`, `UnrollTemplate` builds the graph. -/
theorem UnrollTemplate_ok (s : ScanOp) (ws : Workspace) (N : Int)
    (h : tripCount s ws = some N) (hN : 1 ≤ N)
    (hdim : ∀ i, i < s.nseqs → ws.dim (s.Input i) s.axis = N) (hc : s.graphs N = none) :
    UnrollTemplate s ws = Result.ok (buildGraph { s with nsteps := N } ws) := by
  unfold UnrollTemplate
  rw [resolveSteps_ok s ws N h]
  simp only
  rw [if_neg (by omega)]
  have hany : (List.range s.nseqs).any
      (fun i => decide (ws.dim (s.Input i) s.axis ≠ N)) = false := by
    rw [List.any_eq_false]
    intro i hi
    simp [hdim i (List.mem_range.1 hi)]
  have hany2 : (List.range ({ s with nsteps := N } : ScanOp).nseqs).any
      (fun i => decide (ws.dim (({ s with nsteps := N } : ScanOp).Input i)
        ({ s with nsteps := N } : ScanOp).axis ≠ ({ s with nsteps := N } : ScanOp).nsteps))
        = false := hany
  rw [hany2]
  have hc2 : (({ s with nsteps := N } : ScanOp).graphs
      ({ s with nsteps := N } : ScanOp).nsteps).isSome = false := by
    show (s.graphs N).isSome = false
    rw [hc]; rfl
  rw [hc2]
  rfl

/-- The graph built on an operator prepared by `InitTemplate`, whatever earlier runs left. -/
theorem unrolledGraph_later (op : ScanOp) (ws : Workspace) (tm : Terms) (nd : GraphDef)
    (gr : GraphCache) (c : Option Graph) (n0 : Int) (N : Nat)
    (h : tripCount (op.later tm nd gr c n0) ws = some (N : Int)) (hN : 1 ≤ N)
    (hdim : ∀ i, i < op.nseqs → ws.dim (op.Input i) op.axis = N) (hc : gr N = none) :
    unrolledGraph (op.later tm nd gr c n0) ws = some
      { name := op.name ++ "(ScanLen." ++ toString N ++ ")",
        op := (List.range op.nseqs).map (unrolledSlice op ws)
          ++ allSteps op (body1 op) tm (N - 1)
          ++ ((List.range op.nout).filter (fun i => decide (op.Output i ≠ "ignore"))).map
              (concatOp (op.later tm nd gr c N)),
        target := (List.range op.nout).flatMap (resultTargets (op.later tm nd gr c N)),
        arg := [{ name := "phase", s := op.phase }],
        g_target := [],
        device_option := op.device_option } := by
  unfold unrolledGraph
  rw [UnrollTemplate_ok _ ws N h (by omega) hdim hc]
  have e : ({ op.later tm nd gr c n0 with nsteps := (N : Int) } : ScanOp)
      = op.later tm nd gr c N := rfl
  rw [e]
  show some (buildGraph (op.later tm nd gr c N) ws).1.new_def = _
  rw [buildGraph_later, toNat_sub_one]
  rfl

theorem InitTemplate_later (op : ScanOp) :
    InitTemplate op.fresh = op.later (terms1 op) {} (fun _ => none) none op.nsteps := by
  have h : InitTemplate op.fresh = op.later (InitTemplate op.fresh).terms {} (fun _ => none)
      none op.nsteps := rfl
  rw [(InitTemplate_fresh op).2.1] at h
  exact h

/-! ## Shape of the unrolled graph -/

theorem scanOps_types (t : Nat) (S : List OperatorDef) : ∀ tm,
    (scanOps (unrollOp t) tm S).1.map (fun o => (o.type, o.arg))
      = S.map (fun o => (o.type, o.arg)) := by
  induction S with
  | nil => intro tm; rfl
  | cons a l ih => intro tm; simp [scanOps, ih, unrollOp_fst]

theorem stepState_types (op : ScanOp) (body : List OperatorDef) (tm : Terms) (n : Nat) :
    (stepState op body tm n).1.map (fun o => (o.type, o.arg))
      = body.map (fun o => (o.type, o.arg)) := by
  induction n with
  | zero => rfl
  | succ n ih => simp only [stepState, scanOps_types, ih]

/-- Every step instance of body operator `k` exists and has its type and arguments. -/
theorem stepState_type (op : ScanOp) (tm : Terms) (n k : Nat)
    (hk : k < op.func_def.op.length) :
    ∃ inst, (stepState op (body1 op) tm n).1[k]? = some inst ∧
      inst.type = (op.body k).type ∧ inst.arg = (op.body k).arg := by
  have hlen : k < (stepState op (body1 op) tm n).1.length := by
    rw [stepState_length, (BodyAt_body1 op).1]; exact hk
  refine ⟨_, List.getElem?_eq_getElem hlen, ?_⟩
  have h := congrArg (fun l => l[k]?) (stepState_types op (body1 op) tm n)
  simp only [List.getElem?_map, List.getElem?_eq_getElem hlen, (body1_char op).2 k hk,
    Option.map_some', Option.some.injEq, Prod.mk.injEq, initBodyOp_fst] at h
  exact h

/-- The instance of body operator `k` for step `t` in the operator list of the graph. -/
theorem graph_instance (op : ScanOp) (tm : Terms) (pre post : List OperatorDef)
    (hpre : pre.length = op.nseqs) (N t k : Nat) (ht : 1 ≤ t) (htN : t ≤ N)
    (hk : k < op.func_def.op.length) :
    (pre ++ allSteps op (body1 op) tm (N - 1) ++ post)[op.nseqs
        + (t - 1) * op.func_def.op.length + k]?
      = (stepState op (body1 op) tm (t - 1)).1[k]? := by
  have hb : (body1 op).length = op.func_def.op.length := (BodyAt_body1 op).1
  have h1 := allSteps_get op (body1 op) tm (N - 1) (t - 1) k (by omega) (by omega)
  rw [hb] at h1
  have hlt : (t - 1) * op.func_def.op.length + k
      < (allSteps op (body1 op) tm (N - 1)).length := by
    rw [allSteps_length, hb]
    have : (t - 1) * op.func_def.op.length + op.func_def.op.length
        ≤ (N - 1) * op.func_def.op.length + op.func_def.op.length :=
      Nat.add_le_add_right (Nat.mul_le_mul_right _ (by omega)) _
    have e : op.func_def.op.length * (N - 1 + 1)
        = (N - 1) * op.func_def.op.length + op.func_def.op.length := by ring
    omega
  rw [List.append_assoc, List.getElem?_append_right (by omega),
    List.getElem?_append_left (by rw [hpre]; omega), ← h1]
  congr 1
  omega

/-- C5. Slicing: when a graph is built for the trip count `N ≥ 1`, operator `idx` of it,
for every sequence input `idx < nseqs`, is a `Slice` operator whose single input is the
sequence-input symbol `x`, whose arguments are the scan axis and `num_output = N`, and
whose outputs are `x@1, ..., x@N` in increasing step order. -/
theorem C5_slicing (op : ScanOp) (ws : Workspace) (tm : Terms) (nd : GraphDef)
    (gr : GraphCache) (c : Option Graph) (n0 : Int) (N : Nat)
    (h : tripCount (op.later tm nd gr c n0) ws = some (N : Int)) (hN : 1 ≤ N)
    (hdim : ∀ i, i < op.nseqs → ws.dim (op.Input i) op.axis = N) (hc : gr N = none)
    (idx : Nat) (hidx : idx < op.nseqs) :
    ∃ g o, unrolledGraph (op.later tm nd gr c n0) ws = some g ∧ g.op[idx]? = some o ∧
      o.type = "Slice" ∧ o.input = [op.Input idx] ∧
      o.arg = [{ name := "axis", i := op.axis }, { name := "num_output", i := N }] ∧
      o.output = (List.range' 1 N).map (fun t => op.Input idx ++ "@" ++ toString t) := by
  refine ⟨_, unrolledSlice op ws idx, unrolledGraph_later op ws tm nd gr c n0 N h hN hdim hc,
    ?_, rfl, rfl, ?_, ?_⟩
  · simp only
    rw [List.append_assoc, List.getElem?_append_left (by simpa using hidx), List.getElem?_map,
      List.getElem?_range hidx]
    rfl
  · simp [unrolledSlice, hdim idx hidx]
  · simp [unrolledSlice, sliceOutputs, hdim idx hidx]

/-- C3. Unroll shape: when a graph is built for the trip count `N ≥ 1`, its operator list
consists of `nseqs` `Slice` operators, then `nrepeats * N` body instances (the instance of
body operator `k` for step `t` sits at index `nseqs + (t-1)*nrepeats + k` and has the type and
arguments of the template operator), then one `Concat` operator per declared output whose
name is not "ignore"; when every declared output is ignored there is no `Concat`. -/
theorem C3_unroll_shape (op : ScanOp) (ws : Workspace) (tm : Terms) (nd : GraphDef)
    (gr : GraphCache) (c : Option Graph) (n0 : Int) (N : Nat)
    (h : tripCount (op.later tm nd gr c n0) ws = some (N : Int)) (hN : 1 ≤ N)
    (hdim : ∀ i, i < op.nseqs → ws.dim (op.Input i) op.axis = N) (hc : gr N = none) :
    ∃ g, unrolledGraph (op.later tm nd gr c n0) ws = some g ∧
      (op.later tm nd gr c n0).nrepeats = op.func_def.op.length ∧
      g.op.length = op.nseqs + op.func_def.op.length * N
        + ((List.range op.nout).filter (fun i => decide (op.Output i ≠ "ignore"))).length ∧
      (∀ i, i < op.nseqs → ∃ o, g.op[i]? = some o ∧ o.type = "Slice") ∧
      (∀ t k, 1 ≤ t → t ≤ N → k < op.func_def.op.length →
        ∃ o, g.op[op.nseqs + (t - 1) * op.func_def.op.length + k]? = some o ∧
          o.type = (op.body k).type ∧ o.arg = (op.body k).arg) ∧
      (∀ j, j < ((List.range op.nout).filter
            (fun i => decide (op.Output i ≠ "ignore"))).length →
        ∃ o, g.op[op.nseqs + op.func_def.op.length * N + j]? = some o ∧ o.type = "Concat") ∧
      ((∀ i, i < op.nout → op.Output i = "ignore") →
        g.op.length = op.nseqs + op.func_def.op.length * N) := by
  have hb : (body1 op).length = op.func_def.op.length := (BodyAt_body1 op).1
  have hlen : ((List.range op.nseqs).map (unrolledSlice op ws)
      ++ allSteps op (body1 op) tm (N - 1)).length
        = op.nseqs + op.func_def.op.length * N := by
    rw [List.length_append, allSteps_length, hb]
    simp only [List.length_map, List.length_range]
    have : N - 1 + 1 = N := by omega
    rw [this]
  refine ⟨_, unrolledGraph_later op ws tm nd gr c n0 N h hN hdim hc,
    (InitTemplate_fresh op).2.2, ?_, ?_, ?_, ?_, ?_⟩
  · simp only
    rw [List.length_append, hlen, List.length_map]
  · intro i hi
    refine ⟨unrolledSlice op ws i, ?_, rfl⟩
    simp only
    rw [List.append_assoc, List.getElem?_append_left (by simpa using hi), List.getElem?_map,
      List.getElem?_range hi]
    rfl
  · intro t k ht htN hk
    obtain ⟨inst, h1, h2, h3⟩ := stepState_type op tm (t - 1) k hk
    refine ⟨inst, ?_, h2, h3⟩
    simp only
    rw [graph_instance op tm _ _ (by simp) N t k ht htN hk, h1]
  · intro j hj
    refine ⟨concatOp (op.later tm nd gr c N)
      (((List.range op.nout).filter (fun i => decide (op.Output i ≠ "ignore")))[j]), ?_, rfl⟩
    simp only
    rw [List.getElem?_append_right (by rw [hlen]; omega), hlen]
    have e : op.nseqs + op.func_def.op.length * N + j
        - (op.nseqs + op.func_def.op.length * N) = j := by omega
    rw [e, List.getElem?_map, List.getElem?_eq_getElem hj]
    rfl
  · intro hall
    simp only
    rw [List.length_append, hlen, List.length_map]
    have : (List.range op.nout).filter (fun i => decide (op.Output i ≠ "ignore")) = [] := by
      rw [List.filter_eq_nil_iff]
      intro i hi
      simp [hall i (List.mem_range.1 hi)]
    rw [this]; rfl

/-- C4. Result targets: when a graph is built for the trip count `N ≥ 1`, its targets are,
for the declared outputs `i` in order, `func_def.target(i)@N` alone when `Output(i)` is
named "ignore" and `func_def.target(i)@N` followed by `Output(i)`'s name otherwise; and
the operators after the body instances are exactly one `Concat` per non-ignored output, in
order, with arguments `axis` = the scan axis and `num_input = N`, inputs
`Output(i)@1, ..., Output(i)@N` and the single output `Output(i)`. -/
theorem C4_result_targets (op : ScanOp) (ws : Workspace) (tm : Terms) (nd : GraphDef)
    (gr : GraphCache) (c : Option Graph) (n0 : Int) (N : Nat)
    (h : tripCount (op.later tm nd gr c n0) ws = some (N : Int)) (hN : 1 ≤ N)
    (hdim : ∀ i, i < op.nseqs → ws.dim (op.Input i) op.axis = N) (hc : gr N = none) :
    ∃ g, unrolledGraph (op.later tm nd gr c n0) ws = some g ∧
      g.target = (List.range op.nout).flatMap (fun i =>
        if op.Output i = "ignore" then [op.target i ++ "@" ++ toString N]
        else [op.target i ++ "@" ++ toString N, op.Output i]) ∧
      g.op.drop (op.nseqs + op.func_def.op.length * N) =
        ((List.range op.nout).filter (fun i => decide (op.Output i ≠ "ignore"))).map
          (fun i =>
            { name := op.name ++ "(BodyOp."
                ++ toString (op.nseqs + op.func_def.op.length + i) ++ ")",
              type := "Concat",
              arg := [{ name := "axis", i := op.axis }, { name := "num_input", i := N }],
              input := (List.range' 1 N).map (fun t => op.Output i ++ "@" ++ toString t),
              output := [op.Output i] }) := by
  have hb : (body1 op).length = op.func_def.op.length := (BodyAt_body1 op).1
  have hlen : ((List.range op.nseqs).map (unrolledSlice op ws)
      ++ allSteps op (body1 op) tm (N - 1)).length
        = op.nseqs + op.func_def.op.length * N := by
    rw [List.length_append, allSteps_length, hb]
    simp only [List.length_map, List.length_range]
    have : N - 1 + 1 = N := by omega
    rw [this]
  refine ⟨_, unrolledGraph_later op ws tm nd gr c n0 N h hN hdim hc, rfl, ?_⟩
  simp only
  rw [← hlen, List.drop_left]
  apply List.map_congr_left
  intro i _
  have hR : (op.later tm nd gr c N).nrepeats = op.func_def.op.length :=
    (InitTemplate_fresh op).2.2
  unfold concatOp
  rw [hR]
  simp
  exact ⟨rfl, rfl, rfl, rfl, rfl⟩

/-! ## Inputs of the step instances -/

theorem mem_of_getElem? {α : Type} (l : List α) (j : Nat) (x : α) (h : l[j]? = some x) :
    x ∈ l := by
  obtain ⟨hj, he⟩ := List.getElem?_eq_some_iff.1 h
  rw [← he]; exact List.getElem_mem _

/-- An input `x@a` whose key is present when the operator is cloned becomes `x@(a+1)`. -/
theorem track_step (op : ScanOp) (hsym : SymbolsNoAt op) (tm : Terms) (hg : Good tm)
    (n k : Nat) (hk : k < op.func_def.op.length) (j : Nat) (x : String) (a : Nat)
    (hx : NoAt x) (prev : OperatorDef)
    (hprev : (stepState op (body1 op) tm n).1[k]? = some prev)
    (hin : prev.input[j]? = some (x ++ "@" ++ toString a))
    (hpres : ∀ m, StepInv op (n + 1) (stepState op (body1 op) tm n).2 k m →
      (m (x ++ "@" ++ toString a)).isSome) :
    ∃ inst, (stepState op (body1 op) tm (n + 1)).1[k]? = some inst ∧
      inst.input[j]? = some (x ++ "@" ++ toString (a + 1)) := by
  obtain ⟨prev2, m, h1, h2, h3⟩ := stepState_char op hsym (body1 op) tm (BodyAt_body1 op) hg n k hk
  rw [hprev] at h1
  cases Option.some.inj h1
  refine ⟨_, h2, ?_⟩
  rw [unrollOp_fst]
  simp only [List.getElem?_map, hin, Option.map_some', Option.some.injEq]
  have hs := hpres m h3
  cases hv : m (x ++ "@" ++ toString a) with
  | none => rw [hv] at hs; exact absurd hs (by simp)
  | some v =>
    rw [Terms.subst_some _ _ _ hv]
    exact h3.1 x a v hx hv

/-- An `@`-free input whose key is present when the operator is cloned for step 2 is
replaced by its entry in the mapping left by the first step. -/
theorem track_first (op : ScanOp) (hsym : SymbolsNoAt op) (tm : Terms) (hg : Good tm)
    (k : Nat) (hk : k < op.func_def.op.length) (j : Nat) (x v : String)
    (hx : NoAt x) (prev : OperatorDef) (hprev : (body1 op)[k]? = some prev)
    (hin : prev.input[j]? = some x) (hv : tm x = some v) :
    ∃ inst, (stepState op (body1 op) tm 1).1[k]? = some inst ∧ inst.input[j]? = some v := by
  obtain ⟨prev2, m, h1, h2, h3⟩ := stepState_char op hsym (body1 op) tm (BodyAt_body1 op) hg 0 k hk
  have h1b : (body1 op)[k]? = some prev2 := h1
  rw [hprev] at h1b
  cases Option.some.inj h1b
  refine ⟨_, h2, ?_⟩
  rw [unrollOp_fst]
  simp only [List.getElem?_map, hin, Option.map_some', Option.some.injEq]
  have hm : m x = some v := by
    rw [h3.2.1 x hx]; exact hv
  exact Terms.subst_some _ _ _ hm

/-- The inputs of the step-1 instance of body operator `k`. -/
theorem body1_input (op : ScanOp) (k : Nat) (hk : k < op.func_def.op.length) (j : Nat)
    (x : String) (hin : (op.body k).input[j]? = some x) :
    ∃ inst, (body1 op)[k]? = some inst ∧
      inst.input[j]? = some (if x ∈ seqNames op ++ written op k
        then x ++ "@" ++ toString 1 else x) := by
  refine ⟨_, (body1_char op).2 k hk, ?_⟩
  rw [initBodyOp_fst]
  simp only [List.getElem?_map, hin, Option.map_some', Option.some.injEq]
  by_cases hmem : x ∈ seqNames op ++ written op k
  · rw [if_pos hmem]
    exact Terms.subst_some _ _ _ (by simp [domTerms, hmem, at_one])
  · rw [if_neg hmem]
    exact Terms.subst_none _ _ (by simp [domTerms, hmem])

/-- An input that is a sequence input or is written earlier in the body is `x@t` in the
step-`t` instance. -/
theorem current_input (op : ScanOp) (hsym : SymbolsNoAt op) (tm : Terms) (hg : Good tm)
    (k : Nat) (hk : k < op.func_def.op.length) (j : Nat) (x : String)
    (hin : (op.body k).input[j]? = some x) (hmem : x ∈ seqNames op ++ written op k)
    (n : Nat) :
    ∃ inst, (stepState op (body1 op) tm n).1[k]? = some inst ∧
      inst.input[j]? = some (x ++ "@" ++ toString (n + 1)) := by
  have hx : NoAt x :=
    (hsym.2.1 _ (body_mem op k hk)).2 x (mem_of_getElem? _ _ _ hin)
  induction n with
  | zero =>
    obtain ⟨inst, h1, h2⟩ := body1_input op k hk j x hin
    rw [if_pos hmem] at h2
    exact ⟨inst, h1, h2⟩
  | succ n ih =>
    obtain ⟨prev, h1, h2⟩ := ih
    refine track_step op hsym tm hg n k hk j x (n + 1) hx prev h1 h2 ?_
    intro m hm
    rcases List.mem_append.1 hmem with h3 | h3
    · obtain ⟨i, hi, rfl⟩ := List.mem_map.1 h3
      exact hm.2.2.1 i (List.mem_range.1 hi)
    · obtain ⟨k', hk', hy⟩ := (mem_written op x k).1 h3
      exact hm.2.2.2.1 k' hk' x hy

/-- The graph built by the first run after `InitTemplate`. -/
theorem unrolledGraph_first (op : ScanOp) (ws : Workspace) (N : Nat)
    (h : tripCount (InitTemplate op.fresh) ws = some (N : Int)) (hN : 1 ≤ N)
    (hdim : ∀ i, i < op.nseqs → ws.dim (op.Input i) op.axis = N) :
    ∃ g post, unrolledGraph (InitTemplate op.fresh) ws = some g ∧
      g.op = (List.range op.nseqs).map (unrolledSlice op ws)
          ++ allSteps op (body1 op) (terms1 op) (N - 1) ++ post := by
  rw [InitTemplate_later] at h ⊢
  exact ⟨_, _, unrolledGraph_later op ws _ _ _ _ _ N h hN hdim rfl, rfl⟩

/-- C2. Per-step renaming: for a template whose symbols contain no `@`, a trip count
`N ≥ 1` and a step `1 ≤ t ≤ N`, the operator at index `nseqs + (t-1)*nrepeats + k` of the
unrolled graph has the type and the numbers of inputs and outputs of template operator
`k`, each output `y` is `y@t`, each input that is a sequence-input symbol `x` is `x@t`,
and each input that is a symbol `y` written by an earlier operator of the body is `y@t`. -/
theorem C2_per_step_renaming (op : ScanOp) (ws : Workspace) (N : Nat)
    (hsym : SymbolsNoAt op)
    (h : tripCount (InitTemplate op.fresh) ws = some (N : Int)) (hN : 1 ≤ N)
    (hdim : ∀ i, i < op.nseqs → ws.dim (op.Input i) op.axis = N)
    (t k : Nat) (ht : 1 ≤ t) (htN : t ≤ N) (hk : k < op.func_def.op.length) :
    ∃ g inst, unrolledGraph (InitTemplate op.fresh) ws = some g ∧
      g.op[op.nseqs + (t - 1) * op.func_def.op.length + k]? = some inst ∧
      inst.type = (op.body k).type ∧
      inst.input.length = (op.body k).input.length ∧
      inst.output.length = (op.body k).output.length ∧
      inst.output = (op.body k).output.map (fun y => y ++ "@" ++ toString t) ∧
      (∀ (j : Nat) (x : String), (op.body k).input[j]? = some x →
        (∃ i, i < op.nseqs ∧ x = op.Input i) →
        inst.input[j]? = some (x ++ "@" ++ toString t)) ∧
      (∀ (j : Nat) (y : String), (op.body k).input[j]? = some y →
        (∃ k', k' < k ∧ y ∈ (op.body k').output) →
        inst.input[j]? = some (y ++ "@" ++ toString t)) := by
  obtain ⟨g, post, hg1, hg2⟩ := unrolledGraph_first op ws N h hN hdim
  have hgood := Good_terms1 op hsym
  obtain ⟨hB, _, _⟩ := stepState_inv op hsym (body1 op) (terms1 op) (BodyAt_body1 op) hgood (t - 1)
  have et : t - 1 + 1 = t := by omega
  rw [et] at hB
  obtain ⟨inst, h1, h2, _, h4, h5⟩ := hB.2 k hk
  have hidx : g.op[op.nseqs + (t - 1) * op.func_def.op.length + k]? = some inst := by
    rw [hg2, graph_instance op (terms1 op) _ post (by simp) N t k ht htN hk, h1]
  have hcur : ∀ (j : Nat) (x : String), (op.body k).input[j]? = some x →
      x ∈ seqNames op ++ written op k →
      inst.input[j]? = some (x ++ "@" ++ toString t) := by
    intro j x hin hmem
    obtain ⟨inst2, h6, h7⟩ := current_input op hsym (terms1 op) hgood k hk j x hin hmem (t - 1)
    rw [h1] at h6
    cases Option.some.inj h6
    rw [et] at h7
    exact h7
  refine ⟨g, inst, hg1, hidx, h2, h5, by simp [h4], h4, ?_, ?_⟩
  · rintro j x hin ⟨i, hi, rfl⟩
    exact hcur j _ hin (List.mem_append.2
      (Or.inl (List.mem_map.2 ⟨i, List.mem_range.2 hi, rfl⟩)))
  · rintro j y hin ⟨k', hk', hy⟩
    exact hcur j y hin (List.mem_append.2
      (Or.inr ((mem_written op y k).2 ⟨k', hk', hy⟩)))

/-- An input that is the initial-state symbol of a declared output stays as it is in the
step-1 instance and reads the previous step's result from then on. -/
theorem recurrent_input (op : ScanOp) (hsym : SymbolsNoAt op) (i : Nat) (hi : i < op.nout)
    (hd : op.dflt i ≠ "") (hout : op.Output i = op.target i)
    (hseq : ∀ i', i' < op.nseqs → op.dflt i ≠ op.Input i')
    (hbody : ∀ k', k' < op.func_def.op.length → op.dflt i ∉ (op.body k').output)
    (hlast : ∀ j, i < j → j < op.nout → op.dflt j = op.dflt i → op.target j = op.target i)
    (k : Nat) (hk : k < op.func_def.op.length) (j : Nat)
    (hin : (op.body k).input[j]? = some (op.dflt i)) (n : Nat) :
    ∃ inst, (stepState op (body1 op) (terms1 op) n).1[k]? = some inst ∧
      inst.input[j]? = some (if n = 0 then op.dflt i
        else op.target i ++ "@" ++ toString n) := by
  have hgood := Good_terms1 op hsym
  have hnm : op.dflt i ∉ seqNames op ++ written op k := by
    intro hmem
    rcases List.mem_append.1 hmem with h3 | h3
    · obtain ⟨i', hi', he⟩ := List.mem_map.1 h3
      exact hseq i' (List.mem_range.1 hi') he.symm
    · obtain ⟨k', hk', hy⟩ := (mem_written op _ k).1 h3
      exact hbody k' (by omega) hy
  have h0 : ∃ inst, (body1 op)[k]? = some inst ∧ inst.input[j]? = some (op.dflt i) := by
    obtain ⟨inst, h1, h2⟩ := body1_input op k hk j _ hin
    rw [if_neg hnm] at h2
    exact ⟨inst, h1, h2⟩
  induction n with
  | zero => exact h0
  | succ n ih =>
    rw [if_neg (by omega)]
    cases n with
    | zero =>
      obtain ⟨prev, h1, h2⟩ := h0
      exact track_first op hsym (terms1 op) hgood k hk j _ _ (hsym.2.2 i hi).1 prev h1 h2
        (terms1_dflt op i hi hd hlast)
    | succ n =>
      obtain ⟨prev, h1, h2⟩ := ih
      rw [if_neg (by omega)] at h2
      refine track_step op hsym (terms1 op) hgood (n + 1) k hk j _ (n + 1)
        (hsym.2.2 i hi).2.1 prev h1 h2 ?_
      intro m hm
      have := hm.2.2.2.2 (by omega) i hi hd
      rw [hout] at this
      simpa using this

/-! ## Recurrent carry -/

/-- C1 (amended). Recurrent carry: for a template whose symbols contain no `@`, in which
declared output `i` has the non-empty initial-state symbol `h0` and the result symbol `h`
(equal to `Output(i)`'s name), `h0` is neither a sequence input nor an output of a body
operator, and every later declared output with the same initial-state symbol has the same
result symbol: every body-operator input that is `h0` in the template is `h0` in the step-1
instance and `h@(t-1)` in the step-`t` instance, for `2 ≤ t ≤ N`. -/
theorem C1_recurrent_carry (op : ScanOp) (ws : Workspace) (N : Nat)
    (hsym : SymbolsNoAt op)
    (h : tripCount (InitTemplate op.fresh) ws = some (N : Int)) (hN : 1 ≤ N)
    (hdim : ∀ i, i < op.nseqs → ws.dim (op.Input i) op.axis = N)
    (i : Nat) (hi : i < op.nout) (hd : op.dflt i ≠ "") (hout : op.Output i = op.target i)
    (hseq : ∀ i', i' < op.nseqs → op.dflt i ≠ op.Input i')
    (hbody : ∀ k', k' < op.func_def.op.length → op.dflt i ∉ (op.body k').output)
    (hlast : ∀ j, j < op.nout → i < j → op.dflt j = op.dflt i → op.target j = op.target i)
    (t k j : Nat) (ht : 1 ≤ t) (htN : t ≤ N) (hk : k < op.func_def.op.length)
    (hin : (op.body k).input[j]? = some (op.dflt i)) :
    ∃ g inst, unrolledGraph (InitTemplate op.fresh) ws = some g ∧
      g.op[op.nseqs + (t - 1) * op.func_def.op.length + k]? = some inst ∧
      inst.input[j]? = some (if t = 1 then op.dflt i
        else op.target i ++ "@" ++ toString (t - 1)) := by
  obtain ⟨g, post, hg1, hg2⟩ := unrolledGraph_first op ws N h hN hdim
  obtain ⟨inst, h1, h2⟩ :=
    recurrent_input op hsym i hi hd hout hseq hbody (fun j h1 h2 => hlast j h2 h1) k hk j hin
      (t - 1)
  refine ⟨g, inst, hg1, ?_, ?_⟩
  · rw [hg2, graph_instance op (terms1 op) _ post (by simp) N t k ht htN hk, h1]
  · rw [h2]
    by_cases h1t : t = 1
    · rw [if_pos h1t, if_pos (by omega)]
    · rw [if_neg h1t, if_neg (by omega)]

/-- C1, witness: on `exScan` with trip count 3, the input `h0` of the first body operator
is `h@2` in its step-3 instance. -/
theorem C1_recurrent_carry_witness :
    SymbolsNoAt exScan ∧
    ∃ g inst, unrolledGraph (InitTemplate exScan.fresh) (exWs 3) = some g ∧
      g.op[exScan.nseqs + (3 - 1) * exScan.func_def.op.length + 0]? = some inst ∧
      inst.input[1]? = some (if 3 = 1 then exScan.dflt 0
        else exScan.target 0 ++ "@" ++ toString (3 - 1)) :=
  ⟨by decide,
   C1_recurrent_carry exScan (exWs 3) 3 (by decide) (by decide) (by decide) (by decide)
     0 (by decide) (by decide) (by decide) (by decide) (by decide) (by decide)
     3 0 1 (by decide) (by decide) (by decide) (by decide)⟩

/-- C1 as stated fails on `exShared`: output 0 has the initial-state symbol `h0` and the
result symbol `h`, no symbol contains `@`, `h0` is neither a sequence input nor written by
the body, yet with trip count 2 the input `h0` of body operator 0 is `g@1`, not `h@1`, in
its step-2 instance. -/
theorem C1_counterexample :
    SymbolsNoAt exShared ∧ exShared.dflt 0 = "h0" ∧ exShared.target 0 = "h" ∧
    exShared.Output 0 = "h" ∧ "h0" ∉ seqNames exShared ∧
    (∀ k, k < 2 → "h0" ∉ (exShared.body k).output) ∧
    (exShared.body 0).input[1]? = some "h0" ∧
    ((unrolledGraph (InitTemplate exShared.fresh) (exWs 2)).bind
      (fun g => g.op[1 + (2 - 1) * 2 + 0]?)).map (fun o => o.input[1]?)
        = some (some "g@1") ∧
    ((unrolledGraph (InitTemplate exShared.fresh) (exWs 2)).bind
      (fun g => g.op[1 + (2 - 1) * 2 + 0]?)).map (fun o => o.input[1]?)
        ≠ some (some ("h" ++ "@" ++ toString (2 - 1))) := by
  refine ⟨by decide, by decide, by decide, by decide, by decide, by decide, by decide,
    by decide, by decide⟩

/-- C2, witness: on `exScan` with trip count 2, the step-2 instance of the second body
operator. -/
theorem C2_per_step_renaming_witness :
    SymbolsNoAt exScan ∧
    ∃ g inst, unrolledGraph (InitTemplate exScan.fresh) (exWs 2) = some g ∧
      g.op[exScan.nseqs + (2 - 1) * exScan.func_def.op.length + 1]? = some inst ∧
      inst.type = (exScan.body 1).type ∧
      inst.input.length = (exScan.body 1).input.length ∧
      inst.output.length = (exScan.body 1).output.length ∧
      inst.output = (exScan.body 1).output.map (fun y => y ++ "@" ++ toString 2) ∧
      (∀ (j : Nat) (x : String), (exScan.body 1).input[j]? = some x →
        (∃ i, i < exScan.nseqs ∧ x = exScan.Input i) →
        inst.input[j]? = some (x ++ "@" ++ toString 2)) ∧
      (∀ (j : Nat) (y : String), (exScan.body 1).input[j]? = some y →
        (∃ k', k' < 1 ∧ y ∈ (exScan.body k').output) →
        inst.input[j]? = some (y ++ "@" ++ toString 2)) :=
  ⟨by decide,
   C2_per_step_renaming exScan (exWs 2) 2 (by decide) (by decide) (by decide) (by decide)
     2 1 (by decide) (by decide) (by decide)⟩

/-- C3, witness: `exScan` unrolled for trip count 3 has 1 + 2 * 3 + 1 operators. -/
theorem C3_unroll_shape_witness :
    ∃ g, unrolledGraph (exScan.later Terms.empty {} (fun _ => none) none 0) (exWs 3) = some g ∧
      g.op.length = exScan.nseqs + exScan.func_def.op.length * 3
        + ((List.range exScan.nout).filter
            (fun i => decide (exScan.Output i ≠ "ignore"))).length :=
  (C3_unroll_shape exScan (exWs 3) Terms.empty {} (fun _ => none) none 0 3
    (by decide) (by decide) (by decide) rfl).imp (fun _ hg => ⟨hg.1, hg.2.2.1⟩)

/-- C4, witness: the targets of `exScan` unrolled for trip count 3. -/
theorem C4_result_targets_witness :
    ∃ g, unrolledGraph (exScan.later Terms.empty {} (fun _ => none) none 0) (exWs 3) = some g ∧
      g.target = (List.range exScan.nout).flatMap (fun i =>
        if exScan.Output i = "ignore" then [exScan.target i ++ "@" ++ toString 3]
        else [exScan.target i ++ "@" ++ toString 3, exScan.Output i]) :=
  (C4_result_targets exScan (exWs 3) Terms.empty {} (fun _ => none) none 0 3
    (by decide) (by decide) (by decide) rfl).imp (fun _ hg => ⟨hg.1, hg.2.1⟩)

/-- C5, witness: the `Slice` operator of `exScan` unrolled for trip count 3. -/
theorem C5_slicing_witness :
    ∃ g o, unrolledGraph (exScan.later Terms.empty {} (fun _ => none) none 0) (exWs 3) = some g ∧
      g.op[0]? = some o ∧ o.type = "Slice" ∧ o.input = [exScan.Input 0] ∧
      o.arg = [{ name := "axis", i := exScan.axis }, { name := "num_output", i := (3 : Nat) }] ∧
      o.output = (List.range' 1 3).map (fun t => exScan.Input 0 ++ "@" ++ toString t) :=
  C5_slicing exScan (exWs 3) Terms.empty {} (fun _ => none) none 0 3
    (by decide) (by decide) (by decide) rfl 0 (by decide)

/-! ## Cache and checks -/

/-- `UnrollTemplate` once the trip count has resolved to `N`. -/
theorem UnrollTemplate_cases (s : ScanOp) (ws : Workspace) (N : Int)
    (h : tripCount s ws = some N) :
    UnrollTemplate s ws =
      if N < 1 then Result.fatal ({ s with nsteps := N }, ws)
      else if (List.range s.nseqs).any (fun i => decide (ws.dim (s.Input i) s.axis ≠ N)) then
        Result.fatal ({ s with nsteps := N }, ws)
      else if (s.graphs N).isSome then Result.ok ({ s with nsteps := N }, ws)
      else Result.ok (buildGraph { s with nsteps := N } ws) := by
  unfold UnrollTemplate
  rw [resolveSteps_ok s ws N h]
  rfl

theorem any_false_of_dims (s : ScanOp) (ws : Workspace) (N : Int)
    (hdim : ∀ i, i < s.nseqs → ws.dim (s.Input i) s.axis = N) :
    (List.range s.nseqs).any (fun i => decide (ws.dim (s.Input i) s.axis ≠ N)) = false := by
  rw [List.any_eq_false]
  intro i hi
  simp [hdim i (List.mem_range.1 hi)]

theorem any_true_iff (s : ScanOp) (ws : Workspace) (N : Int) :
    (List.range s.nseqs).any (fun i => decide (ws.dim (s.Input i) s.axis ≠ N)) = true ↔
      ∃ i, i < s.nseqs ∧ ws.dim (s.Input i) s.axis ≠ N := by
  rw [List.any_eq_true]
  constructor
  · rintro ⟨i, hi, h⟩
    exact ⟨i, List.mem_range.1 hi, by simpa using h⟩
  · rintro ⟨i, hi, h⟩
    exact ⟨i, List.mem_range.2 hi, by simpa using h⟩

theorem select_cached (s1 : ScanOp) (G : Graph) (h : s1.graphs s1.nsteps = some G) :
    ({ s1 with
        graphs := if (s1.graphs s1.nsteps).isSome then s1.graphs
          else s1.graphs.set s1.nsteps ⟨s1.new_def⟩,
        cur_graph := (if (s1.graphs s1.nsteps).isSome then s1.graphs
          else s1.graphs.set s1.nsteps ⟨s1.new_def⟩) s1.nsteps } : ScanOp)
      = { s1 with cur_graph := some G } := by
  simp only [h, Option.isSome_some, if_true]

/-- `RunOnDevice` when a graph `G` is cached for the resolved trip count `N`. -/
theorem RunOnDevice_cached (s : ScanOp) (ws : Workspace) (N : Int) (G : Graph)
    (h : tripCount s ws = some N) (hc : s.graphs N = some G) :
    RunOnDevice s ws =
      if N < 1 then Result.fatal ({ s with nsteps := N }, ws)
      else if (List.range s.nseqs).any (fun i => decide (ws.dim (s.Input i) s.axis ≠ N)) then
        Result.fatal ({ s with nsteps := N }, ws)
      else Result.ok ({ s with nsteps := N, cur_graph := some G }, ws) := by
  unfold RunOnDevice
  rw [UnrollTemplate_cases s ws N h, hc]
  by_cases h1 : N < 1
  · rw [if_pos h1, if_pos h1]
  · rw [if_neg h1, if_neg h1]
    by_cases h2 : (List.range s.nseqs).any
        (fun i => decide (ws.dim (s.Input i) s.axis ≠ N)) = true
    · rw [if_pos h2, if_pos h2]
    · rw [if_neg h2, if_neg h2]
      exact congrArg (fun x => Result.ok (x, ws))
        (select_cached ({ s with nsteps := N } : ScanOp) G hc)

/-- C6. Cache stability: in a state where a graph `G` is cached for the trip count `N` to
which a further run resolves, the run performs no rebuild: whether it completes or stops
at a check, the Term mapping, `new_def`, the workspace (hence the uploaded `raw_ops`) and
the cache are unchanged; when it completes, the graph selected to run is `G`; and it
completes whenever `N ≥ 1` and every sequence input has length `N` along the axis. -/
theorem C6_cache_stability (s : ScanOp) (ws : Workspace) (N : Int) (G : Graph)
    (h : tripCount s ws = some N) (hc : s.graphs N = some G) :
    (∀ r, RunOnDevice s ws = Result.ok r →
      r.1.terms = s.terms ∧ r.1.new_def = s.new_def ∧ r.2 = ws ∧ r.1.graphs = s.graphs ∧
      r.1.cur_graph = some G ∧ r.1.nsteps = N) ∧
    (∀ r, RunOnDevice s ws = Result.fatal r →
      r.1.terms = s.terms ∧ r.1.new_def = s.new_def ∧ r.2 = ws ∧ r.1.graphs = s.graphs) ∧
    (1 ≤ N → (∀ i, i < s.nseqs → ws.dim (s.Input i) s.axis = N) →
      ∃ r, RunOnDevice s ws = Result.ok r) := by
  have hR := RunOnDevice_cached s ws N G h hc
  refine ⟨?_, ?_, ?_⟩
  · intro r hr
    rw [hR] at hr
    by_cases h1 : N < 1
    · simp [h1] at hr
    · by_cases h2 : (List.range s.nseqs).any
          (fun i => decide (ws.dim (s.Input i) s.axis ≠ N)) = true
      · rw [if_neg h1, if_pos h2] at hr
        cases hr
      · rw [if_neg h1, if_neg h2] at hr
        cases Result.ok.inj hr
        exact ⟨rfl, rfl, rfl, rfl, rfl, rfl⟩
  · intro r hr
    rw [hR] at hr
    by_cases h1 : N < 1
    · rw [if_pos h1] at hr
      cases Result.fatal.inj hr
      exact ⟨rfl, rfl, rfl, rfl⟩
    · by_cases h2 : (List.range s.nseqs).any
          (fun i => decide (ws.dim (s.Input i) s.axis ≠ N)) = true
      · rw [if_neg h1, if_pos h2] at hr
        cases Result.fatal.inj hr
        exact ⟨rfl, rfl, rfl, rfl⟩
      · rw [if_neg h1, if_neg h2] at hr
        cases hr
  · intro hN hdim
    rw [hR, if_neg (by omega), any_false_of_dims s ws N hdim]
    exact ⟨_, rfl⟩

/-- C6, witness: `exCached` run again with trip count 2 selects the cached graph. -/
theorem C6_cache_stability_witness :
    ∃ r, RunOnDevice exCached (exWs 2) = Result.ok r ∧
      r.1.cur_graph = some ⟨{ name := "scan(ScanLen.2)" }⟩ ∧ r.1.graphs = exCached.graphs ∧
      r.1.new_def = exCached.new_def :=
  have h := C6_cache_stability exCached (exWs 2) 2 ⟨{ name := "scan(ScanLen.2)" }⟩
    (by decide) (by decide)
  (h.2.2 (by decide) (by decide)).imp
    (fun r hr => ⟨hr, (h.1 r hr).2.2.2.2.1, (h.1 r hr).2.2.2.1, (h.1 r hr).2.1⟩)

/-- C8. A trip count below one is fatal: whenever the trip count resolves (from the step
tensor, from the axis length of sequence input 0, or from the configured value) to a value
`N < 1`, `UnrollTemplate` stops at a fatal check with `new_def`, the Term mapping, the
cache and the workspace as they were, and so does `RunOnDevice`. -/
theorem C8_trip_count_fatal (s : ScanOp) (ws : Workspace) (N : Int)
    (h : tripCount s ws = some N) (hN : N < 1) :
    ∃ r, UnrollTemplate s ws = Result.fatal r ∧ RunOnDevice s ws = Result.fatal r ∧
      r.1.new_def = s.new_def ∧ r.1.terms = s.terms ∧ r.1.graphs = s.graphs ∧
      r.1.cur_graph = s.cur_graph ∧ r.2 = ws := by
  have hU : UnrollTemplate s ws = Result.fatal ({ s with nsteps := N }, ws) := by
    rw [UnrollTemplate_cases s ws N h, if_pos hN]
  refine ⟨_, hU, ?_, rfl, rfl, rfl, rfl, rfl⟩
  unfold RunOnDevice
  rw [hU]

/-- C8, witness: `exScan` with sequence inputs of length 0. -/
theorem C8_trip_count_fatal_witness :
    ∃ r, UnrollTemplate (InitTemplate exScan.fresh) (exWs 0) = Result.fatal r ∧
      RunOnDevice (InitTemplate exScan.fresh) (exWs 0) = Result.fatal r ∧
      r.1.new_def = (InitTemplate exScan.fresh).new_def ∧
      r.1.terms = (InitTemplate exScan.fresh).terms ∧
      r.1.graphs = (InitTemplate exScan.fresh).graphs ∧
      r.1.cur_graph = (InitTemplate exScan.fresh).cur_graph ∧ r.2 = exWs 0 :=
  C8_trip_count_fatal (InitTemplate exScan.fresh) (exWs 0) 0 (by decide) (by decide)

/-- C9. Axis-length mismatch is rejected at build time: when the trip count resolves to
`N ≥ 1`, `UnrollTemplate` fails iff some sequence input's length along the scan axis
differs from `N`, whatever the cache holds; and on failure `new_def`, the Term mapping, the
cache, the selected graph and the workspace are as they were, and `RunOnDevice` fails in
the same state, so no graph is cached or run. -/
theorem C9_axis_mismatch (s : ScanOp) (ws : Workspace) (N : Int)
    (h : tripCount s ws = some N) (hN : 1 ≤ N) :
    ((∃ r, UnrollTemplate s ws = Result.fatal r) ↔
      ∃ i, i < s.nseqs ∧ ws.dim (s.Input i) s.axis ≠ N) ∧
    (∀ r, UnrollTemplate s ws = Result.fatal r →
      RunOnDevice s ws = Result.fatal r ∧
      r.1.new_def = s.new_def ∧ r.1.terms = s.terms ∧ r.1.graphs = s.graphs ∧
      r.1.cur_graph = s.cur_graph ∧ r.2 = ws) := by
  have hU := UnrollTemplate_cases s ws N h
  rw [if_neg (by omega)] at hU
  by_cases h2 : (List.range s.nseqs).any
      (fun i => decide (ws.dim (s.Input i) s.axis ≠ N)) = true
  · rw [if_pos h2] at hU
    refine ⟨⟨fun _ => (any_true_iff s ws N).1 h2, fun _ => ⟨_, hU⟩⟩, ?_⟩
    intro r hr
    have hR : RunOnDevice s ws = Result.fatal r := by
      unfold RunOnDevice
      rw [hr]
    rw [hU] at hr
    cases Result.fatal.inj hr
    exact ⟨hR, rfl, rfl, rfl, rfl, rfl⟩
  · rw [if_neg h2] at hU
    have hne : ∀ r, UnrollTemplate s ws ≠ Result.fatal r := by
      intro r hr
      rw [hU] at hr
      by_cases h3 : (s.graphs N).isSome = true
      · rw [if_pos h3] at hr; cases hr
      · rw [if_neg h3] at hr; cases hr
    refine ⟨⟨fun ⟨r, hr⟩ => absurd hr (hne r), fun hex => absurd ((any_true_iff s ws N).2 hex) h2⟩,
      fun r hr => absurd hr (hne r)⟩

/-- C9, witness: on `exCached`, where a graph for the trip count 2 is cached, a run whose
step tensor says 2 while the sequence input has length 3 fails. -/
theorem C9_axis_mismatch_witness :
    ∃ r, UnrollTemplate { exCached with step_type := "Dynamic", step_tensor := "n" }
      { ints := fun _ => some 2, dim := fun _ _ => 3, raw := fun _ => none }
        = Result.fatal r :=
  (C9_axis_mismatch { exCached with step_type := "Dynamic", step_tensor := "n" }
    { ints := fun _ => some 2, dim := fun _ _ => 3, raw := fun _ => none } 2
    (by decide) (by decide)).1.2 ⟨0, by decide, by decide⟩

/-! ## The forward graph handed to the gradient builder -/

/-- C7, evaluated on a failing input: after forward runs of `exScan` with the trip counts
1, 2, 1 the stored trip count is 1 and the graph selected to run is the one for 1, but the
definition left in `raw_ops` is the graph unrolled for 2, not the one for 1; the gradient
operator run next (here with a `Make` that adds nothing) caches under the trip count 1 a
graph named for 1 whose operators are those of the forward graph for 2. -/
theorem C7_stale_raw_ops :
    (forwardRuns (InitTemplate exScan.fresh, exWs 0) [1, 2, 1]).map
        (fun st => (st.1.nsteps, st.1.cur_graph.map (fun G => G.gdef.name),
          st.2.raw (rawOpsName exScan.anchor)))
      = some (1, some "scan(ScanLen.1)", unrolledGraph (InitTemplate exScan.fresh) (exWs 2)) ∧
    unrolledGraph (InitTemplate exScan.fresh) (exWs 2)
      ≠ unrolledGraph (InitTemplate exScan.fresh) (exWs 1) ∧
    (forwardRuns (InitTemplate exScan.fresh, exWs 0) [1, 2, 1]).bind
        (fun st =>
          match ScanGradientOp.RunOnDevice (fun _ _ _ nd => nd) exGrad st.2 with
          | Result.ok r => (r.1.graphs 1).map
              (fun G => (r.1.nsteps, G.gdef.name, G.gdef.op.map (fun o => o.name)))
          | Result.fatal _ => none)
      = some (1, "scan_grad(ScanLen.1)",
          ["scan(BodyOp.0)", "scan(BodyOp.1)@1", "scan(BodyOp.2)@1", "scan(BodyOp.1)@2",
           "scan(BodyOp.2)@2", "scan(BodyOp.3)"]) := by
  refine ⟨by decide, by decide, by decide⟩

/-! ## `ScanGradientOp::MakeOps` -/

theorem addGTarget_fold (op : ScanGradientOp) (c : String) (g : GraphDef) (n : Nat) :
    (List.range n).foldl (addGTarget op c) g =
      { g with
          g_target := g.g_target ++
            ((List.range n).filter
              (fun i => decide (op.Output i ≠ "ignore" ∧ op.Input i ≠ "ignore"))).map
              (fun i => { cost := c, wrt := op.Input i, external := op.Output i }) } := by
  induction n with
  | zero => simp
  | succ n ih =>
    rw [List.range_succ, List.foldl_append, ih, List.foldl_cons, List.foldl_nil]
    unfold addGTarget
    by_cases h1 : op.Output n = "ignore"
    · simp [h1, List.filter_append]
    · by_cases h2 : op.Input n = "ignore"
      · simp [h1, h2, List.filter_append]
      · simp [h1, h2, List.filter_append]

theorem addGTargets_fold (op : ScanGradientOp) (targets : List String) : ∀ (g : GraphDef),
    targets.foldl (addGTargets op) g =
      { g with
          g_target := g.g_target ++ targets.flatMap (fun c =>
            ((List.range op.OutputSize).filter
              (fun i => decide (op.Output i ≠ "ignore" ∧ op.Input i ≠ "ignore"))).map
              (fun i => { cost := c, wrt := op.Input i, external := op.Output i })) } := by
  induction targets with
  | nil => intro g; simp
  | cons c l ih =>
    intro g
    rw [List.foldl_cons, ih]
    unfold addGTargets
    rw [addGTarget_fold]
    simp [List.flatMap_cons]

theorem addExternal_fold (op : ScanGradientOp) (m : GraphGradientMaker) (n : Nat) :
    (List.range n).foldl (addExternal op) m =
      { m with
          external_grads := m.external_grads ++
            ((List.range n).map (fun i => op.Input (i + op.OutputSize))).filter
              (fun x => decide (x ≠ "ignore")) } := by
  induction n with
  | zero => simp
  | succ n ih =>
    rw [List.range_succ, List.foldl_append, ih, List.foldl_cons, List.foldl_nil]
    unfold addExternal
    by_cases h1 : op.Input (n + op.OutputSize) = "ignore"
    · simp [h1, List.filter_append]
    · simp [h1, List.filter_append]

theorem resolve_frame (op op1 : ScanGradientOp) (ws : Workspace)
    (h : op.resolve ws = Result.ok op1) :
    op1 = { op with nsteps := op1.nsteps } := by
  unfold ScanGradientOp.resolve at h
  by_cases h1 : op.step_type = "Dynamic"
  · rw [if_pos h1] at h
    cases h3 : ws.ints op.step_tensor with
    | none => rw [h3] at h; cases h
    | some v =>
      rw [h3] at h
      cases Result.ok.inj h
      rfl
  · rw [if_neg h1] at h
    by_cases h2 : op.step_type = "Default"
    · rw [if_pos h2] at h
      cases Result.ok.inj h
      rfl
    · rw [if_neg h2] at h
      cases Result.ok.inj h
      rfl

/-! ## The gradient rule of Scan -/

theorem MakeDefs_eq (I GI GO : Nat → String) (fdef : OperatorDef) :
    GetScanGradient.MakeDefs I GI GO fdef =
      [{ type := fdef.type ++ "Gradient", name := "",
         input := (List.range fdef.input.length).map I
           ++ (List.range fdef.output.length).map GO,
         output := (List.range fdef.input.length).map GI }] := by
  have h1 : ∀ n, (List.range n).foldl
      (fun (st : List String × List String) i => (st.1 ++ [I i], st.2 ++ [GI i])) ([], [])
        = ((List.range n).map I, (List.range n).map GI) := by
    intro n
    induction n with
    | zero => rfl
    | succ n ih => simp [List.range_succ, List.foldl_append, ih]
  have h2 : ∀ (acc : List String) n, (List.range n).foldl (fun acc i => acc ++ [GO i]) acc
      = acc ++ (List.range n).map GO := by
    intro acc n
    induction n with
    | zero => simp
    | succ n ih => simp [List.range_succ, List.foldl_append, ih]
  unfold GetScanGradient.MakeDefs SingleDef
  simp only [h1, h2]

/-- C11. Scan gradient rule: for a forward definition with `n` inputs and `m` outputs,
`MakeDefs` yields exactly one definition, of type the forward type followed by
"Gradient", whose inputs are `I(0..n-1)` followed by `GO(0..m-1)` and whose outputs are
`GI(0..n-1)`; the input at position `n + i` is `GO(i)`, which is what a gradient operator
with these inputs and outputs reads as `Input(i + OutputSize())`; and when the forward
definition satisfies the Scan schema the gradient definition satisfies the ScanGradient
schema. -/
theorem C11_scan_gradient_rule (I GI GO : Nat → String) (fdef : OperatorDef) :
    ∃ g, GetScanGradient.MakeDefs I GI GO fdef = [g] ∧
      g.type = fdef.type ++ "Gradient" ∧
      g.input = (List.range fdef.input.length).map I
        ++ (List.range fdef.output.length).map GO ∧
      g.output = (List.range fdef.input.length).map GI ∧
      (∀ i, i < fdef.input.length → g.input[i]? = some (I i) ∧ g.output[i]? = some (GI i)) ∧
      (∀ i, i < fdef.output.length → g.input[fdef.input.length + i]? = some (GO i)) ∧
      (∀ gop : ScanGradientOp, gop.inputs = g.input → gop.outputs = g.output →
        ∀ i, i < fdef.output.length → gop.Input (i + gop.OutputSize) = GO i) ∧
      (ScanSchema fdef → ScanGradientSchema g) := by
  refine ⟨_, MakeDefs_eq I GI GO fdef, rfl, rfl, rfl, ?_, ?_, ?_, ?_⟩
  · intro i hi
    constructor
    · simp only
      rw [List.getElem?_append_left (by simpa using hi), List.getElem?_map,
        List.getElem?_range hi]
      rfl
    · simp only
      rw [List.getElem?_map, List.getElem?_range hi]
      rfl
  · intro i hi
    simp only
    rw [List.getElem?_append_right (by simp)]
    simp only [List.length_map, List.length_range, Nat.add_sub_cancel_left]
    rw [List.getElem?_map, List.getElem?_range hi]
    rfl
  · intro gop h1 h2 i hi
    unfold ScanGradientOp.Input ScanGradientOp.OutputSize
    rw [h1, h2, List.getD_eq_getElem?_getD]
    simp only [List.length_map, List.length_range]
    rw [List.getElem?_append_right (by simp)]
    simp only [List.length_map, List.length_range, Nat.add_sub_cancel]
    rw [List.getElem?_map, List.getElem?_range hi]
    rfl
  · rintro ⟨h1, h2⟩
    constructor
    · simp only [List.length_append, List.length_map, List.length_range]
      omega
    · simp only [List.length_map, List.length_range]
      exact h1

/-! ## The memory coherence manager -/

/-- C12. Single-writer invariant: after a mutable accessor for backend `b` the state of
the block names `b` and is neither `SYNCED` nor `UNINITIALIZED`, and the next read
accessor for another backend performs exactly one copy (after which the block is
`SYNCED`), while a read for `b` itself performs none. -/
theorem C12_single_writer (m : MixedMemory) (b : Backend) :
    (m.mutable_data b).state = stateAt b ∧
    (m.mutable_data b).state ≠ MemState.SYNCED ∧
    (m.mutable_data b).state ≠ MemState.UNINITIALIZED ∧
    (∀ b', b' ≠ b →
      ((m.mutable_data b).data b').copies = (m.mutable_data b).copies + 1 ∧
      ((m.mutable_data b).data b').state = MemState.SYNCED) ∧
    ((m.mutable_data b).data b).copies = (m.mutable_data b).copies := by
  refine ⟨rfl, ?_, ?_, ?_, ?_⟩
  · cases b <;> simp [MixedMemory.mutable_data, stateAt]
  · cases b <;> simp [MixedMemory.mutable_data, stateAt]
  · intro b' hb
    cases b <;> cases b' <;>
      first
      | exact absurd rfl hb
      | exact ⟨rfl, rfl⟩
  · cases b <;> rfl

/-! ## `UpdateTerms` -/

theorem toDigits_last (n : Nat) :
    ∃ l, Nat.toDigits 10 n = l ++ [Nat.digitChar (n % 10)] := by
  unfold Nat.toDigits
  simp only [Nat.toDigitsCore]
  split
  · exact ⟨[], rfl⟩
  · rw [toDigitsCore_append]
    exact ⟨_, rfl⟩

theorem digitChar_inj (a b : Nat) (ha : a < 10) (hb : b < 10)
    (h : Nat.digitChar a = Nat.digitChar b) : a = b := by
  have h1 := digitChar_val a ha
  have h2 := digitChar_val b hb
  rw [h] at h1
  omega

/-- Step symbols whose step numbers end in different digits differ, whatever their
base symbols are. -/
theorem at_ne_of_digit (a b : String) (m n : Nat) (h : m % 10 ≠ n % 10) :
    a ++ "@" ++ toString m ≠ b ++ "@" ++ toString n := by
  intro he
  have h2 := congrArg String.data he
  rw [at_data, at_data, toString_nat_data, toString_nat_data] at h2
  obtain ⟨l1, e1⟩ := toDigits_last m
  obtain ⟨l2, e2⟩ := toDigits_last n
  rw [e1, e2] at h2
  have h3 := congrArg List.getLast? h2
  have f1 : (a.data ++ '@' :: (l1 ++ [Nat.digitChar (m % 10)]))
      = (a.data ++ '@' :: l1) ++ [Nat.digitChar (m % 10)] := by simp
  have f2 : (b.data ++ '@' :: (l2 ++ [Nat.digitChar (n % 10)]))
      = (b.data ++ '@' :: l2) ++ [Nat.digitChar (n % 10)] := by simp
  rw [f1, f2, List.getLast?_concat, List.getLast?_concat] at h3
  exact h (digitChar_inj _ _ (Nat.mod_lt _ (by decide)) (Nat.mod_lt _ (by decide))
    (Option.some.inj h3))

/-- Step symbols of the same step are equal only for equal base symbols. -/
theorem at_cancel (a b : String) (n : Nat)
    (h : a ++ "@" ++ toString n = b ++ "@" ++ toString n) : a = b := by
  have h2 := congrArg String.data h
  rw [at_data, at_data] at h2
  exact String.ext (List.append_cancel_right h2)

/-- Keys that no unguarded iteration writes keep their entry. -/
theorem foldl_range_frame_guarded (g : Terms → Nat → Terms) (c : Nat → Prop)
    (k v : Nat → String)
    (hg1 : ∀ m i, c i → g m i = m) (hg2 : ∀ m i, ¬ c i → g m i = m.set (k i) (v i))
    (n : Nat) (tm : Terms) (x : String) (h : ∀ i, i < n → ¬ c i → x ≠ k i) :
    (List.range n).foldl g tm x = tm x := by
  induction n with
  | zero => simp
  | succ n ih =>
    rw [List.range_succ, List.foldl_append, List.foldl_cons, List.foldl_nil]
    by_cases hc : c n
    · rw [hg1 _ _ hc]; exact ih (fun i hi => h i (by omega))
    · rw [hg2 _ _ hc, Terms.set_other _ _ _ _ (h n (by omega) hc)]
      exact ih (fun i hi => h i (by omega))

/-- C16. One-step recurrent lag: for `t ≥ 2`, after `UpdateTerms(t)` the mapping holds
`x@(t-1) ↦ x@t` for every sequence input `x`; for `t ≥ 3` it also holds
`o@(t-2) ↦ o@(t-1)` for every declared output `o` with a non-empty initial-state symbol,
one step behind the sequence entry; and every key other than these (for `t < 3`: other
than the sequence keys; outputs with an empty initial-state symbol contribute no key)
keeps the entry it had. -/
theorem C16_one_step_lag (op : ScanOp) (t : Nat) (ht : 2 ≤ t) (tm : Terms) :
    (∀ i, i < op.nseqs →
      UpdateTerms op t tm (op.Input i ++ "@" ++ toString (t - 1))
        = some (op.Input i ++ "@" ++ toString t)) ∧
    (3 ≤ t → ∀ i, i < op.nout → op.dflt i ≠ "" →
      UpdateTerms op t tm (op.Output i ++ "@" ++ toString (t - 2))
        = some (op.Output i ++ "@" ++ toString (t - 1))) ∧
    (t - 2) + 1 = t - 1 ∧
    (∀ key, (∀ i, i < op.nseqs → key ≠ op.Input i ++ "@" ++ toString (t - 1)) →
      (t < 3 ∨ ∀ i, i < op.nout → op.dflt i ≠ "" →
        key ≠ op.Output i ++ "@" ++ toString (t - 2)) →
      UpdateTerms op t tm key = tm key) := by
  have hseq : ∀ i, i < op.nseqs →
      (List.range op.nseqs).foldl (updateSeq op t) tm (op.Input i ++ "@" ++ toString (t - 1))
        = some (op.Input i ++ "@" ++ toString t) := by
    intro i hi
    exact foldl_range_last (updateSeq op t) (fun _ => False)
      (fun i => op.Input i ++ "@" ++ toString (t - 1))
      (fun i => op.Input i ++ "@" ++ toString t)
      (fun m i h => absurd h not_false) (fun m i _ => rfl) op.nseqs tm i hi not_false
      (fun j _ _ _ hk => by
        simp only at hk ⊢
        rw [at_cancel _ _ _ hk])
  have hrec1 : ∀ m i, op.dflt i = "" → updateRec op t m i = m := by
    intro m i h; simp [updateRec, h]
  have hrec2 : ∀ m i, ¬ op.dflt i = "" → updateRec op t m i
      = m.set (op.Output i ++ "@" ++ toString (t - 2))
          (op.Output i ++ "@" ++ toString (t - 1)) := by
    intro m i h; simp [updateRec, h]
  refine ⟨?_, ?_, by omega, ?_⟩
  · intro i hi
    unfold UpdateTerms
    by_cases h3 : t < 3
    · rw [if_pos h3]; exact hseq i hi
    · rw [if_neg h3, ← hseq i hi]
      exact foldl_range_frame_guarded (updateRec op t) (fun i => op.dflt i = "")
        (fun i => op.Output i ++ "@" ++ toString (t - 2))
        (fun i => op.Output i ++ "@" ++ toString (t - 1)) hrec1 hrec2 op.nout _ _
        (fun j _ _ => at_ne_of_digit _ _ _ _ (by omega))
  · intro h3 i hi hd
    unfold UpdateTerms
    rw [if_neg (by omega)]
    exact foldl_range_last (updateRec op t) (fun i => op.dflt i = "")
      (fun i => op.Output i ++ "@" ++ toString (t - 2))
      (fun i => op.Output i ++ "@" ++ toString (t - 1)) hrec1 hrec2 op.nout _ i hi hd
      (fun j _ _ _ hk => by
        simp only at hk ⊢
        rw [at_cancel _ _ _ hk])
  · intro key hk1 hk2
    unfold UpdateTerms
    have h1 := foldl_range_frame (updateSeq op t)
      (fun i => op.Input i ++ "@" ++ toString (t - 1))
      (fun i => op.Input i ++ "@" ++ toString t)
      (fun m i => Or.inr rfl) op.nseqs tm key hk1
    by_cases h3 : t < 3
    · rw [if_pos h3]; exact h1
    · rw [if_neg h3, ← h1]
      rcases hk2 with h4 | h4
      · exact absurd h4 h3
      · exact foldl_range_frame_guarded (updateRec op t) (fun i => op.dflt i = "")
          (fun i => op.Output i ++ "@" ++ toString (t - 2))
          (fun i => op.Output i ++ "@" ++ toString (t - 1)) hrec1 hrec2 op.nout _ _
          (fun j hj hd => h4 j hj hd)

/-- C16, witness: `UpdateTerms(3)` on `exScan`. -/
theorem C16_one_step_lag_witness :
    UpdateTerms exScan 3 Terms.empty (exScan.Input 0 ++ "@" ++ toString (3 - 1))
      = some (exScan.Input 0 ++ "@" ++ toString 3) ∧
    UpdateTerms exScan 3 Terms.empty (exScan.Output 0 ++ "@" ++ toString (3 - 2))
      = some (exScan.Output 0 ++ "@" ++ toString (3 - 1)) :=
  have h := C16_one_step_lag exScan 3 (by decide) Terms.empty
  ⟨h.1 0 (by decide), h.2.1 (by decide) 0 (by decide) (by decide)⟩

/-! ## Operator names -/

theorem noAt_append (a b : String) : NoAt (a ++ b) ↔ NoAt a ∧ NoAt b := by
  simp [NoAt, String.data_append, not_or]

theorem opName_noAt (op : ScanOp) (hname : NoAt op.name) (i : Nat) : NoAt (opName op i) := by
  unfold opName
  rw [noAt_append, noAt_append, noAt_append]
  exact ⟨⟨⟨hname, by decide⟩, toString_noAt i⟩, by decide⟩

theorem opName_inj (op : ScanOp) (i j : Nat) (h : opName op i = opName op j) : i = j := by
  unfold opName at h
  have h2 := congrArg String.data h
  simp only [String.data_append, List.append_assoc, List.append_cancel_left_eq] at h2
  exact toString_nat_inj (String.ext (List.append_cancel_right h2))

theorem opName_at_one (op : ScanOp) (i : Nat) :
    op.name ++ "(BodyOp." ++ toString i ++ ")@1" = opName op i ++ "@" ++ toString 1 := by
  apply String.ext
  simp [opName, String.data_append]
  rfl

theorem scanOps_names (t : Nat) (S : List OperatorDef) : ∀ tm,
    (scanOps (unrollOp t) tm S).1.map (fun o => o.name)
      = S.map (fun o => splitHead o.name ++ "@" ++ toString t) := by
  induction S with
  | nil => intro tm; rfl
  | cons a l ih => intro tm; simp [scanOps, ih, unrollOp_fst]

theorem initBody_names (op : ScanOp) (l : List Nat) : ∀ tm,
    (scanOps (initBodyOp op) tm l).1.map (fun o => o.name)
      = l.map (fun k => opName op (k + op.nseqs) ++ "@" ++ toString 1) := by
  induction l with
  | nil => intro tm; rfl
  | cons a l ih => intro tm; simp [scanOps, ih, initBodyOp_fst, opName_at_one]

/-- The names of the step-`n + 1` instances, for a Scan name without `@`. -/
theorem stepState_names (op : ScanOp) (hname : NoAt op.name) (tm : Terms) (n : Nat) :
    (stepState op (body1 op) tm n).1.map (fun o => o.name)
      = (List.range op.func_def.op.length).map
          (fun k => opName op (k + op.nseqs) ++ "@" ++ toString (n + 1)) := by
  induction n with
  | zero => exact initBody_names op _ _
  | succ n ih =>
    simp only [stepState]
    rw [scanOps_names]
    have h : (stepState op (body1 op) tm n).1.map
        (fun o => splitHead o.name ++ "@" ++ toString (n + 2))
        = ((stepState op (body1 op) tm n).1.map (fun o => o.name)).map
            (fun x => splitHead x ++ "@" ++ toString (n + 2)) := by
      rw [List.map_map]; rfl
    rw [h, ih, List.map_map]
    apply List.map_congr_left
    intro k _
    simp only [Function.comp]
    rw [splitHead_at _ _ (opName_noAt op hname _)]

theorem stepNames_nodup (op : ScanOp) (hname : NoAt op.name) (t : Nat) :
    ((List.range op.func_def.op.length).map
      (fun k => opName op (k + op.nseqs) ++ "@" ++ toString t)).Nodup := by
  refine (List.nodup_range _).map ?_
  intro k k' hk
  have h1 := (at_inj (opName_noAt op hname _) (opName_noAt op hname _) hk).1
  have := opName_inj op _ _ h1
  omega

theorem allSteps_names_mem (op : ScanOp) (hname : NoAt op.name) (tm : Terms) (n : Nat)
    (x : String) (hx : x ∈ (allSteps op (body1 op) tm n).map (fun o => o.name)) :
    ∃ t k, t ≤ n ∧ x = opName op (k + op.nseqs) ++ "@" ++ toString (t + 1) := by
  induction n with
  | zero =>
    have h := stepState_names op hname tm 0
    simp only [stepState] at h
    simp only [allSteps] at hx
    rw [h] at hx
    obtain ⟨k, _, rfl⟩ := List.mem_map.1 hx
    exact ⟨0, k, Nat.le_refl _, rfl⟩
  | succ n ih =>
    simp only [allSteps, List.map_append, List.mem_append] at hx
    rcases hx with hx | hx
    · obtain ⟨t, k, ht, e⟩ := ih hx
      exact ⟨t, k, by omega, e⟩
    · rw [stepState_names op hname] at hx
      obtain ⟨k, _, rfl⟩ := List.mem_map.1 hx
      exact ⟨n + 1, k, Nat.le_refl _, rfl⟩

theorem allSteps_names_nodup (op : ScanOp) (hname : NoAt op.name) (tm : Terms) (n : Nat) :
    ((allSteps op (body1 op) tm n).map (fun o => o.name)).Nodup := by
  induction n with
  | zero =>
    have h := stepState_names op hname tm 0
    simp only [stepState] at h
    simp only [allSteps]
    rw [h]
    exact stepNames_nodup op hname _
  | succ n ih =>
    simp only [allSteps, List.map_append]
    rw [List.nodup_append]
    refine ⟨ih, ?_, ?_⟩
    · rw [stepState_names op hname]; exact stepNames_nodup op hname _
    · intro x hx1 hx2
      obtain ⟨t, k, ht, e⟩ := allSteps_names_mem op hname tm n x hx1
      rw [stepState_names op hname] at hx2
      obtain ⟨k', _, e'⟩ := List.mem_map.1 hx2
      rw [e] at e'
      have := (at_inj (opName_noAt op hname _) (opName_noAt op hname _) e').2
      omega


/-- The names of the operators of the built graph are pairwise distinct when the Scan
name has no `@`. -/
theorem graph_names_nodup (op : ScanOp) (hname : NoAt op.name) (ws : Workspace) (tm : Terms)
    (nd : GraphDef) (gr : GraphCache) (c : Option Graph) (N : Int) (n : Nat) :
    (((List.range op.nseqs).map (unrolledSlice op ws)
        ++ allSteps op (body1 op) tm n
        ++ ((List.range op.nout).filter (fun i => decide (op.Output i ≠ "ignore"))).map
            (concatOp (op.later tm nd gr c N))).map (fun o => o.name)).Nodup := by
  have hs : ((List.range op.nseqs).map (unrolledSlice op ws)).map (fun o => o.name)
      = (List.range op.nseqs).map (opName op) := by
    rw [List.map_map]; rfl
  have hc : (((List.range op.nout).filter (fun i => decide (op.Output i ≠ "ignore"))).map
      (concatOp (op.later tm nd gr c N))).map (fun o => o.name)
      = ((List.range op.nout).filter (fun i => decide (op.Output i ≠ "ignore"))).map
          (fun i => opName op (op.nseqs + op.func_def.op.length + i)) := by
    rw [List.map_map]; rfl
  rw [List.map_append, List.map_append, hs, hc, List.nodup_append, List.nodup_append]
  refine ⟨⟨?_, allSteps_names_nodup op hname tm n, ?_⟩, ?_, ?_⟩
  · exact (List.nodup_range _).map (fun i j h => opName_inj op i j h)
  · intro x h1 h2
    obtain ⟨i, _, rfl⟩ := List.mem_map.1 h1
    obtain ⟨t, k, _, e⟩ := allSteps_names_mem op hname tm n _ h2
    exact noAt_ne_at (opName_noAt op hname i) _ _ e
  · refine ((List.nodup_range _).filter _).map_on ?_
    intro i _ j _ h
    have := opName_inj op _ _ h
    omega
  · intro x h1 h2
    obtain ⟨j, _, e2⟩ := List.mem_map.1 h2
    rcases List.mem_append.1 h1 with h1 | h1
    · obtain ⟨i, hi, e1⟩ := List.mem_map.1 h1
      rw [← e2] at e1
      have := opName_inj op _ _ e1
      have := List.mem_range.1 hi
      omega
    · obtain ⟨t, k, _, e⟩ := allSteps_names_mem op hname tm n _ h1
      rw [← e2] at e
      exact noAt_ne_at (opName_noAt op hname _) _ _ e

/-- C14 (amended). Fresh per-step operator names: for every Scan operator name that
contains no `@`, every template and every trip count `N ≥ 1`, in the graph built for `N`
the step-`t` instance of body operator `k` is named `<scan name>(BodyOp.<k+nseqs>)@t`,
and no two operators of the graph (slices, body instances, concats) share a name. -/
theorem C14_fresh_names (op : ScanOp) (ws : Workspace) (tm : Terms) (nd : GraphDef)
    (gr : GraphCache) (c : Option Graph) (n0 : Int) (N : Nat) (hname : NoAt op.name)
    (h : tripCount (op.later tm nd gr c n0) ws = some (N : Int)) (hN : 1 ≤ N)
    (hdim : ∀ i, i < op.nseqs → ws.dim (op.Input i) op.axis = N) (hc : gr N = none) :
    ∃ g, unrolledGraph (op.later tm nd gr c n0) ws = some g ∧
      (∀ t k, 1 ≤ t → t ≤ N → k < op.func_def.op.length →
        ∃ o, g.op[op.nseqs + (t - 1) * op.func_def.op.length + k]? = some o ∧
          o.name = op.name ++ "(BodyOp." ++ toString (k + op.nseqs) ++ ")" ++ "@"
            ++ toString t) ∧
      (∀ (a b : Nat) (oa ob : OperatorDef), g.op[a]? = some oa → g.op[b]? = some ob →
        oa.name = ob.name → a = b) := by
  refine ⟨_, unrolledGraph_later op ws tm nd gr c n0 N h hN hdim hc, ?_, ?_⟩
  · intro t k ht htN hk
    show ∃ o, ((List.range op.nseqs).map (unrolledSlice op ws)
        ++ allSteps op (body1 op) tm (N - 1) ++ _)[op.nseqs
          + (t - 1) * op.func_def.op.length + k]? = some o ∧ _
    rw [graph_instance op tm _ _ (by simp) N t k ht htN hk]
    have hlen : k < (stepState op (body1 op) tm (t - 1)).1.length := by
      rw [stepState_length, (BodyAt_body1 op).1]; exact hk
    refine ⟨_, List.getElem?_eq_getElem hlen, ?_⟩
    have hn := congrArg (fun l => l[k]?) (stepState_names op hname tm (t - 1))
    simp only [List.getElem?_map, List.getElem?_eq_getElem hlen, List.getElem?_range hk,
      Option.map_some', Option.some.injEq] at hn
    rw [hn]
    have e : t - 1 + 1 = t := by omega
    rw [e]; rfl
  · intro a b oa ob ha hb hab
    have hnd := graph_names_nodup op hname ws tm nd gr c N (N - 1)
    have h1 : (((List.range op.nseqs).map (unrolledSlice op ws)
        ++ allSteps op (body1 op) tm (N - 1)
        ++ ((List.range op.nout).filter (fun i => decide (op.Output i ≠ "ignore"))).map
            (concatOp (op.later tm nd gr c N))).map (fun o => o.name))[a]? = some oa.name := by
      rw [List.getElem?_map]
      have ha2 : ((List.range op.nseqs).map (unrolledSlice op ws)
        ++ allSteps op (body1 op) tm (N - 1)
        ++ ((List.range op.nout).filter (fun i => decide (op.Output i ≠ "ignore"))).map
            (concatOp (op.later tm nd gr c N)))[a]? = some oa := ha
      rw [ha2]; rfl
    have h2 : (((List.range op.nseqs).map (unrolledSlice op ws)
        ++ allSteps op (body1 op) tm (N - 1)
        ++ ((List.range op.nout).filter (fun i => decide (op.Output i ≠ "ignore"))).map
            (concatOp (op.later tm nd gr c N))).map (fun o => o.name))[b]? = some oa.name := by
      rw [List.getElem?_map]
      have hb2 : ((List.range op.nseqs).map (unrolledSlice op ws)
        ++ allSteps op (body1 op) tm (N - 1)
        ++ ((List.range op.nout).filter (fun i => decide (op.Output i ≠ "ignore"))).map
            (concatOp (op.later tm nd gr c N)))[b]? = some ob := hb
      rw [hb2, hab]; rfl
    obtain ⟨ha3, ea⟩ := List.getElem?_eq_some_iff.1 h1
    obtain ⟨hb3, eb⟩ := List.getElem?_eq_some_iff.1 h2
    exact (List.Nodup.getElem_inj_iff hnd).1 (ea.trans eb.symm)

/-- C14, witness: `exScan` unrolled for the trip count 3. -/
theorem C14_fresh_names_witness :
    ∃ g, unrolledGraph (exScan.later (terms1 exScan) {} (fun _ => none) none 0) (exWs 3)
        = some g ∧
      (∀ t k, 1 ≤ t → t ≤ 3 → k < exScan.func_def.op.length →
        ∃ o, g.op[exScan.nseqs + (t - 1) * exScan.func_def.op.length + k]? = some o ∧
          o.name = exScan.name ++ "(BodyOp." ++ toString (k + exScan.nseqs) ++ ")" ++ "@"
            ++ toString t) ∧
      (∀ (a b : Nat) (oa ob : OperatorDef), g.op[a]? = some oa → g.op[b]? = some ob →
        oa.name = ob.name → a = b) :=
  C14_fresh_names exScan (exWs 3) (terms1 exScan) {} (fun _ => none) none 0 3 (by decide)
    (by decide) (by decide) (by decide) rfl

/-- C14, counterexample: under the Scan name `s@x` the two body operators of `exScan`
get the same name `s@2` at step 2 (operators 3 and 4 of the graph built for the trip
count 2), and neither is named `s@x(BodyOp.<k+nseqs>)@2`. -/
theorem C14_counterexample :
    (unrolledGraph (InitTemplate exAtName.fresh) (exWs 2)).map
        (fun g => g.op.map (fun o => o.name))
      = some ["s@x(BodyOp.0)", "s@x(BodyOp.1)@1", "s@x(BodyOp.2)@1", "s@2", "s@2",
              "s@x(BodyOp.3)"] := by
  decide


/-! ## Output symbols -/

/-- A step symbol determines its base symbol and its step, whatever the base symbol is:
the step number holds no `@`, so the last `@` is the separator. -/
theorem at_inj_gen (s s' : String) (a b : Nat)
    (h : s ++ "@" ++ toString a = s' ++ "@" ++ toString b) : s = s' ∧ a = b := by
  have h2 := congrArg String.data h
  rw [at_data, at_data] at h2
  have h3 := congrArg List.reverse h2
  simp only [List.reverse_append, List.reverse_cons, List.append_assoc,
    List.singleton_append] at h3
  have ha : '@' ∉ (toString a).data.reverse := by
    rw [List.mem_reverse]; exact toString_noAt a
  have hb : '@' ∉ (toString b).data.reverse := by
    rw [List.mem_reverse]; exact toString_noAt b
  have h4 := congrArg (List.takeWhile (fun c => c != '@')) h3
  rw [takeWhile_stop _ _ ha, takeWhile_stop _ _ hb] at h4
  have h5 : (toString a).data = (toString b).data := List.reverse_injective h4
  rw [h5] at h2
  exact ⟨String.ext (List.append_cancel_right h2), toString_nat_inj (String.ext h5)⟩

theorem scanOps_outputs (t : Nat) (S : List OperatorDef) : ∀ tm,
    (scanOps (unrollOp t) tm S).1.map (fun o => o.output)
      = S.map (fun o => o.output.map (fun y => splitHead y ++ "@" ++ toString t)) := by
  induction S with
  | nil => intro tm; rfl
  | cons a l ih => intro tm; simp [scanOps, ih, unrollOp_fst]

theorem initBody_outputs (op : ScanOp) (l : List Nat) : ∀ tm,
    (scanOps (initBodyOp op) tm l).1.map (fun o => o.output)
      = l.map (fun k => (op.body k).output.map (fun y => y ++ "@" ++ toString 1)) := by
  induction l with
  | nil => intro tm; rfl
  | cons a l ih => intro tm; simp [scanOps, ih, initBodyOp_fst]

/-- The outputs of the step-`n + 1` instances, when the body outputs hold no `@`: they
do not depend on the mapping. -/
theorem stepState_outputs (op : ScanOp)
    (hno : ∀ y ∈ written op op.func_def.op.length, NoAt y) (tm : Terms) (n : Nat) :
    (stepState op (body1 op) tm n).1.map (fun o => o.output)
      = (List.range op.func_def.op.length).map
          (fun k => (op.body k).output.map (fun y => y ++ "@" ++ toString (n + 1))) := by
  induction n with
  | zero => exact initBody_outputs op _ _
  | succ n ih =>
    simp only [stepState]
    rw [scanOps_outputs]
    have h : (stepState op (body1 op) tm n).1.map
        (fun o => o.output.map (fun y => splitHead y ++ "@" ++ toString (n + 2)))
        = ((stepState op (body1 op) tm n).1.map (fun o => o.output)).map
            (fun l => l.map (fun y => splitHead y ++ "@" ++ toString (n + 2))) := by
      rw [List.map_map]; rfl
    rw [h, ih, List.map_map]
    apply List.map_congr_left
    intro k hk
    simp only [Function.comp, List.map_map]
    apply List.map_congr_left
    intro y hy
    simp only [Function.comp]
    rw [splitHead_at _ _ (hno y ((mem_written op y _).2 ⟨k, List.mem_range.1 hk, hy⟩))]

theorem written_flat (op : ScanOp) (f : String → String) (k : Nat) :
    ((List.range k).map (fun i => (op.body i).output.map f)).flatten
      = (written op k).map f := by
  induction k with
  | zero => rfl
  | succ k ih =>
    rw [List.range_succ, List.map_append, List.flatten_append, ih]
    simp [written]

/-- The symbols written at step `n + 1`, in operator order. -/
theorem stepState_flat (op : ScanOp)
    (hno : ∀ y ∈ written op op.func_def.op.length, NoAt y) (tm : Terms) (n : Nat) :
    (stepState op (body1 op) tm n).1.flatMap (fun o => o.output)
      = (written op op.func_def.op.length).map (fun y => y ++ "@" ++ toString (n + 1)) := by
  rw [List.flatMap_def, stepState_outputs op hno, written_flat]

theorem allSteps_out_mem (op : ScanOp)
    (hno : ∀ y ∈ written op op.func_def.op.length, NoAt y) (tm : Terms) (n : Nat)
    (u : String) (hu : u ∈ (allSteps op (body1 op) tm n).flatMap (fun o => o.output)) :
    ∃ t y, t ≤ n ∧ y ∈ written op op.func_def.op.length ∧
      u = y ++ "@" ++ toString (t + 1) := by
  induction n with
  | zero =>
    have h := stepState_flat op hno tm 0
    simp only [stepState] at h
    simp only [allSteps] at hu
    rw [h] at hu
    obtain ⟨y, hy, rfl⟩ := List.mem_map.1 hu
    exact ⟨0, y, Nat.le_refl _, hy, rfl⟩
  | succ n ih =>
    simp only [allSteps, List.flatMap_append, List.mem_append] at hu
    rcases hu with hu | hu
    · obtain ⟨t, y, ht, hy, e⟩ := ih hu
      exact ⟨t, y, by omega, hy, e⟩
    · rw [stepState_flat op hno] at hu
      obtain ⟨y, hy, rfl⟩ := List.mem_map.1 hu
      exact ⟨n + 1, y, Nat.le_refl _, hy, rfl⟩

theorem allSteps_out_nodup (op : ScanOp)
    (hout : (written op op.func_def.op.length).Nodup)
    (hno : ∀ y ∈ written op op.func_def.op.length, NoAt y) (tm : Terms) (n : Nat) :
    ((allSteps op (body1 op) tm n).flatMap (fun o => o.output)).Nodup := by
  have hstep : ∀ t : Nat, ((written op op.func_def.op.length).map
      (fun y => y ++ "@" ++ toString t)).Nodup :=
    fun t => hout.map (fun y y' h => (at_inj_gen _ _ _ _ h).1)
  induction n with
  | zero =>
    have h := stepState_flat op hno tm 0
    simp only [stepState] at h
    simp only [allSteps]
    rw [h]
    exact hstep _
  | succ n ih =>
    simp only [allSteps, List.flatMap_append]
    rw [List.nodup_append]
    refine ⟨ih, ?_, ?_⟩
    · rw [stepState_flat op hno]; exact hstep _
    · intro u hu1 hu2
      obtain ⟨t, y, ht, _, e⟩ := allSteps_out_mem op hno tm n u hu1
      rw [stepState_flat op hno] at hu2
      obtain ⟨y', _, e'⟩ := List.mem_map.1 hu2
      rw [e] at e'
      have := (at_inj_gen _ _ _ _ e').2
      omega

theorem sliceOutputs_nodup (x : String) (n : Int) : (sliceOutputs x n).Nodup := by
  unfold sliceOutputs
  exact (List.nodup_range' 1 _).map (fun t t' h => (at_inj_gen _ _ _ _ h).2)

theorem slices_out_nodup (op : ScanOp) (ws : Workspace)
    (hin : ∀ i j, i < op.nseqs → j < op.nseqs → op.Input i = op.Input j → i = j) :
    (((List.range op.nseqs).map (unrolledSlice op ws)).flatMap (fun o => o.output)).Nodup := by
  rw [List.flatMap_map, List.nodup_flatMap]
  refine ⟨fun i _ => sliceOutputs_nodup _ _, ?_⟩
  refine List.Pairwise.imp_of_mem ?_ (List.nodup_range op.nseqs)
  intro i j hi hj hij u hu1 hu2
  simp only [unrolledSlice, sliceOutputs, List.mem_map] at hu1 hu2
  obtain ⟨t, _, e1⟩ := hu1
  obtain ⟨t', _, e2⟩ := hu2
  rw [← e2] at e1
  exact hij (hin i j (List.mem_range.1 hi) (List.mem_range.1 hj) (at_inj_gen _ _ _ _ e1).1)


/-- C17 (amended). Forward symbol injectivity, for every trip count `N ≥ 1` (so for
1, 2, 5 and 50): if the output symbols of the body are pairwise distinct, contain no `@`
and differ from the sequence-input symbols, the sequence-input symbols are pairwise
distinct, and the declared output names other than `ignore` are pairwise distinct and
contain no `@`, then distinct (template symbol, step) pairs yield distinct names `s@t`,
and no symbol occurs twice among the outputs of the operators of the graph built for `N`
(slices, body instances and concats). -/
theorem C17_symbol_injectivity (op : ScanOp) (ws : Workspace) (tm : Terms) (nd : GraphDef)
    (gr : GraphCache) (c : Option Graph) (n0 : Int) (N : Nat)
    (hout : (written op op.func_def.op.length).Nodup)
    (hno : ∀ y ∈ written op op.func_def.op.length, NoAt y)
    (hseq : ∀ y ∈ written op op.func_def.op.length, y ∉ seqNames op)
    (hin : ∀ i, i < op.nseqs → ∀ j, j < op.nseqs → op.Input i = op.Input j → i = j)
    (hdecl : ∀ i, i < op.nout → ∀ j, j < op.nout → op.Output i ≠ "ignore" →
      op.Output i = op.Output j → i = j)
    (hdno : ∀ i, i < op.nout → op.Output i ≠ "ignore" → NoAt (op.Output i))
    (h : tripCount (op.later tm nd gr c n0) ws = some (N : Int)) (hN : 1 ≤ N)
    (hdim : ∀ i, i < op.nseqs → ws.dim (op.Input i) op.axis = N) (hc : gr N = none) :
    (∀ s ∈ seqNames op ++ written op op.func_def.op.length,
      ∀ s' ∈ seqNames op ++ written op op.func_def.op.length, ∀ t t' : Nat,
        s ++ "@" ++ toString t = s' ++ "@" ++ toString t' → s = s' ∧ t = t') ∧
    ∃ g, unrolledGraph (op.later tm nd gr c n0) ws = some g ∧
      (g.op.flatMap (fun o => o.output)).Nodup := by
  refine ⟨fun s _ s' _ t t' e => at_inj_gen s s' t t' e, _,
    unrolledGraph_later op ws tm nd gr c n0 N h hN hdim hc, ?_⟩
  show (((List.range op.nseqs).map (unrolledSlice op ws)
      ++ allSteps op (body1 op) tm (N - 1)
      ++ ((List.range op.nout).filter (fun i => decide (op.Output i ≠ "ignore"))).map
          (concatOp (op.later tm nd gr c N))).flatMap (fun o => o.output)).Nodup
  have hcat : (((List.range op.nout).filter (fun i => decide (op.Output i ≠ "ignore"))).map
      (concatOp (op.later tm nd gr c N))).flatMap (fun o => o.output)
      = ((List.range op.nout).filter (fun i => decide (op.Output i ≠ "ignore"))).map
          op.Output := by
    rw [List.flatMap_map]
    have hgen : ∀ l : List Nat,
        l.flatMap (fun a => (concatOp (op.later tm nd gr c N) a).output)
          = l.map op.Output := by
      intro l
      induction l with
      | nil => rfl
      | cons a l ih => rw [List.flatMap_cons, ih]; rfl
    exact hgen _
  have hcmem : ∀ u, u ∈ ((List.range op.nout).filter
      (fun i => decide (op.Output i ≠ "ignore"))).map op.Output → NoAt u := by
    intro u hu
    obtain ⟨i, hi, rfl⟩ := List.mem_map.1 hu
    rw [List.mem_filter, List.mem_range] at hi
    exact hdno i hi.1 (by simpa using hi.2)
  rw [List.flatMap_append, List.flatMap_append, hcat, List.nodup_append, List.nodup_append]
  refine ⟨⟨slices_out_nodup op ws (fun i j hi hj => hin i hi j hj), allSteps_out_nodup op hout hno tm _, ?_⟩, ?_, ?_⟩
  · intro u hu1 hu2
    rw [List.flatMap_map] at hu1
    obtain ⟨i, hi, hu⟩ := List.mem_flatMap.1 hu1
    simp only [unrolledSlice, sliceOutputs, List.mem_map] at hu
    obtain ⟨t, _, e1⟩ := hu
    obtain ⟨t', y, _, hy, e2⟩ := allSteps_out_mem op hno tm _ u hu2
    rw [e2] at e1
    have e3 := (at_inj_gen _ _ _ _ e1).1
    apply hseq y hy
    rw [← e3]
    exact List.mem_map.2 ⟨i, hi, rfl⟩
  · refine ((List.nodup_range _).filter _).map_on ?_
    intro i hi j hj e
    rw [List.mem_filter, List.mem_range] at hi hj
    exact hdecl i hi.1 j hj.1 (by simpa using hi.2) e
  · intro u hu1 hu2
    have hnu := hcmem u hu2
    rcases List.mem_append.1 hu1 with hu1 | hu1
    · rw [List.flatMap_map] at hu1
      obtain ⟨i, hi, hu⟩ := List.mem_flatMap.1 hu1
      simp only [unrolledSlice, sliceOutputs, List.mem_map] at hu
      obtain ⟨t, _, e1⟩ := hu
      exact noAt_ne_at hnu _ _ e1.symm
    · obtain ⟨t', y, _, hy, e2⟩ := allSteps_out_mem op hno tm _ u hu1
      exact noAt_ne_at hnu _ _ e2

/-- C17, witness: `exScan` unrolled for the trip count 2. -/
theorem C17_symbol_injectivity_witness :
    (∀ s ∈ seqNames exScan ++ written exScan exScan.func_def.op.length,
      ∀ s' ∈ seqNames exScan ++ written exScan exScan.func_def.op.length, ∀ t t' : Nat,
        s ++ "@" ++ toString t = s' ++ "@" ++ toString t' → s = s' ∧ t = t') ∧
    ∃ g, unrolledGraph (exScan.later (terms1 exScan) {} (fun _ => none) none 0) (exWs 2)
        = some g ∧
      (g.op.flatMap (fun o => o.output)).Nodup :=
  C17_symbol_injectivity exScan (exWs 2) (terms1 exScan) {} (fun _ => none) none 0 2
    (by decide) (by decide) (by decide) (by decide) (by decide) (by decide) (by decide)
    (by decide) (by decide) rfl

/-- C17, counterexample: `exDupSeq` has one body output `y`, without `@` and different
from the sequence-input symbol `x` and from the declared output name `out`, yet in the
graph built for the trip count 1 the `Slice` operators 0 and 1 both write `x@1`. -/
theorem C17_counterexample :
    ((written exDupSeq exDupSeq.func_def.op.length).Nodup ∧
      (∀ y ∈ written exDupSeq exDupSeq.func_def.op.length,
        NoAt y ∧ y ∉ seqNames exDupSeq ∧ ∀ i, i < exDupSeq.nout → y ≠ exDupSeq.Output i)) ∧
    (unrolledGraph (InitTemplate exDupSeq.fresh) (exWs 1)).map
        (fun g => g.op.map (fun o => o.output))
      = some [["x@1"], ["x@1"], ["y@1"], ["out"]] := by
  refine ⟨by decide, by decide⟩


/-! ## States reached by repeated unrolling -/

/-- What `UnrollTemplate` returns on an operator prepared by `InitTemplate`: only the
mapping, the built definition and the stored trip count can have changed, and the mapping
is the one left by the main loop or the old one. -/
theorem UnrollTemplate_later (op : ScanOp) (ws : Workspace) (tm : Terms) (nd : GraphDef)
    (gr : GraphCache) (c : Option Graph) (n0 : Int) (r : ScanOp × Workspace)
    (h : UnrollTemplate (op.later tm nd gr c n0) ws = Result.ok r) :
    ∃ N nd1, (r.1 = op.later tm nd gr c N ∧ (gr N).isSome) ∨
      (r.1 = op.later (stepState op (body1 op) tm (N.toNat - 1)).2 nd1 gr c N ∧
        gr N = none ∧ 1 ≤ N) := by
  cases hres : resolveSteps (op.later tm nd gr c n0) ws with
  | fatal s1 =>
    unfold UnrollTemplate at h
    rw [hres] at h
    simp at h
  | ok s1 =>
    have htc : tripCount (op.later tm nd gr c n0) ws = some s1.nsteps := by
      unfold tripCount; rw [hres]
    rw [UnrollTemplate_cases _ ws _ htc] at h
    have e : ({ op.later tm nd gr c n0 with nsteps := s1.nsteps } : ScanOp)
        = op.later tm nd gr c s1.nsteps := rfl
    rw [e] at h
    by_cases h1 : s1.nsteps < 1
    · rw [if_pos h1] at h; simp at h
    · rw [if_neg h1] at h
      by_cases h2 : (List.range (op.later tm nd gr c n0).nseqs).any
          (fun i => decide (ws.dim ((op.later tm nd gr c n0).Input i)
            (op.later tm nd gr c n0).axis ≠ s1.nsteps)) = true
      · rw [if_pos h2] at h; simp at h
      · rw [if_neg h2] at h
        have e2 : (op.later tm nd gr c n0).graphs = gr := rfl
        rw [e2] at h
        by_cases h3 : (gr s1.nsteps).isSome = true
        · rw [if_pos h3] at h
          refine ⟨s1.nsteps, nd, Or.inl ⟨?_, h3⟩⟩
          rw [← Result.ok.inj h]
        · rw [if_neg h3] at h
          have hb := buildGraph_later op ws tm nd gr c s1.nsteps
          rw [Result.ok.inj h] at hb
          exact ⟨s1.nsteps, _, Or.inr ⟨hb, by simpa using h3, by omega⟩⟩

/-- A property of the mapping that holds after `InitTemplate` and that the main loop
maintains holds in every reached state; such a state differs from the one left by
`InitTemplate` in its mutable members only. -/
theorem Reach_later (op : ScanOp) (P : Terms → Prop) (h0 : P (terms1 op))
    (hstep : ∀ tm n, P tm → P (stepState op (body1 op) tm n).2) (s : ScanOp)
    (hr : Reach op s) :
    ∃ tm nd gr c n, s = op.later tm nd gr c n ∧ P tm := by
  induction hr with
  | init => exact ⟨_, _, _, _, _, InitTemplate_later op, h0⟩
  | unroll s ws r _ hu ih =>
    obtain ⟨tm, nd, gr, c, n, rfl, hP⟩ := ih
    obtain ⟨N, nd1, ⟨e, _⟩ | ⟨e, _, _⟩⟩ := UnrollTemplate_later op ws tm nd gr c n r hu
    · exact ⟨_, _, _, _, _, e, hP⟩
    · exact ⟨_, _, _, _, _, e, hstep tm _ hP⟩
  | run s ws r _ hu ih =>
    obtain ⟨tm, nd, gr, c, n, rfl, hP⟩ := ih
    unfold RunOnDevice at hu
    cases hU : UnrollTemplate (op.later tm nd gr c n) ws with
    | fatal s1 => rw [hU] at hu; simp at hu
    | ok r1 =>
      rw [hU] at hu
      simp only at hu
      have hr1 := Result.ok.inj hu
      obtain ⟨N, nd1, ⟨e, _⟩ | ⟨e, _, _⟩⟩ := UnrollTemplate_later op ws tm nd gr c n r1 hU
      · have hg : r.1 = op.later tm nd (if (gr N).isSome then gr else gr.set N ⟨nd⟩)
            ((if (gr N).isSome then gr else gr.set N ⟨nd⟩) N) N := by
          rw [← hr1]; simp only; rw [e]; rfl
        exact ⟨_, _, _, _, _, hg, hP⟩
      · have hg : r.1 = op.later (stepState op (body1 op) tm (N.toNat - 1)).2 nd1
            (if (gr N).isSome then gr else gr.set N ⟨nd1⟩)
            ((if (gr N).isSome then gr else gr.set N ⟨nd1⟩) N) N := by
          rw [← hr1]; simp only; rw [e]; rfl
        exact ⟨_, _, _, _, _, hg, hstep tm _ hP⟩


/-! ## Steps of the symbols of the mapping -/

theorem AtStep_unique (u : String) (k k' : Nat) (h : AtStep u k) (h' : AtStep u k') :
    k = k' := by
  rcases h with ⟨rfl, hu⟩ | ⟨s, hs, rfl⟩
  · rcases h' with ⟨rfl, _⟩ | ⟨s', _, e⟩
    · rfl
    · exact absurd e (noAt_ne_at hu _ _)
  · rcases h' with ⟨_, hu⟩ | ⟨s', hs', e⟩
    · exact absurd hu (not_noAt_at _ _)
    · exact (at_inj hs hs' e).2

theorem StepUp_terms1 (op : ScanOp) (hsym : SymbolsNoAt op) : StepUp (terms1 op) := by
  intro key v h
  unfold terms1 at h
  rcases foldl_range_entry _ _ _ _ (initPre_cases op) _ _ _ _ h with h1 | ⟨i, hi, _, hk, hv⟩
  · unfold domTerms at h1
    by_cases hmem : key ∈ seqNames op ++ written op op.func_def.op.length
    · rw [if_pos hmem] at h1
      have hkey : NoAt key := by
        rcases List.mem_append.1 hmem with h2 | h2
        · obtain ⟨i, hi, rfl⟩ := List.mem_map.1 h2
          exact hsym.1 i (List.mem_range.1 hi)
        · obtain ⟨i, hi, hy⟩ := (mem_written op key _).1 h2
          exact (hsym.2.1 _ (body_mem op i hi)).1 key hy
      refine ⟨0, Or.inl ⟨rfl, hkey⟩, Or.inr ⟨key, hkey, ?_⟩⟩
      rw [← Option.some.inj h1, at_one]
    · simp [hmem] at h1
  · refine ⟨0, Or.inl ⟨rfl, ?_⟩, Or.inr ⟨op.target i, (hsym.2.2 i hi).2.1, ?_⟩⟩
    · rw [hk]; exact (hsym.2.2 i hi).1
    · rw [hv, at_one]

theorem StepUp_UpdateTerms (op : ScanOp) (hsym : SymbolsNoAt op) (t : Nat) (ht : 1 ≤ t)
    (tm : Terms) (hm : StepUp tm) : StepUp (UpdateTerms op t tm) := by
  intro key v h
  rcases UpdateTerms_entry op t tm _ _ h with h1 | ⟨i, hi, hk, hw⟩ | ⟨h3, i, hi, _, hk, hw⟩
  · exact hm key v h1
  · refine ⟨t - 1, Or.inr ⟨_, hsym.1 i hi, hk⟩, Or.inr ⟨_, hsym.1 i hi, ?_⟩⟩
    rw [hw]; congr 2; omega
  · refine ⟨t - 2, Or.inr ⟨_, (hsym.2.2 i hi).2.2, hk⟩, Or.inr ⟨_, (hsym.2.2 i hi).2.2, ?_⟩⟩
    rw [hw]; congr 2; omega

/-- The main loop keeps every entry of the mapping one step up. -/
theorem StepUp_stepState (op : ScanOp) (hsym : SymbolsNoAt op) (tm : Terms) (hm : StepUp tm)
    (n : Nat) : StepUp (stepState op (body1 op) tm n).2 := by
  have hno : ∀ y ∈ written op op.func_def.op.length, NoAt y := by
    intro y hy
    obtain ⟨i, hi, hy2⟩ := (mem_written op y _).1 hy
    exact (hsym.2.1 _ (body_mem op i hi)).1 y hy2
  induction n with
  | zero => exact hm
  | succ n ih =>
    simp only [stepState]
    have hlen : (stepState op (body1 op) tm n).1.length = op.func_def.op.length := by
      rw [stepState_length, (BodyAt_body1 op).1]
    refine (scanOps_inv (unrollOp (n + 2)) (stepState op (body1 op) tm n).1
      (fun _ m => StepUp m) _ (StepUp_UpdateTerms op hsym _ (by omega) _ ih) ?_).1
    intro k hk m hI key v hv
    rw [unrollOp_snd] at hv
    dsimp only at hv
    have hout := congrArg (fun l => l[k]?) (stepState_outputs op hno tm n)
    simp only [List.getElem?_map, List.getElem?_eq_getElem hk,
      List.getElem?_range (hlen ▸ hk), Option.map_some', Option.some.injEq] at hout
    by_cases hmem : key ∈ ((stepState op (body1 op) tm n).1[k]).output
    · rw [if_pos hmem] at hv
      rw [hout] at hmem
      obtain ⟨y, hy, rfl⟩ := List.mem_map.1 hmem
      have hy2 : NoAt y := hno y ((mem_written op y _).2 ⟨k, hlen ▸ hk, hy⟩)
      refine ⟨n + 1, Or.inr ⟨y, hy2, rfl⟩, Or.inr ⟨y, hy2, ?_⟩⟩
      rw [← Option.some.inj hv, splitHead_at _ _ hy2]
    · rw [if_neg hmem] at hv
      exact hI key v hv

/-- Following entries of a mapping whose entries all go one step up only increases the
step. -/
theorem StepUp_chain (tm : Terms) (hm : StepUp tm) (a b : String)
    (h : Relation.TransGen (fun x y => tm x = some y) a b) :
    ∃ k k', k < k' ∧ AtStep a k ∧ AtStep b k' := by
  induction h with
  | single h1 =>
    obtain ⟨k, h2, h3⟩ := hm _ _ h1
    exact ⟨k, k + 1, by omega, h2, h3⟩
  | tail _ h1 ih =>
    obtain ⟨k, k', hlt, h2, h3⟩ := ih
    obtain ⟨j, h4, h5⟩ := hm _ _ h1
    have := AtStep_unique _ _ _ h3 h4
    subst this
    exact ⟨k, k' + 1, by omega, h2, h5⟩

/-- C15. No rename cycles: for a template whose symbols contain no `@`, in every state
reached after `InitTemplate` by any sequence of `UnrollTemplate` (or `RunOnDevice`) calls,
every entry of the mapping sends a symbol of step `k` (a symbol without `@` counting as
step 0, `s@k` as step `k`) to a symbol of step `k + 1`; hence no symbol is mapped to
itself, and following the mapping from a symbol never returns to it. -/
theorem C15_no_rename_cycles (op : ScanOp) (hsym : SymbolsNoAt op) (s : ScanOp)
    (hr : Reach op s) :
    (∀ key v, s.terms key = some v → ∃ k, AtStep key k ∧ AtStep v (k + 1)) ∧
    (∀ key, s.terms key ≠ some key) ∧
    (∀ u, ¬ Relation.TransGen (fun x y => s.terms x = some y) u u) := by
  obtain ⟨tm, nd, gr, c, n, rfl, hP⟩ := Reach_later op StepUp (StepUp_terms1 op hsym)
    (fun tm n h => StepUp_stepState op hsym tm h n) s hr
  have hP2 : StepUp (op.later tm nd gr c n).terms := hP
  refine ⟨hP2, ?_, ?_⟩
  · intro key h
    obtain ⟨k, h1, h2⟩ := hP2 key key h
    have := AtStep_unique _ _ _ h1 h2
    omega
  · intro u h
    obtain ⟨k, k', hlt, h1, h2⟩ := StepUp_chain _ hP2 u u h
    have := AtStep_unique _ _ _ h1 h2
    omega

/-- C15, witness: `exScan` after `InitTemplate`, a run for the trip count 3 and an
unrolling for the trip count 2. -/
theorem C15_no_rename_cycles_witness :
    ∃ s, Reach exScan s ∧
      (∀ key v, s.terms key = some v → ∃ k, AtStep key k ∧ AtStep v (k + 1)) ∧
      (∀ key, s.terms key ≠ some key) ∧
      (∀ u, ¬ Relation.TransGen (fun x y => s.terms x = some y) u u) :=
  have h1 : Reach exScan
      (match RunOnDevice (InitTemplate exScan.fresh) (exWs 3) with
        | Result.ok r => r | Result.fatal r => r).1 :=
    Reach.run _ (exWs 3) _ Reach.init rfl
  have h2 : Reach exScan
      (match UnrollTemplate (match RunOnDevice (InitTemplate exScan.fresh) (exWs 3) with
          | Result.ok r => r | Result.fatal r => r).1 (exWs 2) with
        | Result.ok r => r | Result.fatal r => r).1 :=
    Reach.unroll _ (exWs 2) _ h1 rfl
  ⟨_, h2, C15_no_rename_cycles exScan (by decide) _ h2⟩


/-! ## Mappings left by earlier unrolls -/

theorem written_noAt (op : ScanOp) (hsym : SymbolsNoAt op) (y : String)
    (hy : y ∈ written op op.func_def.op.length) : NoAt y := by
  obtain ⟨i, hi, hy2⟩ := (mem_written op y _).1 hy
  exact (hsym.2.1 _ (body_mem op i hi)).1 y hy2

theorem written_mono (op : ScanOp) (y : String) (k : Nat) (hk : k ≤ op.func_def.op.length)
    (hy : y ∈ written op k) : y ∈ written op op.func_def.op.length := by
  obtain ⟨i, hi, hy2⟩ := (mem_written op y _).1 hy
  exact (mem_written op y _).2 ⟨i, by omega, hy2⟩

theorem seqNames_noAt (op : ScanOp) (hsym : SymbolsNoAt op) (x : String)
    (hx : x ∈ seqNames op) : NoAt x := by
  obtain ⟨i, hi, rfl⟩ := List.mem_map.1 hx
  exact hsym.1 i (List.mem_range.1 hi)

theorem Keyed_UpdateTerms (op : ScanOp) (hsym : SymbolsNoAt op) (t : Nat) (ht : 2 ≤ t)
    (tm : Terms) (hm : Keyed op tm) : Keyed op (UpdateTerms op t tm) := by
  intro key v h
  rcases UpdateTerms_entry op t tm _ _ h with h1 | ⟨i, hi, hk, _⟩ | ⟨h3, i, hi, hd, hk, _⟩
  · exact hm key v h1
  · exact Or.inr ⟨_, t - 1, hsym.1 i hi, by omega,
      Or.inl (List.mem_map.2 ⟨i, List.mem_range.2 hi, rfl⟩), hk⟩
  · exact Or.inr ⟨_, t - 2, (hsym.2.2 i hi).2.2, by omega, Or.inr (Or.inr ⟨i, hi, hd, rfl⟩), hk⟩

/-- The output of instance `k` of step `n + 1`. -/
theorem stepState_output (op : ScanOp) (hsym : SymbolsNoAt op) (tm : Terms) (n k : Nat)
    (hk : k < (stepState op (body1 op) tm n).1.length) :
    ((stepState op (body1 op) tm n).1[k]).output
      = (op.body k).output.map (fun y => y ++ "@" ++ toString (n + 1)) := by
  have hlen : (stepState op (body1 op) tm n).1.length = op.func_def.op.length := by
    rw [stepState_length, (BodyAt_body1 op).1]
  have hout := congrArg (fun l => l[k]?)
    (stepState_outputs op (fun y hy => written_noAt op hsym y hy) tm n)
  simp only [List.getElem?_map, List.getElem?_eq_getElem hk,
    List.getElem?_range (hlen ▸ hk), Option.map_some', Option.some.injEq] at hout
  exact hout

theorem Keyed_stepState (op : ScanOp) (hsym : SymbolsNoAt op) (tm : Terms)
    (hm : Keyed op tm) (n : Nat) : Keyed op (stepState op (body1 op) tm n).2 := by
  induction n with
  | zero => exact hm
  | succ n ih =>
    simp only [stepState]
    have hlen : (stepState op (body1 op) tm n).1.length = op.func_def.op.length := by
      rw [stepState_length, (BodyAt_body1 op).1]
    refine (scanOps_inv (unrollOp (n + 2)) (stepState op (body1 op) tm n).1
      (fun _ m => Keyed op m) _ (Keyed_UpdateTerms op hsym _ (by omega) _ ih) ?_).1
    intro k hk m hI key v hv
    rw [unrollOp_snd] at hv
    dsimp only at hv
    by_cases hmem : key ∈ ((stepState op (body1 op) tm n).1[k]).output
    · rw [stepState_output op hsym tm n k hk] at hmem
      obtain ⟨y, hy, rfl⟩ := List.mem_map.1 hmem
      have hy2 : y ∈ written op op.func_def.op.length :=
        (mem_written op y _).2 ⟨k, hlen ▸ hk, hy⟩
      exact Or.inr ⟨y, n + 1, written_noAt op hsym y hy2, by omega, Or.inr (Or.inl hy2), rfl⟩
    · rw [if_neg hmem] at hv
      exact hI key v hv

theorem Hist_terms1 (op : ScanOp) (hsym : SymbolsNoAt op) : Hist op (terms1 op) :=
  ⟨Good_terms1 op hsym, fun _ _ => rfl, fun key v h => Or.inl (terms1_keys op hsym key v h)⟩

theorem Hist_stepState (op : ScanOp) (hsym : SymbolsNoAt op) (tm : Terms) (hm : Hist op tm)
    (n : Nat) : Hist op (stepState op (body1 op) tm n).2 := by
  obtain ⟨h1, h2, h3⟩ := hm
  obtain ⟨_, g1, g2⟩ := stepState_inv op hsym (body1 op) tm (BodyAt_body1 op) h1 n
  exact ⟨g1, fun x hx => (g2 x hx).trans (h2 x hx), Keyed_stepState op hsym tm h3 n⟩

/-- Every reached state is the state left by `InitTemplate` with other mutable members,
and its mapping satisfies `Hist`. -/
theorem Reach_Hist (op : ScanOp) (hsym : SymbolsNoAt op) (s : ScanOp) (hr : Reach op s) :
    ∃ tm nd gr c n, s = op.later tm nd gr c n ∧ Hist op tm :=
  Reach_later op (Hist op) (Hist_terms1 op hsym)
    (fun tm n h => Hist_stepState op hsym tm h n) s hr

/-! ## Inputs of the instances -/

/-- A value of the mapping left by `InitTemplate` is a step-1 instance. -/
theorem terms1_value (op : ScanOp) (hsym : SymbolsNoAt op) (x v : String)
    (h : terms1 op x = some v) : ∃ s, NoAt s ∧ v = s ++ "@" ++ toString 1 := by
  obtain ⟨k, h1, h2⟩ := StepUp_terms1 op hsym x v h
  have hk : k = 0 := AtStep_unique _ _ _ h1 (Or.inl ⟨rfl, terms1_keys op hsym x v h⟩)
  subst hk
  rcases h2 with ⟨h3, _⟩ | h3
  · omega
  · exact h3

theorem InstOK_body1 (op : ScanOp) (hsym : SymbolsNoAt op) (k : Nat)
    (hk : k < op.func_def.op.length) :
    ∃ inst, (body1 op)[k]? = some inst ∧ InstOK op 1 k inst := by
  refine ⟨_, (body1_char op).2 k hk, ?_⟩
  rw [initBodyOp_fst]
  intro u hu
  obtain ⟨z, hz, rfl⟩ := List.mem_map.1 hu
  have hzn : NoAt z := (hsym.2.1 _ (body_mem op k hk)).2 z hz
  by_cases hmem : z ∈ seqNames op ++ written op k
  · right
    refine ⟨z, 1, hzn, ?_, by omega, by omega, fun _ => hmem⟩
    have e : domTerms (seqNames op ++ written op k) z = some (z ++ "@1") := by
      simp [domTerms, hmem]
    rw [Terms.subst_some _ _ _ e, at_one]
  · left
    have e : domTerms (seqNames op ++ written op k) z = none := by
      simp [domTerms, hmem]
    rw [Terms.subst_none _ _ e]
    exact ⟨hzn, hz, hmem⟩

/-- Cloning an instance with a mapping that sends step instances one step up and agrees
with the mapping of `InitTemplate` on the symbols without `@`. -/
theorem InstOK_step (op : ScanOp) (hsym : SymbolsNoAt op) (t k : Nat) (ht : 1 ≤ t)
    (m : Terms) (hg : Good m) (hfr : ∀ x, NoAt x → m x = terms1 op x) (prev : OperatorDef)
    (hp : InstOK op t k prev) : InstOK op (t + 1) k (unrollOp (t + 1) m prev).1 := by
  rw [unrollOp_fst]
  intro u hu
  obtain ⟨z, hz, rfl⟩ := List.mem_map.1 hu
  rcases hp z hz with ⟨h1, h2, h3⟩ | ⟨s, j, hs, rfl, h1, h2, h3⟩
  · cases hv : m z with
    | none =>
      left
      rw [Terms.subst_none _ _ hv]
      exact ⟨h1, h2, h3⟩
    | some v =>
      right
      rw [Terms.subst_some _ _ _ hv]
      rw [hfr z h1] at hv
      obtain ⟨s, hs, e⟩ := terms1_value op hsym z v hv
      exact ⟨s, 1, hs, e, by omega, by omega, fun h => by omega⟩
  · cases hv : m (s ++ "@" ++ toString j) with
    | none =>
      right
      rw [Terms.subst_none _ _ hv]
      exact ⟨s, j, hs, rfl, h1, by omega, fun h => by omega⟩
    | some v =>
      right
      rw [Terms.subst_some _ _ _ hv, hg s j v hs hv]
      exact ⟨s, j + 1, hs, rfl, by omega, by omega, fun h => h3 (by omega)⟩


/-- Every step instance has inputs of the form described by `InstOK`, whatever mapping
earlier unrolls left. -/
theorem InstOK_stepState (op : ScanOp) (hsym : SymbolsNoAt op) (tm : Terms)
    (hm : Hist op tm) (n k : Nat) (hk : k < op.func_def.op.length) :
    ∃ inst, (stepState op (body1 op) tm n).1[k]? = some inst ∧ InstOK op (n + 1) k inst := by
  induction n with
  | zero => exact InstOK_body1 op hsym k hk
  | succ n ih =>
    obtain ⟨inst, h1, h2⟩ := ih
    obtain ⟨prev, m, h3, h4, hg, hfr, _⟩ :=
      stepState_char op hsym (body1 op) tm (BodyAt_body1 op) hm.1 n k hk
    rw [h1] at h3
    have e := Option.some.inj h3
    subst e
    obtain ⟨_, _, g2⟩ := stepState_inv op hsym (body1 op) tm (BodyAt_body1 op) hm.1 n
    refine ⟨_, h4, InstOK_step op hsym (n + 1) k (by omega) m hg ?_ inst h2⟩
    intro x hx
    rw [hfr x hx, g2 x hx, hm.2.1 x hx]

/-- Which instance sits at an index of the body part of the graph. -/
theorem allSteps_cases (op : ScanOp) (body : List OperatorDef) (tm : Terms) (n a : Nat)
    (o : OperatorDef) (h : (allSteps op body tm n)[a]? = some o) :
    ∃ t k, t ≤ n ∧ k < body.length ∧ a = t * body.length + k ∧
      (stepState op body tm t).1[k]? = some o := by
  induction n with
  | zero =>
    simp only [allSteps] at h
    have hlt : a < body.length := (List.getElem?_eq_some_iff.1 h).1
    exact ⟨0, a, Nat.le_refl _, hlt, by omega, h⟩
  | succ n ih =>
    simp only [allSteps] at h
    by_cases ha : a < (allSteps op body tm n).length
    · rw [List.getElem?_append_left ha] at h
      obtain ⟨t, k, ht, hk, e, hs⟩ := ih h
      exact ⟨t, k, by omega, hk, e, hs⟩
    · rw [List.getElem?_append_right (by omega)] at h
      have hlt := (List.getElem?_eq_some_iff.1 h).1
      rw [stepState_length] at hlt
      rw [allSteps_length] at ha h hlt
      refine ⟨n + 1, a - body.length * (n + 1), Nat.le_refl _, hlt, ?_, h⟩
      have : (n + 1) * body.length = body.length * (n + 1) := Nat.mul_comm _ _
      omega

/-- Which operator sits at an index of the graph: a slice, a step instance or one of the
operators that follow the body. -/
theorem graph_cases (op : ScanOp) (tm : Terms) (pre post : List OperatorDef)
    (hpre : pre.length = op.nseqs) (n a : Nat) (o : OperatorDef)
    (h : (pre ++ allSteps op (body1 op) tm n ++ post)[a]? = some o) :
    (a < op.nseqs ∧ pre[a]? = some o) ∨
    (∃ t k, t ≤ n ∧ k < op.func_def.op.length ∧
      a = op.nseqs + t * op.func_def.op.length + k ∧
      (stepState op (body1 op) tm t).1[k]? = some o) ∨
    (op.nseqs + op.func_def.op.length * (n + 1) ≤ a ∧ o ∈ post) := by
  have hb : (body1 op).length = op.func_def.op.length := (BodyAt_body1 op).1
  rw [List.append_assoc] at h
  by_cases h1 : a < op.nseqs
  · rw [List.getElem?_append_left (by omega)] at h
    exact Or.inl ⟨h1, h⟩
  · rw [List.getElem?_append_right (by omega)] at h
    by_cases h2 : a - pre.length < (allSteps op (body1 op) tm n).length
    · rw [List.getElem?_append_left h2] at h
      obtain ⟨t, k, ht, hk, e, hs⟩ := allSteps_cases op (body1 op) tm n _ o h
      rw [hb] at hk e
      exact Or.inr (Or.inl ⟨t, k, ht, hk, by omega, hs⟩)
    · rw [List.getElem?_append_right (by omega)] at h
      rw [allSteps_length, hb] at h2
      exact Or.inr (Or.inr ⟨by omega, mem_of_getElem? _ _ _ h⟩)


/-! ## Producers and consumers in the unrolled graph -/

/-- The operator list of the graph built for `N`, whatever earlier runs left. -/
theorem unrolledGraph_ops (op : ScanOp) (ws : Workspace) (tm : Terms) (nd : GraphDef)
    (gr : GraphCache) (c : Option Graph) (n0 : Int) (N : Nat)
    (h : tripCount (op.later tm nd gr c n0) ws = some (N : Int)) (hN : 1 ≤ N)
    (hdim : ∀ i, i < op.nseqs → ws.dim (op.Input i) op.axis = N) (hc : gr N = none) :
    ∃ g, unrolledGraph (op.later tm nd gr c n0) ws = some g ∧
      g.op = unrolledOps op ws tm N ∧
      g.name = op.name ++ "(ScanLen." ++ toString N ++ ")" ∧
      g.target = (List.range op.nout).flatMap (resultTargets (op.later tm nd gr c N)) ∧
      g.arg = [{ name := "phase", s := op.phase }] ∧ g.g_target = [] ∧
      g.device_option = op.device_option :=
  ⟨_, unrolledGraph_later op ws tm nd gr c n0 N h hN hdim hc, rfl, rfl, rfl, rfl, rfl, rfl⟩

/-- The operators that write a symbol of the graph. -/
theorem output_cases (op : ScanOp) (hsym : SymbolsNoAt op) (ws : Workspace) (tm : Terms)
    (N b : Nat) (ob : OperatorDef) (u : String)
    (h : (unrolledOps op ws tm N)[b]? = some ob) (hu : u ∈ ob.output) :
    (b < op.nseqs ∧ ∃ t : Nat, u = op.Input b ++ "@" ++ toString t) ∨
    (∃ t k y, t ≤ N - 1 ∧ k < op.func_def.op.length ∧
      b = op.nseqs + t * op.func_def.op.length + k ∧ y ∈ (op.body k).output ∧
      u = y ++ "@" ++ toString (t + 1)) ∨
    (op.nseqs + op.func_def.op.length * (N - 1 + 1) ≤ b ∧
      ∃ i, i < op.nout ∧ op.Output i ≠ "ignore" ∧ u = op.Output i) := by
  rcases graph_cases op tm _ _ (by simp) (N - 1) b ob h with ⟨h1, h2⟩ | ⟨t, k, ht, hk, e, hs⟩ |
      ⟨h1, h2⟩
  · left
    rw [List.getElem?_map, List.getElem?_range h1] at h2
    have e := Option.some.inj h2
    subst e
    simp only [unrolledSlice, sliceOutputs, List.mem_map] at hu
    obtain ⟨t, _, e⟩ := hu
    exact ⟨h1, t, e.symm⟩
  · right; left
    obtain ⟨hlt, e2⟩ := List.getElem?_eq_some_iff.1 hs
    rw [← e2, stepState_output op hsym tm t k hlt] at hu
    obtain ⟨y, hy, e3⟩ := List.mem_map.1 hu
    exact ⟨t, k, y, ht, hk, e, hy, e3.symm⟩
  · right; right
    obtain ⟨i, hi, rfl⟩ := List.mem_map.1 h2
    rw [List.mem_filter, List.mem_range] at hi
    simp only [concatAt, List.mem_singleton] at hu
    exact ⟨h1, i, hi.1, by simpa using hi.2, hu⟩

/-- The slice of sequence input `i` writes `x@t` for every step `t` of the trip count. -/
theorem slice_producer (op : ScanOp) (ws : Workspace) (tm : Terms) (N i t : Nat)
    (hdim : ∀ i, i < op.nseqs → ws.dim (op.Input i) op.axis = N)
    (hi : i < op.nseqs) (ht : 1 ≤ t) (htN : t ≤ N) :
    ∃ ob, (unrolledOps op ws tm N)[i]? = some ob ∧
      op.Input i ++ "@" ++ toString t ∈ ob.output := by
  refine ⟨unrolledSlice op ws i, ?_, ?_⟩
  · unfold unrolledOps
    rw [List.append_assoc, List.getElem?_append_left (by simpa using hi), List.getElem?_map,
      List.getElem?_range hi]
    rfl
  · simp only [unrolledSlice, sliceOutputs, hdim i hi, List.mem_map, List.mem_range'_1]
    exact ⟨t, ⟨ht, by simp; omega⟩, rfl⟩

/-- The step-`t + 1` instance of body operator `k` writes `y@(t+1)` for each of its
template outputs `y`. -/
theorem body_producer (op : ScanOp) (hsym : SymbolsNoAt op) (ws : Workspace) (tm : Terms)
    (N t k : Nat) (y : String) (ht : t ≤ N - 1) (hk : k < op.func_def.op.length)
    (hy : y ∈ (op.body k).output) :
    ∃ ob, (unrolledOps op ws tm N)[op.nseqs + t * op.func_def.op.length + k]? = some ob ∧
      y ++ "@" ++ toString (t + 1) ∈ ob.output := by
  have hlen : k < (stepState op (body1 op) tm t).1.length := by
    rw [stepState_length, (BodyAt_body1 op).1]; exact hk
  refine ⟨(stepState op (body1 op) tm t).1[k], ?_, ?_⟩
  · have hg := graph_instance op tm ((List.range op.nseqs).map (unrolledSlice op ws))
      (((List.range op.nout).filter (fun i => decide (op.Output i ≠ "ignore"))).map
        (concatAt op N)) (by simp) (N - 1 + 1) (t + 1) k (by omega) (by omega) hk
    simp only [Nat.add_sub_cancel] at hg
    unfold unrolledOps
    rw [hg, List.getElem?_eq_getElem hlen]
  · rw [stepState_output op hsym tm t k hlen]
    exact List.mem_map.2 ⟨y, hy, rfl⟩


theorem idx_lt (R t' t k' k : Nat) (ht : t' < t) (hk : k' < R) :
    t' * R + k' < t * R + k := by
  have h := Nat.mul_le_mul_right R (Nat.succ_le_of_lt ht)
  rw [Nat.succ_mul] at h
  omega

/-- In the operator list built from a mapping left by earlier unrolls, a symbol that is
read at index `a` and written somewhere is written at an index below `a`. -/
theorem ordering_core (op : ScanOp) (hsym : SymbolsNoAt op)
    (hdecl : ∀ i, i < op.nout → op.Output i ≠ "ignore" →
      op.Output i ∉ seqNames op ∧
      ∀ k, k < op.func_def.op.length → ∀ z ∈ (op.body k).input,
        z ∉ seqNames op ++ written op k → z ≠ op.Output i)
    (ws : Workspace) (tm : Terms) (hm : Hist op tm) (N : Nat) (hN : 1 ≤ N)
    (hdim : ∀ i, i < op.nseqs → ws.dim (op.Input i) op.axis = N)
    (a : Nat) (oa : OperatorDef) (u : String)
    (ha : (unrolledOps op ws tm N)[a]? = some oa) (hu : u ∈ oa.input)
    (b : Nat) (ob : OperatorDef)
    (hb : (unrolledOps op ws tm N)[b]? = some ob) (hub : u ∈ ob.output) :
    ∃ b' ob', b' < a ∧ (unrolledOps op ws tm N)[b']? = some ob' ∧ u ∈ ob'.output := by
  have hout := output_cases op hsym ws tm N b ob u hb hub
  -- a symbol without `@` that is read is written nowhere
  have hplain : NoAt u → (u ∈ seqNames op ∨ ∃ k, k < op.func_def.op.length ∧
      u ∈ (op.body k).input ∧ u ∉ seqNames op ++ written op k) → False := by
    intro hnu hcase
    rcases hout with ⟨_, t, e⟩ | ⟨t, k, y, _, _, _, _, e⟩ | ⟨_, i, hi, hne, e⟩
    · exact noAt_ne_at hnu _ _ e
    · exact noAt_ne_at hnu _ _ e
    · rcases hcase with h1 | ⟨k, hk, h1, h2⟩
      · exact (hdecl i hi hne).1 (e ▸ h1)
      · exact (hdecl i hi hne).2 k hk u h1 h2 e
  rcases graph_cases op tm _ _ (by simp) (N - 1) a oa ha with ⟨h1, h2⟩ | ⟨t, k, ht, hk, ea, hs⟩ |
      ⟨h1, h2⟩
  · -- a slice reads its sequence input
    rw [List.getElem?_map, List.getElem?_range h1] at h2
    have e := Option.some.inj h2
    subst e
    simp only [unrolledSlice, templateSlice, List.mem_singleton] at hu
    subst hu
    exact absurd (Or.inl (List.mem_map.2 ⟨a, List.mem_range.2 h1, rfl⟩))
      (fun h => hplain (hsym.1 a h1) h)
  · -- a step instance
    obtain ⟨inst, hi1, hi2⟩ := InstOK_stepState op hsym tm hm t k hk
    rw [hs] at hi1
    have e := Option.some.inj hi1
    subst e
    rcases hi2 u hu with ⟨g1, g2, g3⟩ | ⟨s, j, hs1, rfl, hj1, hj2, hj3⟩
    · exact absurd (Or.inr ⟨k, hk, g2, g3⟩) (fun h => hplain g1 h)
    · rcases hout with ⟨hb1, _⟩ | ⟨t', k', y, ht', hk', eb, hy, e⟩ | ⟨_, i, hi, _, e⟩
      · exact ⟨b, ob, by omega, hb, hub⟩
      · have hyn : NoAt y := (hsym.2.1 _ (body_mem op k' hk')).1 y hy
        obtain ⟨e1, e2⟩ := at_inj hs1 hyn e
        by_cases hlt : t' < t
        · have := idx_lt op.func_def.op.length t' t k' k hlt hk'
          exact ⟨b, ob, by omega, hb, hub⟩
        · have hjt : j = t + 1 := by omega
          rcases List.mem_append.1 (hj3 hjt) with hmem | hmem
          · obtain ⟨i, hi, rfl⟩ := List.mem_map.1 hmem
            obtain ⟨ob', h3, h4⟩ := slice_producer op ws tm N i j hdim (List.mem_range.1 hi)
              hj1 (by omega)
            exact ⟨i, ob', by have := List.mem_range.1 hi; omega, h3, h4⟩
          · obtain ⟨k2, hk2, hy2⟩ := (mem_written op s k).1 hmem
            obtain ⟨ob', h3, h4⟩ := body_producer op hsym ws tm N t k2 s ht (by omega) hy2
            rw [hjt]
            exact ⟨_, ob', by omega, h3, h4⟩
      · exact absurd e.symm (noAt_ne_at (hsym.2.2 i hi).2.2 _ _)
  · -- a concat
    obtain ⟨i, hi, rfl⟩ := List.mem_map.1 h2
    rw [List.mem_filter, List.mem_range] at hi
    simp only [concatAt, List.mem_map] at hu
    obtain ⟨t', _, rfl⟩ := hu
    rcases hout with ⟨hb1, _⟩ | ⟨t, k, y, ht, hk, eb, _, _⟩ | ⟨_, i', hi', _, e⟩
    · exact ⟨b, ob, by omega, hb, hub⟩
    · have h3 := Nat.mul_le_mul_right op.func_def.op.length (show t + 1 ≤ N - 1 + 1 by omega)
      rw [Nat.succ_mul, Nat.mul_comm (N - 1 + 1)] at h3
      exact ⟨b, ob, by omega, hb, hub⟩
    · exact absurd e.symm (noAt_ne_at (hsym.2.2 i' hi').2.2 _ _)


/-- C13 (amended). Ordering validity of the unrolled graph: for every Scan template
whose symbols contain no `@` and in which no declared output name other than `ignore` is
a sequence-input symbol or a body-operator input that is neither a sequence-input symbol
nor an output of an earlier body operator, in every state reached after `InitTemplate`,
and for every trip count `N ≥ 1` not yet cached: in the graph built by `UnrollTemplate`,
every operator input that is an output of some operator of the graph is an output of an
operator at a strictly smaller index. -/
theorem C13_ordering_validity (op : ScanOp) (hsym : SymbolsNoAt op)
    (hdecl : ∀ i, i < op.nout → op.Output i ≠ "ignore" →
      op.Output i ∉ seqNames op ∧
      ∀ k, k < op.func_def.op.length → ∀ z ∈ (op.body k).input,
        z ∉ seqNames op ++ written op k → z ≠ op.Output i)
    (s : ScanOp) (hr : Reach op s) (ws : Workspace) (N : Nat)
    (h : tripCount s ws = some (N : Int)) (hN : 1 ≤ N)
    (hdim : ∀ i, i < op.nseqs → ws.dim (op.Input i) op.axis = N) (hc : s.graphs N = none) :
    ∃ g, unrolledGraph s ws = some g ∧
      ∀ (a : Nat) (oa : OperatorDef) (u : String), g.op[a]? = some oa → u ∈ oa.input →
        (∃ (b : Nat) (ob : OperatorDef), g.op[b]? = some ob ∧ u ∈ ob.output) →
        ∃ (b : Nat) (ob : OperatorDef), b < a ∧ g.op[b]? = some ob ∧ u ∈ ob.output := by
  obtain ⟨tm, nd, gr, c, n0, rfl, hm⟩ := Reach_Hist op hsym s hr
  obtain ⟨g, hg, hops, _⟩ := unrolledGraph_ops op ws tm nd gr c n0 N h hN hdim hc
  refine ⟨g, hg, ?_⟩
  rw [hops]
  intro a oa u ha hu ⟨b, ob, hb, hub⟩
  exact ordering_core op hsym hdecl ws tm hm N hN hdim a oa u ha hu b ob hb hub

/-- C13, witness: `exScan` unrolled for the trip count 3 after `InitTemplate`. -/
theorem C13_ordering_validity_witness :
    ∃ g, unrolledGraph (InitTemplate exScan.fresh) (exWs 3) = some g ∧
      ∀ (a : Nat) (oa : OperatorDef) (u : String), g.op[a]? = some oa → u ∈ oa.input →
        (∃ (b : Nat) (ob : OperatorDef), g.op[b]? = some ob ∧ u ∈ ob.output) →
        ∃ (b : Nat) (ob : OperatorDef), b < a ∧ g.op[b]? = some ob ∧ u ∈ ob.output :=
  C13_ordering_validity exScan (by decide) (by decide) _ Reach.init (exWs 3) 3 (by decide)
    (by decide) (by decide) rfl

/-- C13, counterexample: the symbols of `exInPlace` contain no `@` and its body reads no
symbol that a later body operator writes, yet in the graph built for the trip count 1 the
`Slice` at index 0 reads `x`, which only the `Concat` at index 2 writes. -/
theorem C13_counterexample :
    (SymbolsNoAt exInPlace ∧
      ∀ k, k < exInPlace.func_def.op.length → ∀ z ∈ (exInPlace.body k).input,
        z ∈ written exInPlace exInPlace.func_def.op.length → z ∈ written exInPlace k) ∧
    (unrolledGraph (InitTemplate exInPlace.fresh) (exWs 1)).map
        (fun g => g.op.map (fun o => (o.input, o.output)))
      = some [(["x"], ["x@1"]), (["x@1"], ["y@1"]), (["x@1"], ["x"])] := by
  refine ⟨by decide, by decide⟩


/-! ## Two unrollings side by side -/

/-- Two runs of the same loop over the same list from related mappings make the same
operators, when every step does and maintains the relation. -/
theorem scanOps_couple {α : Type} (step : Terms → α → OperatorDef × Terms) (l : List α) :
    ∀ (I : Nat → Terms → Terms → Prop) (md mh : Terms), I 0 md mh →
    (∀ k (hk : k < l.length) (m1 m2 : Terms), I k m1 m2 →
      (step m1 l[k]).1 = (step m2 l[k]).1 ∧ I (k + 1) (step m1 l[k]).2 (step m2 l[k]).2) →
    (scanOps step md l).1 = (scanOps step mh l).1 ∧
      I l.length (scanOps step md l).2 (scanOps step mh l).2 := by
  induction l with
  | nil => intro I md mh h0 _; exact ⟨rfl, h0⟩
  | cons a l ih =>
    intro I md mh h0 hstep
    obtain ⟨h1, h2⟩ := hstep 0 (by simp) md mh h0
    obtain ⟨h3, h4⟩ := ih (fun k m1 m2 => I (k + 1) m1 m2) (step md a).2 (step mh a).2 h2
      (fun k hk m1 m2 hm => hstep (k + 1) (by simpa using hk) m1 m2 hm)
    simp only [List.getElem_cons_zero] at h1
    refine ⟨?_, h4⟩
    simp only [scanOps]
    rw [h1, h3]

theorem subst_congr (m1 m2 : Terms) (u : String) (h : m1 u = m2 u) :
    m1.subst u = m2.subst u := by
  cases hv : m2 u with
  | none => rw [Terms.subst_none _ _ hv, Terms.subst_none _ _ (h.trans hv)]
  | some v => rw [Terms.subst_some _ _ _ hv, Terms.subst_some _ _ _ (h.trans hv)]

theorem Good_unrollOp (t : Nat) (m : Terms) (inst : OperatorDef) (outs : List String)
    (hout : inst.output = outs.map (fun y => y ++ "@" ++ toString t))
    (hno : ∀ y ∈ outs, NoAt y) (hg : Good m) : Good (unrollOp (t + 1) m inst).2 := by
  intro s j v hs hv
  rw [unrollOp_snd] at hv
  dsimp only at hv
  by_cases hmem : s ++ "@" ++ toString j ∈ inst.output
  · rw [if_pos hmem] at hv
    rw [hout] at hmem
    obtain ⟨y, hy, hyk⟩ := List.mem_map.1 hmem
    obtain ⟨h1, h2⟩ := at_inj (hno y hy) hs hyk
    subst h2
    rw [splitHead_at _ _ hs] at hv
    exact (Option.some.inj hv).symm
  · rw [if_neg hmem] at hv
    exact hg s j v hs hv

theorem Coup_start (op : ScanOp) (hsym : SymbolsNoAt op) (tm : Terms) (hm : Hist op tm) :
    Coup op 0 op.func_def.op.length (terms1 op) tm := by
  obtain ⟨h1, h2, h3⟩ := hm
  refine ⟨Good_terms1 op hsym, h1, fun x hx => (h2 x hx).symm, h3, ?_, ?_⟩
  · intro key hk
    obtain ⟨v, hv⟩ := Option.isSome_iff_exists.1 hk
    rw [h2 key (terms1_keys op hsym key v hv)]
    exact hk
  · intro s j hs hk
    obtain ⟨v, hv⟩ := Option.isSome_iff_exists.1 hk
    rcases h3 _ v hv with h4 | ⟨s', j', hs', hj', _, e⟩
    · exact absurd h4 (not_noAt_at _ _)
    · have := (at_inj hs hs' e).2
      right; left; omega

theorem Coup_update (op : ScanOp) (hsym : SymbolsNoAt op) (n : Nat) (md mh : Terms)
    (h : Coup op n op.func_def.op.length md mh) :
    Coup op (n + 1) 0 (UpdateTerms op (n + 2) md) (UpdateTerms op (n + 2) mh) := by
  obtain ⟨g1, g2, hfr, hkey, hdom, hc⟩ := h
  refine ⟨Good_UpdateTerms op hsym _ (by omega) md g1, Good_UpdateTerms op hsym _ (by omega) mh g2,
    ?_, Keyed_UpdateTerms op hsym _ (by omega) mh hkey, ?_, ?_⟩
  · intro x hx
    rw [UpdateTerms_frame op _ md x hx, UpdateTerms_frame op _ mh x hx, hfr x hx]
  · intro key hk
    obtain ⟨w, hw⟩ := Option.isSome_iff_exists.1 hk
    rcases UpdateTerms_entry op _ md _ _ hw with h1 | ⟨i, hi, e, _⟩ | ⟨h3, i, hi, hd, e, _⟩
    · exact UpdateTerms_mono op _ mh key (hdom key (by rw [h1]; rfl))
    · rw [e]; exact UpdateTerms_seq op _ mh i hi
    · rw [e]; exact UpdateTerms_rec op _ mh h3 i hi hd
  · intro s j hs hk
    obtain ⟨w, hw⟩ := Option.isSome_iff_exists.1 hk
    rcases UpdateTerms_entry op _ mh _ _ hw with h1 | ⟨i, hi, e, _⟩ | ⟨h3, i, hi, hd, e, _⟩
    · rcases hc s j hs (by rw [h1]; rfl) with h2 | h2 | ⟨h2, h3⟩
      · exact Or.inl (UpdateTerms_mono op _ md _ h2)
      · by_cases hj : j = n + 1
        · by_cases hmem : s ∈ seqNames op
          · left
            obtain ⟨i, hi, rfl⟩ := List.mem_map.1 hmem
            have := UpdateTerms_seq op (n + 2) md i (List.mem_range.1 hi)
            rw [hj]; exact this
          · right; right
            exact ⟨hj, by simpa [written] using hmem⟩
        · right; left; omega
      · left
        rcases hkey _ _ h1 with h4 | ⟨s', j', hs', hj', hb, e⟩
        · exact absurd h4 (not_noAt_at _ _)
        · obtain ⟨e1, e2⟩ := at_inj hs hs' e
          subst e1
          rcases hb with hb | hb | ⟨i, hi, hd, rfl⟩
          · exact absurd (List.mem_append_left _ hb) h3
          · exact absurd (List.mem_append_right _ hb) h3
          · have := UpdateTerms_rec op (n + 2) md (by omega) i hi hd
            rw [h2]; exact this
    · left; rw [e]; exact UpdateTerms_seq op _ md i hi
    · left; rw [e]; exact UpdateTerms_rec op _ md h3 i hi hd


theorem Coup_op (op : ScanOp) (hsym : SymbolsNoAt op) (t k : Nat) (ht : 1 ≤ t)
    (hk : k < op.func_def.op.length) (md mh : Terms) (inst : OperatorDef)
    (hout : inst.output = (op.body k).output.map (fun y => y ++ "@" ++ toString t))
    (h : Coup op t k md mh) :
    Coup op t (k + 1) (unrollOp (t + 1) md inst).2 (unrollOp (t + 1) mh inst).2 := by
  obtain ⟨g1, g2, hfr, hkey, hdom, hc⟩ := h
  have hno : ∀ y ∈ (op.body k).output, NoAt y := (hsym.2.1 _ (body_mem op k hk)).1
  have hval : ∀ (m : Terms) (x : String), (unrollOp (t + 1) m inst).2 x
      = if x ∈ inst.output then some (splitHead x ++ "@" ++ toString (t + 1)) else m x := by
    intro m x; rw [unrollOp_snd]
  refine ⟨Good_unrollOp t md inst _ hout hno g1, Good_unrollOp t mh inst _ hout hno g2,
    ?_, ?_, ?_, ?_⟩
  · intro x hx
    have hmem : x ∉ inst.output := by
      rw [hout]
      intro h
      obtain ⟨y, _, hyk⟩ := List.mem_map.1 h
      exact noAt_ne_at hx _ _ hyk.symm
    rw [hval, hval, if_neg hmem, if_neg hmem, hfr x hx]
  · intro key v hv
    rw [hval] at hv
    by_cases hmem : key ∈ inst.output
    · rw [hout] at hmem
      obtain ⟨y, hy, rfl⟩ := List.mem_map.1 hmem
      exact Or.inr ⟨y, t, hno y hy, ht,
        Or.inr (Or.inl ((mem_written op y _).2 ⟨k, hk, hy⟩)), rfl⟩
    · rw [if_neg hmem] at hv
      exact hkey key v hv
  · intro key hk2
    rw [hval] at hk2 ⊢
    by_cases hmem : key ∈ inst.output
    · rw [if_pos hmem]; rfl
    · rw [if_neg hmem] at hk2 ⊢
      exact hdom key hk2
  · intro s j hs hk2
    rw [hval] at hk2
    rw [hval]
    by_cases hmem : s ++ "@" ++ toString j ∈ inst.output
    · left; rw [if_pos hmem]; rfl
    · rw [if_neg hmem] at hk2 ⊢
      rcases hc s j hs hk2 with h2 | h2 | ⟨h2, h3⟩
      · exact Or.inl h2
      · exact Or.inr (Or.inl h2)
      · right; right
        refine ⟨h2, ?_⟩
        intro h4
        rcases List.mem_append.1 h4 with h5 | h5
        · exact h3 (List.mem_append_left _ h5)
        · simp only [written, List.mem_append] at h5
          rcases h5 with h5 | h5
          · exact h3 (List.mem_append_right _ h5)
          · apply hmem
            rw [hout, h2]
            exact List.mem_map.2 ⟨s, h5, rfl⟩

/-- Related mappings rename the inputs of a step instance alike. -/
theorem Coup_subst (op : ScanOp) (t k : Nat) (md mh : Terms) (inst : OperatorDef)
    (hI : InstOK op t k inst) (h : Coup op t k md mh) :
    (unrollOp (t + 1) md inst).1 = (unrollOp (t + 1) mh inst).1 := by
  obtain ⟨g1, g2, hfr, _, hdom, hc⟩ := h
  rw [unrollOp_fst, unrollOp_fst]
  have hin : inst.input.map md.subst = inst.input.map mh.subst := by
    apply List.map_congr_left
    intro u hu
    rcases hI u hu with ⟨h1, _, _⟩ | ⟨s, j, hs, rfl, _, hj, h3⟩
    · exact subst_congr _ _ _ (hfr u h1)
    · cases hv : mh (s ++ "@" ++ toString j) with
      | none =>
        have hd : md (s ++ "@" ++ toString j) = none := by
          cases hd : md (s ++ "@" ++ toString j) with
          | none => rfl
          | some w =>
            have := hdom _ (by rw [hd]; rfl)
            rw [hv] at this
            exact absurd this (by simp)
        rw [Terms.subst_none _ _ hv, Terms.subst_none _ _ hd]
      | some v =>
        rcases hc s j hs (by rw [hv]; rfl) with h4 | h4 | ⟨h4, h5⟩
        · obtain ⟨w, hw⟩ := Option.isSome_iff_exists.1 h4
          rw [Terms.subst_some _ _ _ hv, Terms.subst_some _ _ _ hw, g1 s j w hs hw,
            g2 s j v hs hv]
        · omega
        · exact absurd (h3 h4) h5
  rw [hin]

/-- The step instances made from a mapping left by earlier unrolls are those made from
the mapping of `InitTemplate`. -/
theorem stepState_couple (op : ScanOp) (hsym : SymbolsNoAt op) (tm : Terms)
    (hm : Hist op tm) (n : Nat) :
    (stepState op (body1 op) (terms1 op) n).1 = (stepState op (body1 op) tm n).1 ∧
    Coup op n op.func_def.op.length (stepState op (body1 op) (terms1 op) n).2
      (stepState op (body1 op) tm n).2 := by
  induction n with
  | zero => exact ⟨rfl, Coup_start op hsym tm hm⟩
  | succ n ih =>
    obtain ⟨h1, h2⟩ := ih
    have hlen : (stepState op (body1 op) tm n).1.length = op.func_def.op.length := by
      rw [stepState_length, (BodyAt_body1 op).1]
    simp only [stepState]
    rw [h1]
    have h3 := scanOps_couple (unrollOp (n + 2)) (stepState op (body1 op) tm n).1
      (fun k m1 m2 => Coup op (n + 1) k m1 m2) _ _ (Coup_update op hsym n _ _ h2)
      (fun k hk m1 m2 hc => by
        obtain ⟨inst, hi1, hi2⟩ := InstOK_stepState op hsym tm hm n k (hlen ▸ hk)
        rw [List.getElem?_eq_getElem hk] at hi1
        have e := Option.some.inj hi1
        rw [e]
        refine ⟨Coup_subst op (n + 1) k m1 m2 inst hi2 hc, ?_⟩
        refine Coup_op op hsym (n + 1) k (by omega) (hlen ▸ hk) m1 m2 inst ?_ hc
        rw [← e]
        exact stepState_output op hsym tm n k hk)
    rw [hlen] at h3
    exact h3

theorem allSteps_couple (op : ScanOp) (hsym : SymbolsNoAt op) (tm : Terms)
    (hm : Hist op tm) (n : Nat) :
    allSteps op (body1 op) tm n = allSteps op (body1 op) (terms1 op) n := by
  induction n with
  | zero => rfl
  | succ n ih =>
    simp only [allSteps]
    rw [ih, (stepState_couple op hsym tm hm (n + 1)).1]


/-- C18. History independence of unrolling: for a template whose symbols contain no `@`,
in every state reached after `InitTemplate` by earlier `UnrollTemplate` and `RunOnDevice`
calls, and for every trip count `N ≥ 1` not yet cached, the graph definition that
`UnrollTemplate` builds for `N` (name, operators with their names, inputs and outputs,
targets, arguments) is the graph built for `N` directly after `InitTemplate`. -/
theorem C18_history_independence (op : ScanOp) (hsym : SymbolsNoAt op) (s : ScanOp)
    (hr : Reach op s) (ws ws0 : Workspace) (N : Nat)
    (h : tripCount s ws = some (N : Int))
    (h0 : tripCount (InitTemplate op.fresh) ws0 = some (N : Int)) (hN : 1 ≤ N)
    (hdim : ∀ i, i < op.nseqs → ws.dim (op.Input i) op.axis = N)
    (hdim0 : ∀ i, i < op.nseqs → ws0.dim (op.Input i) op.axis = N)
    (hc : s.graphs N = none) :
    ∃ g, unrolledGraph s ws = some g ∧ unrolledGraph (InitTemplate op.fresh) ws0 = some g := by
  obtain ⟨tm, nd, gr, c, n0, rfl, hm⟩ := Reach_Hist op hsym s hr
  refine ⟨_, unrolledGraph_later op ws tm nd gr c n0 N h hN hdim hc, ?_⟩
  rw [InitTemplate_later] at h0 ⊢
  rw [unrolledGraph_later op ws0 (terms1 op) {} (fun _ => none) none op.nsteps N h0 hN
    hdim0 rfl]
  have hsl : (List.range op.nseqs).map (unrolledSlice op ws0)
      = (List.range op.nseqs).map (unrolledSlice op ws) :=
    List.map_congr_left (fun i hi => by
      simp only [unrolledSlice, hdim i (List.mem_range.1 hi), hdim0 i (List.mem_range.1 hi)])
  rw [hsl, allSteps_couple op hsym tm hm]
  rfl

/-- C18, witness: `exScan` after a run for the trip count 3, unrolled for the trip
count 2. -/
theorem C18_history_independence_witness :
    ∃ g, unrolledGraph (match RunOnDevice (InitTemplate exScan.fresh) (exWs 3) with
          | Result.ok r => r | Result.fatal r => r).1 (exWs 2) = some g ∧
      unrolledGraph (InitTemplate exScan.fresh) (exWs 2) = some g :=
  C18_history_independence exScan (by decide) _
    (Reach.run _ (exWs 3) _ Reach.init rfl) (exWs 2) (exWs 2) 2 (by decide) (by decide)
    (by decide) (by decide) (by decide) rfl


/-! ## `str::split` with an arbitrary delimiter -/

theorem find_char_some (d : Char) : ∀ (temp : List Char) (pos : Nat),
    find [d] temp = some pos →
    pos < temp.length ∧ temp.take pos = temp.takeWhile (fun c => c != d) ∧
      temp = temp.take pos ++ d :: temp.drop (pos + 1) := by
  intro temp
  induction temp with
  | nil => intro pos h; simp [find] at h
  | cons x xs ih =>
    intro pos h
    simp only [find, List.isPrefixOf, Bool.and_true] at h
    by_cases hx : d = x
    · subst hx
      simp at h
      subst h
      simp
    · have hx2 : (d == x) = false := by simpa using hx
      rw [hx2] at h
      simp only [Bool.false_eq_true, if_false, Option.map_eq_some'] at h
      obtain ⟨p, hp, rfl⟩ := h
      obtain ⟨h1, h2, h3⟩ := ih p hp
      have hx3 : (x != d) = true := by simpa using fun e => hx e.symm
      refine ⟨by simp; omega, ?_, ?_⟩
      · simp [List.takeWhile, hx3, h2]
      · simp only [List.take_succ_cons, List.drop_succ_cons, List.cons_append]
        rw [← h3]

theorem find_char_none (d : Char) : ∀ (temp : List Char), find [d] temp = none →
    temp.takeWhile (fun c => c != d) = temp := by
  intro temp
  induction temp with
  | nil => intro _; rfl
  | cons x xs ih =>
    intro h
    simp only [find, List.isPrefixOf, Bool.and_true] at h
    by_cases hx : d = x
    · subst hx; simp at h
    · have hx2 : (d == x) = false := by simpa using hx
      rw [hx2] at h
      simp only [Bool.false_eq_true, if_false, Option.map_eq_none'] at h
      have hx3 : (x != d) = true := by simpa using fun e => hx e.symm
      simp [List.takeWhile, hx3, ih h]

/-- With a one-character delimiter the loop returns, its first new piece is the text
before the first delimiter, and the new pieces joined with the delimiter are the text. -/
theorem splitLoop_char (d : Char) (fuel : Nat) : ∀ (temp : List Char)
    (ret : List (List Char)), temp.length < fuel →
    ∃ rest, splitLoop [d] fuel temp ret
        = some (ret ++ temp.takeWhile (fun c => c != d) :: rest) ∧
      List.intercalate [d] (temp.takeWhile (fun c => c != d) :: rest) = temp := by
  induction fuel with
  | zero => intro temp ret h; omega
  | succ f ih =>
    intro temp ret h
    simp only [splitLoop]
    cases hf : find [d] temp with
    | none =>
      refine ⟨[], by simp [find_char_none d temp hf], ?_⟩
      simp [List.intercalate, find_char_none d temp hf]
    | some pos =>
      obtain ⟨h1, h2, h3⟩ := find_char_some d temp pos hf
      obtain ⟨rest, hr, hj⟩ := ih (temp.drop (pos + 1)) (ret ++ [temp.take pos])
        (by simp; omega)
      refine ⟨(temp.drop (pos + 1)).takeWhile (fun c => c != d) :: rest, ?_, ?_⟩
      · show splitLoop [d] f (List.drop (pos + 1) temp) (ret ++ [List.take pos temp]) = _
        rw [hr, h2]; simp
      · rw [← h2]
        simp only [List.intercalate] at hj ⊢
        rw [List.intersperse_cons₂, List.flatten_cons, List.flatten_cons, hj]
        simpa using h3.symm

/-- The round trip of `str::split` for a delimiter of one character: the call returns a
non-empty list, its first element is the text before the first delimiter, and the
elements joined with the delimiter are the input. -/
theorem split_char_round_trip (s : String) (d : Char) :
    ∃ rest, split s (String.singleton d)
        = some (String.mk (s.data.takeWhile (fun c => c != d)) :: rest) ∧
      List.intercalate [d]
        ((String.mk (s.data.takeWhile (fun c => c != d)) :: rest).map String.data)
          = s.data := by
  have hl : s.data.length < s.length + 1 := Nat.lt_succ_self _
  obtain ⟨rest, hr, hj⟩ := splitLoop_char d (s.length + 1) s.data [] hl
  have hd : (String.singleton d).data = [d] := rfl
  refine ⟨rest.map String.mk, ?_, ?_⟩
  · unfold split
    rw [hd, hr]
    rfl
  · have e : (rest.map String.mk).map String.data = rest := by
      rw [List.map_map]
      exact List.map_id _
    rw [List.map_cons, e]
    exact hj


/-- C21. The round trip of `str::split` fails for a delimiter of two characters: line 33
erases `pos + 1` characters, one past the start of the occurrence, whatever the length of
the delimiter.  `split("a::b", "::")` returns `["a", ":b"]`, which joined with `::` gives
`a:::b` and not the input `a::b`. -/
theorem C21_multichar_delimiter :
    split "a::b" "::" = some ["a", ":b"] ∧
    find "::".data "a::b".data = some 1 ∧
    "a::b".data.drop (1 + 1) = ":b".data ∧
    String.intercalate "::" ["a", ":b"] = "a:::b" ∧
    String.intercalate "::" ["a", ":b"] ≠ "a::b" := by
  refine ⟨by decide, by decide, by decide, by decide, by decide⟩

/-- Where `find` reports an occurrence, the whole delimiter fits into the text from
there. -/
theorem find_some_le (c : List Char) : ∀ (temp : List Char) (pos : Nat),
    find c temp = some pos → pos + c.length ≤ temp.length := by
  intro temp
  induction temp with
  | nil =>
    intro pos h
    simp only [find] at h
    by_cases hc : c = []
    · rw [if_pos hc] at h
      have := Option.some.inj h
      subst hc
      simp; omega
    · rw [if_neg hc] at h; simp at h
  | cons x xs ih =>
    intro pos h
    simp only [find] at h
    by_cases hp : c.isPrefixOf (x :: xs) = true
    · rw [if_pos hp] at h
      have := Option.some.inj h
      have hle := (List.isPrefixOf_iff_prefix.1 hp).length_le
      omega
    · rw [if_neg hp] at h
      simp only [Option.map_eq_some'] at h
      obtain ⟨p, hp2, rfl⟩ := h
      have := ih p hp2
      simp only [List.length_cons]
      omega

/-- With a non-empty delimiter every iteration that finds it strictly shortens the
remaining text, so the loop returns within `temp.length + 1` evaluations of its condition
and pushes at most `temp.length + 1` pieces. -/
theorem splitLoop_terminates (c : List Char) (hc : c ≠ []) (fuel : Nat) :
    ∀ (temp : List Char) (ret : List (List Char)), temp.length < fuel →
    ∃ r, splitLoop c fuel temp ret = some r ∧ ret.length + 1 ≤ r.length ∧
      r.length ≤ ret.length + temp.length + 1 := by
  have hcl : 1 ≤ c.length := by
    cases c with
    | nil => exact absurd rfl hc
    | cons a l => simp
  induction fuel with
  | zero => intro temp ret h; omega
  | succ f ih =>
    intro temp ret h
    simp only [splitLoop]
    cases hf : find c temp with
    | none => exact ⟨_, rfl, by simp, by simp⟩
    | some pos =>
      have hle := find_some_le c temp pos hf
      obtain ⟨r, hr, h1, h2⟩ := ih (temp.drop (pos + 1)) (ret ++ [temp.take pos])
        (by simp; omega)
      refine ⟨r, hr, ?_, ?_⟩
      · simp only [List.length_append, List.length_singleton] at h1
        omega
      · simp only [List.length_append, List.length_singleton, List.length_drop] at h2
        omega

/-- For a non-empty delimiter `str::split` returns, after at most `str.length`
iterations that found the delimiter: the list has between 1 and `str.length + 1`
elements. -/
theorem split_terminates (s c : String) (hc : c.data ≠ []) :
    ∃ r, split s c = some r ∧ 1 ≤ r.length ∧ r.length ≤ s.length + 1 := by
  obtain ⟨r, hr, h1, h2⟩ := splitLoop_terminates c.data hc (s.length + 1) s.data []
    (Nat.lt_succ_self _)
  refine ⟨r.map String.mk, ?_, ?_, ?_⟩
  · unfold split; rw [hr]; rfl
  · simpa using h1
  · simpa using h2

/-- With the empty delimiter the loop condition holds whatever the remaining text is. -/
theorem splitLoop_empty (fuel : Nat) : ∀ (temp : List Char) (ret : List (List Char)),
    splitLoop [] fuel temp ret = none := by
  induction fuel with
  | zero => intro temp ret; rfl
  | succ f ih =>
    intro temp ret
    have hf : find [] temp = some 0 := by
      cases temp with
      | nil => rfl
      | cons x xs => simp [find, List.isPrefixOf]
    simp only [splitLoop, hf]
    exact ih _ _

/-- C22. The loop of `str::split` does not end for the empty delimiter: `find("")`
reports position 0 in every text, the empty one included, where `erase(0, 1)` removes
nothing, so the iterations that find the delimiter stop shortening the remaining text and
no number of iterations ends the loop; `split("ab", "")` never returns. -/
theorem C22_empty_delimiter :
    find "".data [] = some 0 ∧ ([] : List Char).drop (0 + 1) = [] ∧
    (∀ (fuel : Nat) (ret : List (List Char)), splitLoop "".data fuel "ab".data ret = none) ∧
    split "ab" "" = none := by
  refine ⟨by decide, rfl, fun fuel ret => splitLoop_empty fuel _ ret, by decide⟩


/-! ## `ReshapeOp::RunOnDevice` -/

theorem wrap64_add_mul (x t : Int) : wrap64 (x + 18446744073709551616 * t) = wrap64 x := by
  unfold wrap64; omega

theorem wrap64_exists (a : Int) : ∃ k, wrap64 a = a + 18446744073709551616 * k :=
  ⟨-((a + 9223372036854775808) / 18446744073709551616), by unfold wrap64; omega⟩

/-- A `TIndex` product of a `TIndex` value is the `TIndex` value of the product. -/
theorem wrap64_mul (a b : Int) : wrap64 (wrap64 a * b) = wrap64 (a * b) := by
  obtain ⟨k, hk⟩ := wrap64_exists a
  rw [hk]
  have e : (a + 18446744073709551616 * k) * b = a * b + 18446744073709551616 * (k * b) := by
    ring
  rw [e, wrap64_add_mul]

theorem wrap64_of_range (x : Int) (h : InRange64 x) : wrap64 x = x := by
  unfold InRange64 at h
  unfold wrap64; omega

theorem getD_nonneg (Xdims : List Int) (hX : ∀ d ∈ Xdims, 0 ≤ d) (i : Nat) :
    0 ≤ Xdims.getD i 0 := by
  rw [List.getD_eq_getElem?_getD]
  cases h : Xdims[i]? with
  | none => simp
  | some d => exact hX d (mem_of_getElem? _ _ _ h)

theorem getD_append_length (l : List Int) (x : Int) : (l ++ [x]).getD l.length 0 = x := by
  rw [List.getD_eq_getElem?_getD, List.getElem?_append_right (Nat.le_refl _)]
  simp

/-- One iteration of the first loop maintains `ReshapeInv`. -/
theorem reshapeStep_inv (Xdims r : List Int) (hX : ∀ d ∈ Xdims, 0 ≤ d)
    (s s' : ReshapeState) (hs : ReshapeInv Xdims r s.new_shape.length s)
    (h : reshapeStep Xdims r (some s) s.new_shape.length = some s') :
    ReshapeInv Xdims r (s.new_shape.length + 1) s' := by
  obtain ⟨_, hent, hcase⟩ := hs
  have hold : ∀ (x : Int), ∀ j, j < s.new_shape.length →
      (0 < r.getD j 0 → (s.new_shape ++ [x])[j]? = some (r.getD j 0)) ∧
      (r.getD j 0 = 0 → j < Xdims.length ∧
        (s.new_shape ++ [x])[j]? = some (Xdims.getD j 0)) := by
    intro x j hj
    rw [List.getElem?_append_left (by omega)]
    exact hent j hj
  have hnew : ∀ (x : Int), (s.new_shape ++ [x])[s.new_shape.length]? = some x := by
    intro x
    rw [List.getElem?_append_right (by omega)]
    simp
  -- appending a resolved entry `x ≠ -1`
  have happ : ∀ (x : Int), x ≠ -1 → 0 ≤ r.getD s.new_shape.length 0 →
      (0 < r.getD s.new_shape.length 0 → x = r.getD s.new_shape.length 0) →
      (r.getD s.new_shape.length 0 = 0 → s.new_shape.length < Xdims.length ∧ x = Xdims.getD s.new_shape.length 0) →
      ReshapeInv Xdims r (s.new_shape.length + 1)
        { s with new_shape := s.new_shape ++ [x], total_count := wrap64 (s.total_count * x) } := by
    intro x hx hr0 hpos hzero
    refine ⟨by simp, ?_, ?_⟩
    · intro j hj
      by_cases hjn : j = s.new_shape.length
      · subst hjn
        exact ⟨fun h1 => by rw [hnew, hpos h1],
          fun h1 => ⟨(hzero h1).1, by rw [hnew, (hzero h1).2]⟩⟩
      · exact hold x j (by omega)
    · rcases hcase with ⟨h1, h2, h3, h4⟩ | ⟨A, B, h1, h2, h3, h4, h5, h6, h7⟩
      · left
        refine ⟨h1, ?_, ?_, ?_⟩
        · intro j hj
          by_cases hjn : j = s.new_shape.length
          · subst hjn; exact hr0
          · exact h2 j (by omega)
        · simp only [List.mem_append, List.mem_singleton, not_or]
          exact ⟨h3, fun e => hx e.symm⟩
        · show wrap64 (s.total_count * x) = wrap64 (s.new_shape ++ [x]).prod
          rw [h4, wrap64_mul, List.prod_append]; simp
      · right
        refine ⟨A, B ++ [x], by simp [h1], h2, ?_, h4, h5, ?_, ?_⟩
        · simp only [List.mem_append, List.mem_singleton, not_or]
          exact ⟨h3, fun e => hx e.symm⟩
        · intro j hj hneg
          by_cases hjn : j = s.new_shape.length
          · subst hjn; omega
          · exact h6 j (by omega) hneg
        · show wrap64 (s.total_count * x) = wrap64 (A ++ (B ++ [x])).prod
          rw [h7, wrap64_mul, ← List.append_assoc, List.prod_append]; simp [mul_assoc]
  unfold reshapeStep at h
  simp only at h
  by_cases hr : r.getD s.new_shape.length 0 = 0
  · rw [if_pos hr] at h
    by_cases hx : s.new_shape.length < Xdims.length
    · rw [if_pos hx] at h
      have hne : Xdims.getD s.new_shape.length 0 ≠ -1 := by
        have := getD_nonneg Xdims hX s.new_shape.length
        omega
      simp only at h
      rw [getD_append_length, if_pos hne] at h
      cases Option.some.inj h
      exact happ _ hne (by omega) (fun h1 => by omega) (fun _ => ⟨hx, rfl⟩)
    · rw [if_neg hx] at h
      cases h
  · rw [if_neg hr] at h
    by_cases hp : r.getD s.new_shape.length 0 > 0
    · rw [if_pos hp] at h
      have hne : r.getD s.new_shape.length 0 ≠ -1 := by omega
      simp only at h
      rw [getD_append_length, if_pos hne] at h
      cases Option.some.inj h
      exact happ _ hne (by omega) (fun _ => rfl) (fun h1 => absurd h1 hr)
    · rw [if_neg hp] at h
      by_cases hi : s.infer_dim = -1
      · rw [if_pos hi] at h
        simp only at h
        rw [getD_append_length] at h
        simp only [ne_eq, not_true_eq_false, if_false] at h
        cases Option.some.inj h
        rcases hcase with ⟨h1, h2, h3, h4⟩ | ⟨A, B, h1, h2, h3, h4, h5, h6, h7⟩
        · refine ⟨by simp, ?_, Or.inr ⟨s.new_shape, [], rfl, h3, by simp, rfl, ?_, ?_, ?_⟩⟩
          · intro j hj
            by_cases hjn : j = s.new_shape.length
            · subst hjn
              exact ⟨fun h1 => by omega, fun h1 => absurd h1 hr⟩
            · exact hold (-1) j (by omega)
          · omega
          · intro j hj hneg
            by_cases hjn : j = s.new_shape.length
            · exact hjn
            · have := h2 j (by omega)
              omega
          · simpa using h4
        · rw [hi] at h4
          omega
      · rw [if_neg hi] at h
        cases h

/-- The first loop, when all its checks pass, ends in a state satisfying `ReshapeInv`. -/
theorem reshape_loop_inv (Xdims r : List Int) (hX : ∀ d ∈ Xdims, 0 ≤ d) (n : Nat) :
    ∀ s, (List.range n).foldl (reshapeStep Xdims r) (some {}) = some s →
      ReshapeInv Xdims r n s := by
  induction n with
  | zero =>
    intro s h
    simp only [List.range_zero, List.foldl_nil, Option.some.injEq] at h
    subst h
    exact ⟨rfl, fun j hj => absurd hj (by omega),
      Or.inl ⟨rfl, fun j hj => absurd hj (by omega), by simp, by decide⟩⟩
  | succ n ih =>
    intro s h
    rw [List.range_succ, List.foldl_append, List.foldl_cons, List.foldl_nil] at h
    cases h0 : (List.range n).foldl (reshapeStep Xdims r) (some {}) with
    | none => rw [h0] at h; cases h
    | some s0 =>
      rw [h0] at h
      have hinv := ih s0 h0
      have hlen : s0.new_shape.length = n := hinv.1
      rw [← hlen] at h hinv ⊢
      exact reshapeStep_inv Xdims r hX s0 s hinv h

theorem indexOf_first (A B : List Int) (h : (-1 : Int) ∉ A) :
    (A ++ (-1 : Int) :: B).indexOf? (-1) = some A.length := by
  unfold List.indexOf?
  rw [List.findIdx?_append]
  have h1 : List.findIdx? (fun x => x == (-1 : Int)) A = none := by
    rw [List.findIdx?_eq_none_iff]
    intro x hx
    have hne : x ≠ (-1 : Int) := fun e => h (e ▸ hx)
    simpa using hne
  rw [h1]
  simp [List.findIdx?_cons]

theorem reshape_getD (r : List Int) (i : Nat) (v : Int) (h : r[i]? = some v) :
    r.getD i 0 = v ∧ i < r.length := by
  rw [List.getD_eq_getElem?_getD, h]
  exact ⟨rfl, (List.getElem?_eq_some_iff.1 h).1⟩


/-- Shape resolution when no `TIndex` product overflows: if `RunOnDevice` passes all its
checks for an input of dimensions `Xdims` (all non-negative) and a requested shape `r`,
and the product of the output entries other than the inferred one (of all entries when
none is inferred) is representable as a `TIndex`, then the output shape has the length of
`r`, its entry `i` is `r[i]` when `r[i] > 0`, is `Xdims[i]` when `r[i] = 0`, and for a
negative `r[i]`, which is then the only negative entry, is the input element count divided
by the (non-zero) product of the other entries; and the product of the output dimensions
is the input element count. -/
theorem reshape_resolution (Xdims : List Int) (count : Int) (r out : List Int)
    (hX : ∀ d ∈ Xdims, 0 ≤ d) (h : reshape Xdims count r = ReshapeResult.ok out)
    (hfit1 : (∀ j, j < r.length → 0 ≤ r.getD j 0) → InRange64 out.prod)
    (hfit2 : ∀ i, i < r.length → r.getD i 0 < 0 → InRange64 (out.eraseIdx i).prod) :
    out.length = r.length ∧
    (∀ (i : Nat) (v : Int), r[i]? = some v → 0 < v → out[i]? = some v) ∧
    (∀ (i : Nat), r[i]? = some 0 → i < Xdims.length ∧ out[i]? = Xdims[i]?) ∧
    (∀ (i : Nat) (v : Int), r[i]? = some v → v < 0 →
      out[i]? = some (Int.tdiv count (out.eraseIdx i).prod) ∧
      (out.eraseIdx i).prod ≠ 0 ∧
      ∀ (j : Nat) (v' : Int), r[j]? = some v' → v' < 0 → j = i) ∧
    out.prod = count := by
  unfold reshape at h
  cases h0 : (List.range r.length).foldl (reshapeStep Xdims r) (some {}) with
  | none => rw [h0] at h; cases h
  | some s =>
    rw [h0] at h
    simp only at h
    obtain ⟨hlen, hent, hcase⟩ := reshape_loop_inv Xdims r hX r.length s h0
    have hzero : ∀ (i : Nat), r[i]? = some 0 → i < Xdims.length ∧ s.new_shape[i]? = Xdims[i]? := by
      intro i hi
      obtain ⟨h1, h2⟩ := reshape_getD r i 0 hi
      obtain ⟨h3, h4⟩ := (hent i h2).2 h1
      refine ⟨h3, ?_⟩
      rw [h4, List.getD_eq_getElem?_getD, List.getElem?_eq_getElem h3]
      rfl
    have hpos : ∀ (i : Nat) (v : Int), r[i]? = some v → 0 < v → s.new_shape[i]? = some v := by
      intro i v hi hv
      obtain ⟨h1, h2⟩ := reshape_getD r i v hi
      have := (hent i h2).1 (by rw [h1]; exact hv)
      rw [h1] at this
      exact this
    rcases hcase with ⟨h1, h2, h3, h4⟩ | ⟨A, B, h1, h2, h3, h4, h5, h6, h7⟩
    · rw [if_neg (by simp [h1])] at h
      simp only at h
      by_cases hc : s.total_count = count
      · rw [if_pos hc] at h
        cases ReshapeResult.ok.inj h
        have hfit := hfit1 h2
        refine ⟨hlen, hpos, hzero, ?_, by rw [← hc, h4, wrap64_of_range _ hfit]⟩
        intro i v hi hv
        obtain ⟨e1, e2⟩ := reshape_getD r i v hi
        have := h2 i e2
        omega
      · rw [if_neg hc] at h
        cases h
    · have hne : s.infer_dim ≠ -1 := by rw [h4]; omega
      rw [if_pos hne, h1, indexOf_first A B h2] at h
      simp only at h
      by_cases hund : s.total_count = 0 ∨
          (count = -9223372036854775808 ∧ s.total_count = -1)
      · rw [if_pos hund] at h
        cases h
      · rw [if_neg hund] at h
        by_cases hm : Int.tmod count s.total_count ≠ 0
        · rw [if_pos hm] at h
          cases h
        · rw [if_neg hm] at h
          simp only at h
          by_cases hfin : wrap64 (s.total_count * Int.tdiv count s.total_count) = count
          · rw [if_pos hfin] at h
            have hset : (A ++ (-1 : Int) :: B).set A.length (Int.tdiv count s.total_count)
                = A ++ Int.tdiv count s.total_count :: B := by
              rw [List.set_append_right _ _ (Nat.le_refl _)]
              simp
            rw [hset] at h
            cases ReshapeResult.ok.inj h
            have herase : (A ++ Int.tdiv count s.total_count :: B).eraseIdx A.length
                = A ++ B := by
              rw [List.eraseIdx_append_of_length_le (Nat.le_refl _)]
              simp
            have hA : A.length < r.length := by rw [← hlen, h1]; simp
            have hfit := hfit2 A.length hA h5
            rw [herase] at hfit
            have hT : s.total_count = (A ++ B).prod := by rw [h7, wrap64_of_range _ hfit]
            have ht : (A ++ B).prod ≠ 0 := by
              rw [← hT]; exact fun e => hund (Or.inl e)
            have hq : (A ++ B).prod * Int.tdiv count (A ++ B).prod = count := by
              rw [← hT]
              exact Int.mul_tdiv_cancel_of_tmod_eq_zero (by simpa using hm)
            have hothers : ∀ i, i ≠ A.length →
                (A ++ Int.tdiv count s.total_count :: B)[i]? = s.new_shape[i]? := by
              intro i hi
              rw [h1]
              by_cases hlt : i < A.length
              · rw [List.getElem?_append_left hlt, List.getElem?_append_left hlt]
              · rw [List.getElem?_append_right (by omega),
                  List.getElem?_append_right (by omega)]
                have : i - A.length = (i - A.length - 1) + 1 := by omega
                rw [this]
                rfl
            have hneg : ∀ (i : Nat) (v : Int), r[i]? = some v → v < 0 → i = A.length := by
              intro i v hi hv
              obtain ⟨e1, e2⟩ := reshape_getD r i v hi
              exact h6 i e2 (by rw [e1]; exact hv)
            refine ⟨by rw [← hlen, h1]; simp, ?_, ?_, ?_, ?_⟩
            · intro i v hi hv
              have hia : i ≠ A.length := by
                intro e
                obtain ⟨e1, _⟩ := reshape_getD r i v hi
                rw [e] at e1
                omega
              rw [hothers i hia]
              exact hpos i v hi hv
            · intro i hi
              have hia : i ≠ A.length := by
                intro e
                obtain ⟨e1, _⟩ := reshape_getD r i 0 hi
                rw [e] at e1
                omega
              rw [hothers i hia]
              exact hzero i hi
            · intro i v hi hv
              have hia := hneg i v hi hv
              subst hia
              rw [herase]
              refine ⟨?_, ht, fun j v' hj hv' => hneg j v' hj hv'⟩
              rw [List.getElem?_append_right (Nat.le_refl _), hT]
              simp
            · rw [List.prod_append, List.prod_cons, hT]
              have hP : (A ++ B).prod = A.prod * B.prod := List.prod_append
              generalize Int.tdiv count (A ++ B).prod = q at hq ⊢
              rw [hP] at hq
              linear_combination hq
          · rw [if_neg hfin] at h
            cases h

/-- The statement `reshape_resolution` at work: a tensor of dimensions 2 x 3 x 4 reshaped
with the request `[0, -1]` keeps its first dimension and gets 24 / 2 as its second. -/
theorem reshape_resolution_example :
    reshape [2, 3, 4] 24 [0, -1] = ReshapeResult.ok [2, 12] ∧
    ([2, 12] : List Int)[0]? = ([2, 3, 4] : List Int)[0]? ∧
    ([2, 12] : List Int)[1]? = some (Int.tdiv 24 (([2, 12] : List Int).eraseIdx 1).prod) ∧
    ([2, 12] : List Int).prod = 24 :=
  have h := reshape_resolution [2, 3, 4] 24 [0, -1] [2, 12] (by decide) (by decide)
    (by decide) (by decide)
  ⟨by decide, (h.2.2.1 0 (by decide)).2, (h.2.2.2.1 1 (-1) (by decide) (by decide)).1,
    h.2.2.2.2⟩

/-- C19, evaluated on failing inputs.  A tensor of 65536 elements and the request
`[65536, 65537, 193, 22253377]`: the `TIndex` product of line 41 is 2^64 + 65536 reduced
modulo 2^64, that is 65536, so the `CHECK_EQ` of line 58 passes and the output gets a
shape whose dimensions multiply to 2^64 + 65536, not to the element count 65536.  With the
request `[65536, 65537, 193, 22253377, -1]` every check passes as well and the inferred
entry is 65536 / 65536 = 1, not the element count divided by the product of the other
entries. -/
theorem C19_reshape_overflow :
    (List.range 4).foldl (reshapeStep [65536] [65536, 65537, 193, 22253377]) (some {})
      = some { new_shape := [65536, 65537, 193, 22253377], infer_dim := -1,
               total_count := 65536 } ∧
    reshape [65536] 65536 [65536, 65537, 193, 22253377]
      = ReshapeResult.ok [65536, 65537, 193, 22253377] ∧
    ([65536, 65537, 193, 22253377] : List Int).prod = 18446744073709551616 + 65536 ∧
    ([65536, 65537, 193, 22253377] : List Int).prod ≠ 65536 ∧
    reshape [65536] 65536 [65536, 65537, 193, 22253377, -1]
      = ReshapeResult.ok [65536, 65537, 193, 22253377, 1] ∧
    Int.tdiv 65536 (([65536, 65537, 193, 22253377, 1] : List Int).eraseIdx 4).prod ≠ 1 := by
  refine ⟨by decide, by decide, by decide, by decide, by decide, by decide⟩

/-- C20, evaluated on a failing input: for a tensor of 5 elements and the request
`[65536, 65536, 65536, 65536, -1]` the first loop passes its checks and leaves the
`TIndex` product `total_count` = 2^64 reduced modulo 2^64, that is 0; line 48 then
evaluates `Input(0).count() % total_count`, a division by zero. -/
theorem C20_division_by_zero :
    (∀ d ∈ ([5] : List Int), 0 ≤ d) ∧
    (List.range 5).foldl (reshapeStep [5] [65536, 65536, 65536, 65536, -1]) (some {})
      = some { new_shape := [65536, 65536, 65536, 65536, -1], infer_dim := 4,
               total_count := 0 } ∧
    wrap64 (65536 * 65536 * 65536 * 65536) = 0 ∧
    reshape [5] 5 [65536, 65536, 65536, 65536, -1] = ReshapeResult.undefined := by
  refine ⟨by decide, by decide, by decide, by decide⟩


/-! ## The gradient targets appended by `MakeOps` -/

theorem countP_row (op : ScanGradientOp) (c c' w : String) (F : List Nat) :
    (F.map (fun i => ({ cost := c', wrt := op.Input i, external := op.Output i } :
        GradientTarget))).countP (fun gt => decide (gt.cost = c ∧ gt.wrt = w))
      = if c' = c then F.countP (fun i => decide (op.Input i = w)) else 0 := by
  induction F with
  | nil => simp
  | cons a l ih =>
    rw [List.map_cons, List.countP_cons, ih]
    by_cases h : c' = c
    · simp [h, List.countP_cons]
    · simp [h]

/-- The number of triples with cost `c` and wrt `w` among those made for a target list
and an index list. -/
theorem countP_triples (op : ScanGradientOp) (c w : String) (F : List Nat)
    (targets : List String) :
    (targets.flatMap (fun c' => F.map (fun i =>
        ({ cost := c', wrt := op.Input i, external := op.Output i } : GradientTarget)))).countP
        (fun gt => decide (gt.cost = c ∧ gt.wrt = w))
      = targets.count c * F.countP (fun i => decide (op.Input i = w)) := by
  induction targets with
  | nil => simp
  | cons c' l ih =>
    rw [List.flatMap_cons, List.countP_append, ih, countP_row, List.count_cons]
    by_cases h : c' = c
    · simp [h]; ring
    · simp [h]

theorem countP_index (op : ScanGradientOp) (F : List Nat) (hF : F.Nodup) (i : Nat)
    (hi : i ∈ F) (hinj : ∀ j ∈ F, op.Input j = op.Input i → j = i) :
    F.countP (fun j => decide (op.Input j = op.Input i)) = 1 := by
  have h : F.countP (fun j => decide (op.Input j = op.Input i)) = F.count i := by
    unfold List.count
    apply List.countP_congr
    intro j hj
    simp only [decide_eq_true_eq, beq_iff_eq]
    exact ⟨fun e => hinj j hj e, fun e => by rw [e]⟩
  rw [h, List.count_eq_one_of_mem hF hi]


/-- C10 (amended). Gradient-target bookkeeping and ignore rule: when `MakeOps` builds (the
trip count resolves and no backward graph is cached for it), the triples `L` it appends
to the gradient targets are exactly, for each forward target `c` in order and each index
`i < OutputSize()` in increasing order such that neither `Output(i)` nor `Input(i)` is
named "ignore", the triple `(c, Input(i), Output(i))`; no appended triple has `wrt` or
`external` equal to "ignore"; the appended triples with cost `c` and wrt `w` are as many
as the occurrences of `c` among the targets times the non-ignored indices whose input is
named `w`, which is exactly one for every target and every non-ignored wrt when the
targets are pairwise distinct and the non-ignored indices have pairwise distinct input
names; and the names registered with `AddExternalGrad` are the output gradients
`Input(i + OutputSize())`, `i < forward_outputs.size()`, that are not named "ignore". -/
theorem C10_gradient_targets
    (make : GraphGradientMaker → GraphDef → List String → GraphDef → GraphDef)
    (op op1 : ScanGradientOp) (ws : Workspace) (forward_def new_def : GraphDef)
    (hres : op.resolve ws = Result.ok op1) (hc : op1.graphs op1.nsteps = none) :
    ∃ g L, MakeOps make op ws forward_def new_def = Result.ok (op1, g) ∧
      g.g_target
        = (make (makerFor op1) forward_def forward_def.target new_def).g_target ++ L ∧
      L = forward_def.target.flatMap (fun c => (gradIndices op).map
            (fun i => { cost := c, wrt := op.Input i, external := op.Output i })) ∧
      (∀ gt ∈ L, gt.wrt ≠ "ignore" ∧ gt.external ≠ "ignore") ∧
      (∀ c w : String, L.countP (fun gt => decide (gt.cost = c ∧ gt.wrt = w))
        = forward_def.target.count c *
            (gradIndices op).countP (fun i => decide (op.Input i = w))) ∧
      (forward_def.target.Nodup →
        (∀ i ∈ gradIndices op, ∀ j ∈ gradIndices op, op.Input i = op.Input j → i = j) →
        ∀ c ∈ forward_def.target, ∀ i, i < op.OutputSize → op.Output i ≠ "ignore" →
          op.Input i ≠ "ignore" →
          L.countP (fun gt => decide (gt.cost = c ∧ gt.wrt = op.Input i)) = 1) ∧
      (makerFor op1).external_grads =
        ((List.range op.forward_outputs.length).map
          (fun i => op.Input (i + op.OutputSize))).filter (fun x => decide (x ≠ "ignore")) := by
  have hfr := resolve_frame op op1 ws hres
  have eI : op1.Input = op.Input := by rw [hfr]; rfl
  have eO : op1.Output = op.Output := by rw [hfr]; rfl
  have eS : op1.OutputSize = op.OutputSize := by rw [hfr]; rfl
  have eF : op1.forward_outputs = op.forward_outputs := by rw [hfr]
  refine ⟨forward_def.target.foldl (addGTargets op1)
    { make (makerFor op1) forward_def forward_def.target new_def with
        name := op1.name ++ "(ScanLen." ++ toString op1.nsteps ++ ")" }, _, ?_, ?_, rfl,
    ?_, ?_, ?_, ?_⟩
  · unfold MakeOps
    rw [hres]
    simp only [hc, Option.isSome_none, Bool.false_eq_true, if_false]
  · rw [addGTargets_fold, eI, eO, eS]
    rfl
  · intro gt hgt
    obtain ⟨c, _, hc2⟩ := List.mem_flatMap.1 hgt
    obtain ⟨i, hi, rfl⟩ := List.mem_map.1 hc2
    have := (List.mem_filter.1 hi).2
    simp only [decide_eq_true_eq] at this
    exact ⟨this.2, this.1⟩
  · intro c w
    exact countP_triples op c w (gradIndices op) forward_def.target
  · intro hnd hinj c hcm i hi h1 h2
    have hmem : i ∈ gradIndices op :=
      List.mem_filter.2 ⟨List.mem_range.2 hi, by simp [h1, h2]⟩
    rw [countP_triples, List.count_eq_one_of_mem hnd hcm,
      countP_index op (gradIndices op) ((List.nodup_range _).filter _) i hmem
        (fun j hj e => hinj j hj i hmem e)]
  · unfold makerFor
    rw [addExternal_fold, eI, eS, eF]
    simp

/-- C10, witness: `exGrad` building for the trip count 2 from a forward graph with the
targets `h@2` and `h`: two triples are appended, one per target, each with wrt `x`. -/
theorem C10_gradient_targets_witness :
    ∃ g L, MakeOps (fun _ _ _ nd => nd) exGrad (exWs 2) { target := ["h@2", "h"] } {}
        = Result.ok ({ exGrad with nsteps := 2 }, g) ∧
      g.g_target = ({} : GraphDef).g_target ++ L ∧
      L = [{ cost := "h@2", wrt := "x", external := "x_grad" },
           { cost := "h", wrt := "x", external := "x_grad" }] ∧
      L.countP (fun gt => decide (gt.cost = "h" ∧ gt.wrt = exGrad.Input 0)) = 1 :=
  match C10_gradient_targets (fun _ _ _ nd => nd) exGrad { exGrad with nsteps := 2 } (exWs 2)
    { target := ["h@2", "h"] } {} rfl rfl with
  | ⟨g, L, h1, h2, h3, _, _, h6, _⟩ =>
    ⟨g, L, h1, h2, h3.trans (by decide),
      h6 (by decide) (by decide) "h" (by decide) 0 (by decide) (by decide) (by decide)⟩

/-- C10, counterexample: the first two inputs of `exDupGrad` are both named `x`, and
neither they nor the outputs are named "ignore"; for the single forward target `h` the
loop of lines 199-208 appends two triples with wrt `x`, not exactly one. -/
theorem C10_counterexample :
    ∃ g, MakeOps (fun _ _ _ nd => nd) exDupGrad (exWs 2) { target := ["h"] } {}
        = Result.ok ({ exDupGrad with nsteps := 2 }, g) ∧
      g.g_target = [{ cost := "h", wrt := "x", external := "dx0" },
                    { cost := "h", wrt := "x", external := "dx1" }] ∧
      g.g_target.countP (fun gt => decide (gt.cost = "h" ∧ gt.wrt = "x")) = 2 :=
  ⟨_, rfl, by decide, by decide⟩


/-! ## The divisor of `ReshapeOp::RunOnDevice` -/

theorem prod_ge_one (l : List Int) (h : ∀ x ∈ l, 1 ≤ x) : 1 ≤ l.prod := by
  induction l with
  | nil => simp
  | cons a l ih =>
    rw [List.prod_cons]
    have h1 : 1 ≤ a := h a (List.mem_cons_self _ _)
    have h2 : 1 ≤ l.prod := ih (fun x hx => h x (List.mem_cons_of_mem _ hx))
    nlinarith

/-- When every input dimension is at least 1 and the product of the entries resolved by
the first loop is representable as a `TIndex`, the first loop leaves `total_count ≥ 1`:
the divisor of lines 48 and 52 is not zero. -/
theorem reshape_divisor_pos (Xdims r : List Int) (hX : ∀ d ∈ Xdims, 1 ≤ d)
    (s : ReshapeState)
    (hloop : (List.range r.length).foldl (reshapeStep Xdims r) (some {}) = some s)
    (hfit : InRange64 (s.new_shape.filter (fun v => decide (v ≠ -1))).prod) :
    1 ≤ s.total_count := by
  obtain ⟨hlen, hent, hcase⟩ := reshape_loop_inv Xdims r
    (fun d hd => by have := hX d hd; omega) r.length s hloop
  have hentry : ∀ (j : Nat) (x : Int), s.new_shape[j]? = some x → 0 ≤ r.getD j 0 → 1 ≤ x := by
    intro j x hj hr
    have hjn : j < r.length := by
      rw [← hlen]; exact (List.getElem?_eq_some_iff.1 hj).1
    by_cases h0 : r.getD j 0 = 0
    · obtain ⟨h1, h2⟩ := (hent j hjn).2 h0
      rw [h2] at hj
      rw [← Option.some.inj hj, List.getD_eq_getElem _ _ h1]
      exact hX _ (List.getElem_mem _)
    · have h1 := (hent j hjn).1 (by omega)
      rw [h1] at hj
      rw [← Option.some.inj hj]
      omega
  rcases hcase with ⟨_, h2, h3, h4⟩ | ⟨A, B, h1, h2, h3, _, h5, h6, h7⟩
  · have hf : s.new_shape.filter (fun v => decide (v ≠ -1)) = s.new_shape := by
      rw [List.filter_eq_self]
      intro x hx
      have hne : x ≠ (-1 : Int) := fun e => h3 (e ▸ hx)
      simpa using hne
    rw [hf] at hfit
    rw [h4, wrap64_of_range _ hfit]
    apply prod_ge_one
    intro x hx
    obtain ⟨j, hj, e⟩ := List.getElem_of_mem hx
    exact hentry j x (by rw [List.getElem?_eq_getElem hj, e]) (h2 j (by omega))
  · have hfA : A.filter (fun v => decide (v ≠ -1)) = A := by
      rw [List.filter_eq_self]
      intro x hx
      have hne : x ≠ (-1 : Int) := fun e => h2 (e ▸ hx)
      simpa using hne
    have hfB : B.filter (fun v => decide (v ≠ -1)) = B := by
      rw [List.filter_eq_self]
      intro x hx
      have hne : x ≠ (-1 : Int) := fun e => h3 (e ▸ hx)
      simpa using hne
    have hf : s.new_shape.filter (fun v => decide (v ≠ -1)) = A ++ B := by
      rw [h1, List.filter_append, List.filter_cons, hfA, hfB]
      simp
    rw [hf] at hfit
    rw [h7, wrap64_of_range _ hfit]
    apply prod_ge_one
    intro x hx
    have hnx : x ≠ -1 := by
      rcases List.mem_append.1 hx with h | h
      · exact fun e => h2 (e ▸ h)
      · exact fun e => h3 (e ▸ h)
    have hx2 : x ∈ s.new_shape := by
      rw [h1]
      rcases List.mem_append.1 hx with h | h
      · exact List.mem_append_left _ h
      · exact List.mem_append_right _ (List.mem_cons_of_mem _ h)
    obtain ⟨j, hj, e⟩ := List.getElem_of_mem hx2
    have hj2 : s.new_shape[j]? = some x := by rw [List.getElem?_eq_getElem hj, e]
    apply hentry j x hj2
    by_contra hneg
    have hjA := h6 j (by omega) (by omega)
    rw [hjA, h1, List.getElem?_append_right (Nat.le_refl _)] at hj2
    simp at hj2
    exact hnx hj2.symm

/-- Under the hypotheses of `reshape_divisor_pos` no division of `RunOnDevice` is
undefined. -/
theorem reshape_defined (Xdims : List Int) (count : Int) (r : List Int)
    (hX : ∀ d ∈ Xdims, 1 ≤ d)
    (hfit : ∀ s, (List.range r.length).foldl (reshapeStep Xdims r) (some {}) = some s →
      InRange64 (s.new_shape.filter (fun v => decide (v ≠ -1))).prod) :
    reshape Xdims count r ≠ ReshapeResult.undefined := by
  unfold reshape
  cases h0 : (List.range r.length).foldl (reshapeStep Xdims r) (some {}) with
  | none => simp
  | some s =>
    have hT := reshape_divisor_pos Xdims r hX s h0 (hfit s h0)
    have hund : ¬ (s.total_count = 0 ∨
        (count = -9223372036854775808 ∧ s.total_count = -1)) := by omega
    simp only
    by_cases h1 : s.infer_dim ≠ -1
    · rw [if_pos h1]
      cases h2 : s.new_shape.indexOf? (-1) with
      | none => simp only; split <;> simp
      | some i =>
        simp only
        rw [if_neg hund]
        by_cases h3 : Int.tmod count s.total_count ≠ 0
        · rw [if_pos h3]; simp
        · rw [if_neg h3]; simp only; split <;> simp
    · rw [if_neg h1]; simp only; split <;> simp

end Dragon
